import Mathlib

/-!
Verification of the manifest reconciliation engine of pipeline.js
(src/lib/hashly.js), against its natural-language specification.

The embedding models:
  * posix-style path arithmetic (the subset of the node path module the
    source uses: join, resolve, relative, dirname, extname, basename),
  * the collaborator modules that are not part of src/ (hash-pattern,
    file-system-util, css-processor, hashcode-generator,
    serializer-factory), each modelled from the spec,
  * the reconciliation engine itself (processEntry, createManifest,
    processFiles, cleanOld), translated statement by statement from
    src/lib/hashly.js, with file-system effects made explicit in a
    threaded state and recursion bounded by explicit fuel (modelling the
    JS call stack: running out of fuel behaves like a thrown error).
-/

namespace Hashly

/-- Tests whether the string pre is a character-level prefix of s.
This is the model of the JS test s.indexOf(pre) === 0 used by the
containment check in processEntry. -/
def strStarts (s pre : String) : Bool :=
  pre.data.isPrefixOf s.data

/-- Tests whether the string suf is a character-level suffix of s. -/
def strEnds (s suf : String) : Bool :=
  suf.data.isSuffixOf s.data

/-- Splits a character list at every occurrence of the separator
character; raw chunks, empty chunks preserved. -/
def splitChunks (sep : Char) : List Char → List Char → List (List Char)
  | acc, [] => [acc.reverse]
  | acc, c :: cs =>
    if c = sep then acc.reverse :: splitChunks sep [] cs
    else splitChunks sep (c :: acc) cs

/-- Path segments of a string: split on the slash, dropping empty
segments (repeated or leading slashes). -/
def splitPath (s : String) : List String :=
  ((splitChunks '/' [] s.data).map String.mk).filter (fun seg => seg ≠ "")

/-- Renders segments as a relative path (slash separated). -/
def renderRel : List String → String
  | [] => ""
  | [s] => s
  | s :: rest => s ++ "/" ++ renderRel rest

/-- Renders segments as an absolute path (leading slash). -/
def renderAbs (segs : List String) : String :=
  "/" ++ renderRel segs

/-- Normalises a segment list with absolute-path semantics: drops dot
segments, a dotdot segment pops the previous segment (or is dropped at
the root), mirroring node path.resolve / path.join normalisation. -/
def normAbsAux : List String → List String → List String
  | stack, [] => stack.reverse
  | stack, seg :: rest =>
    if seg = "." then normAbsAux stack rest
    else if seg = ".." then
      match stack with
      | [] => normAbsAux [] rest
      | _ :: stk => normAbsAux stk rest
    else normAbsAux (seg :: stack) rest

def normAbs (segs : List String) : List String :=
  normAbsAux [] segs

/-- Model of node path.join for the uses in the source (joining an
absolute directory with a file name): concatenate segments and
normalise, keeping absoluteness of the first argument. -/
def pathJoin (a b : String) : String :=
  if strStarts a "/" then renderAbs (normAbs (splitPath a ++ splitPath b))
  else renderRel (normAbs (splitPath a ++ splitPath b))

/-- Model of node path.resolve base p for an absolute base: p wins when
absolute, otherwise it is appended to base; the result is normalised. -/
def pathResolve (base p : String) : String :=
  if strStarts p "/" then renderAbs (normAbs (splitPath p))
  else renderAbs (normAbs (splitPath base ++ splitPath p))

/-- Helper for pathRelative: segments of the walk from f to t. -/
def relSegs : List String → List String → List String
  | [], t => t
  | f, [] => f.map (fun _ => "..")
  | a :: f, b :: t =>
    if a = b then relSegs f t
    else List.replicate (a :: f).length ".." ++ (b :: t)

/-- Model of node path.relative for absolute arguments. -/
def pathRelative (base target : String) : String :=
  renderRel (relSegs (normAbs (splitPath base)) (normAbs (splitPath target)))

/-- Model of node path.dirname for the paths the source passes it. -/
def dirname (p : String) : String :=
  if strStarts p "/" then renderAbs (splitPath p).dropLast
  else renderRel (splitPath p).dropLast

/-- Last path segment (node path.basename without extension
stripping). -/
def basenameOf (p : String) : String :=
  ((splitPath p).getLast?).getD ""

/-- Model of node path.extname. -/
def extnameOf (p : String) : String :=
  match splitChunks '.' [] (basenameOf p).data with
  | [] => ""
  | [_] => ""
  | [x, y] => if x = [] then "" else "." ++ String.mk y
  | _ :: rest => "." ++ String.mk ((rest.getLast?).getD [])

/-- Model of node path.basename p ext: the last segment with the given
extension suffix removed. -/
def basenameExt (p ext : String) : String :=
  let b := basenameOf p
  if ext ≠ "" ∧ strEnds b ext then
    String.mk (b.data.take (b.data.length - ext.data.length))
  else b

/-- A well-formed path segment: nonempty and slash free. -/
def ValidSeg (s : String) : Prop := s ≠ "" ∧ '/' ∉ s.data

/-- A plain segment: well formed and not a dot or dotdot segment. -/
def PlainSeg (s : String) : Prop := ValidSeg s ∧ s ≠ "." ∧ s ≠ ".."

/-- A normalised absolute path: it renders back from its segments and
every segment is plain. -/
def NormalAbs (p : String) : Prop :=
  p = renderAbs (splitPath p) ∧ ∀ s ∈ splitPath p, PlainSeg s

/-- A hash function whose output never contains a path separator. -/
def SlashFree (H : String → String) : Prop := ∀ s, '/' ∉ (H s).data

/-- Modelled from the spec: the css-processor collaborator (not under
src/) parses stylesheet text into literal runs and embedded asset
reference tokens; we represent parsed stylesheet text directly as such a
token list. -/
inductive CssTok where
  | lit (s : String)
  | url (s : String)
deriving DecidableEq, Repr

def renderTok : CssTok → String
  | .lit s => s
  | .url s => "url(" ++ s ++ ")"

/-- Rendering of stylesheet tokens back to text; hashing a stylesheet
hashes this rendering. -/
def renderDoc (doc : List CssTok) : String :=
  String.join (doc.map renderTok)

/-- One record of the serialized manifest: the trimmed form of an entry
(physical paths, hash code and the unverified marker stripped). -/
structure TrimmedEntry where
  path : String
  hashedPath : String
  extra : List (String × String)
deriving DecidableEq, Repr

/-- Session manifest entry, mirroring the JS object built by
createManifestEntry. transformedText is present between the css build
and the write, as in the source. -/
structure ManifestEntry where
  path : String
  pathPhysical : String
  hashedPath : String
  hashedPathPhysical : String
  hashCode : Option String
  unverified : Bool
  transformedText : Option (List CssTok)
  extra : List (String × String)
deriving DecidableEq, Repr

/-- Embedding of the manifest trimming map (lines 328-337 of
src/lib/hashly.js): physical paths, the unverified marker and the hash
code are dropped. -/
def trimEntry (e : ManifestEntry) : TrimmedEntry :=
  { path := e.path, hashedPath := e.hashedPath, extra := e.extra }

/-- Modelled from the spec: file contents; the serializer-factory
collaborator (not under src/) is modelled as the pluggable codec whose
serialize and parse are the manifest constructor and its match. -/
inductive FileData where
  | text (doc : List CssTok)
  | manifest (entries : List TrimmedEntry)
deriving DecidableEq, Repr

/-- Text rendering of file contents, the bytes a content hash sees. -/
def renderData : FileData → String
  | .text doc => renderDoc doc
  | .manifest es => String.join (es.map fun e => e.path ++ ">" ++ e.hashedPath ++ ";")

/-- Reading any file data as stylesheet text: text data is its token
list, other data is an opaque literal with no references. -/
def docOfData : FileData → List CssTok
  | .text doc => doc
  | d => [CssTok.lit (renderData d)]

/-- Modelled from the spec: the file system is a finite map from paths
to contents, with primitive read, write, delete and existence checks. -/
abbrev FS := List (String × FileData)

def fsRead (fs : FS) (p : String) : Option FileData :=
  match fs.find? (fun kv => kv.1 = p) with
  | some kv => some kv.2
  | none => none

def fsWrite : FS → String → FileData → FS
  | [], p, d => [(p, d)]
  | kv :: rest, p, d => if kv.1 = p then (p, d) :: rest else kv :: fsWrite rest p d

def fsDelete (fs : FS) (p : String) : FS :=
  fs.filter (fun kv => kv.1 ≠ p)

/-- Existence check for a file or a directory (a directory exists when
some file lies strictly under it). -/
def fsExists (fs : FS) (p : String) : Bool :=
  fs.any (fun kv => kv.1 = p) || fs.any (fun kv => strStarts kv.1 (p ++ "/"))

/-- Recorded side effects on the file system, so that theorems can state
that a run performed no copy and no write. -/
inductive FileOp where
  | copy (src dst : String)
  | write (dst : String) (d : FileData)
  | del (p : String)
deriving DecidableEq, Repr

/-- Global options singleton of the source, as an explicit record. The
include and exclude glob filters are folded into the shouldBeExcluded
predicate exactly as initOptions builds it; the hash function is a
separate parameter H below. -/
structure Opts where
  manifestPath : Option String
  amend : Bool
  continueOnError : Bool
  processCss : Bool
  shouldBeExcluded : String → Bool
  plugins : List (ManifestEntry → List (String × String))

/-- Reconciliation session state: the data record of createManifest
(manifest, errors, lookup map) together with the file system and the
recorded operations. -/
structure St where
  manifest : List ManifestEntry
  errors : List String
  lookup : String → Option ManifestEntry
  fs : FS
  ops : List FileOp

/-- Modelled from the spec: hash-pattern.getHashedFileName (not under
src/) embeds the hash code into the filename stem adjacent to the
original basename and extension, under the target directory; the marker
convention matches the overlapping implementation in src/pipeline.js. -/
def getHashedFileName (fullPath targetDir hashCode : String) : String :=
  let ext := extnameOf fullPath
  pathJoin targetDir (basenameExt fullPath ext ++ "-hc" ++ hashCode ++ ext)

def markerIn : List Char → Bool
  | [] => false
  | c :: cs => ("-hc".data.isPrefixOf (c :: cs)) || markerIn cs

/-- Modelled from the spec: hash-pattern.isHashedFile recognizes the
hash-marker token of the naming convention in a filename, without
reading content. -/
def isHashedFile (p : String) : Bool :=
  markerIn (basenameOf p).data

/-- Modelled from the spec: file-system-util.readFileSync raises on a
missing file. -/
def readFileE (fs : FS) (p : String) : Except String FileData :=
  match fsRead fs p with
  | some d => Except.ok d
  | none => Except.error ("ENOENT: no such file " ++ p)

/-- Modelled from the spec: hashcode-generator.generateForFile is a
deterministic content hash of the file bytes; the hash function itself
is the parameter H. -/
def generateForFile (H : String → String) (fs : FS) (p : String) : Except String String :=
  (readFileE fs p).map (fun d => H (renderData d))

/-- Last-write-wins update of plugin-contributed extra fields. -/
def setExtra (l : List (String × String)) (kv : String × String) : List (String × String) :=
  if l.any (fun x => x.1 = kv.1) then l.map (fun x => if x.1 = kv.1 then kv else x)
  else l ++ [kv]

def mergeExtra (l add : List (String × String)) : List (String × String) :=
  add.foldl setExtra l

/-- Embedding of createManifestEntry (src/lib/hashly.js lines 38-64):
computes the virtual path, hashed paths and hash code for one file and
folds in plugin fields. Reads the file only when no hash code is passed
in; performs no write. -/
def createManifestEntry (H : String → String) (opts : Opts)
    (fullPath basePath targetBasePath : String) (fs : FS)
    (hashCode : Option String) : Except String ManifestEntry := do
  let relativePath := pathRelative basePath fullPath
  let targetPath := pathResolve targetBasePath relativePath
  let targetDir := dirname targetPath
  let hashCodeCoalesced ← match hashCode with
    | some h => Except.ok h
    | none => generateForFile H fs fullPath
  let hashedPathPhysical := getHashedFileName fullPath targetDir hashCodeCoalesced
  let hashedPath := pathRelative targetBasePath hashedPathPhysical
  let e0 : ManifestEntry :=
    { path := "/" ++ relativePath
      pathPhysical := fullPath
      hashedPath := "/" ++ hashedPath
      hashedPathPhysical := hashedPathPhysical
      hashCode := some hashCodeCoalesced
      unverified := false
      transformedText := none
      extra := [] }
  Except.ok (opts.plugins.foldl
    (fun acc pl => { acc with extra := mergeExtra acc.extra (pl acc) }) e0)

/-- Resolution of an embedded reference to a physical path (lines
69-72): root-relative references resolve against the base, others
against the directory of the referencing file. -/
def resolvedRefPath (fullPath basePath virtualPath : String) : String :=
  if strStarts virtualPath "/" then pathJoin basePath virtualPath
  else pathResolve (dirname fullPath) virtualPath

/-- Embedding of the processImagePath closure of createManifestEntryCss
(lines 67-84), parameterised over the recursive per-file processing
function so that theorems can quantify over its outcome. -/
def processImagePath
    (proc : String → St → Except (String × St) (Option ManifestEntry × St))
    (fullPath basePath : String) (virtualPath : String) (st : St) :
    Except (String × St) (String × St) := do
  let isRootRelative := strStarts virtualPath "/"
  let imagePhysicalPath := resolvedRefPath fullPath basePath virtualPath
  let (imageEntry?, st₁) ← proc imagePhysicalPath st
  match imageEntry? with
  | none => Except.ok (virtualPath, st₁)
  | some imageEntry =>
    if isRootRelative then Except.ok (imageEntry.hashedPath, st₁)
    else Except.ok (pathRelative (dirname fullPath) imageEntry.hashedPathPhysical, st₁)

/-- Left-to-right rewriting of the reference tokens of a stylesheet,
threading the session state: the model of cssProcessor.processCss with
the processImagePath callback. -/
def cssFold
    (proc : String → St → Except (String × St) (Option ManifestEntry × St))
    (fullPath basePath : String) :
    List CssTok → St → Except (String × St) (List CssTok × St)
  | [], st => Except.ok ([], st)
  | CssTok.lit s :: rest, st =>
    (cssFold proc fullPath basePath rest st).map (fun r => (CssTok.lit s :: r.1, r.2))
  | CssTok.url v :: rest, st => do
    let (v', st₁) ← processImagePath proc fullPath basePath v st
    let (ts, st₂) ← cssFold proc fullPath basePath rest st₁
    Except.ok (CssTok.url v' :: ts, st₂)

/-- Embedding of createManifestEntryCss (lines 66-93): reads the
stylesheet, rewrites its references (recursively processing each), and
builds the entry with the hash computed over the transformed text. -/
def createManifestEntryCss (H : String → String) (opts : Opts)
    (proc : String → St → Except (String × St) (Option ManifestEntry × St))
    (fullPath basePath targetDir : String) (st : St) :
    Except (String × St) (ManifestEntry × St) := do
  let d ← match readFileE st.fs fullPath with
    | Except.ok d => Except.ok d
    | Except.error m => Except.error (m, st)
  let (tdoc, st₁) ← cssFold proc fullPath basePath (docOfData d) st
  match createManifestEntry H opts fullPath basePath targetDir st₁.fs
      (some (H (renderDoc tdoc))) with
  | Except.ok e => Except.ok ({ e with transformedText := some tdoc }, st₁)
  | Except.error m => Except.error (m, st₁)

/-- Modelled from the spec: file-system-util.copySync raises when the
source is missing, otherwise copies the bytes to the target. -/
def copySyncE (st : St) (src dst : String) : Except (String × St) St :=
  match fsRead st.fs src with
  | none => Except.error ("ENOENT: no such file " ++ src, st)
  | some d => Except.ok { st with fs := fsWrite st.fs dst d, ops := st.ops ++ [FileOp.copy src dst] }

/-- Modelled from the spec: file-system-util.writeFileSync. -/
def writeFileOp (st : St) (dst : String) (d : FileData) : St :=
  { st with fs := fsWrite st.fs dst d, ops := st.ops ++ [FileOp.write dst d] }

def lookupInsert (lk : String → Option ManifestEntry) (k : String) (e : ManifestEntry) :
    String → Option ManifestEntry :=
  fun q => if q = k then some e else lk q

def clearUnverified (e : ManifestEntry) : ManifestEntry :=
  { e with unverified := false }

/-- Models the in-place JS mutation delete existingEntry.unverified: the
one entry object is referenced from both the session manifest list and
the lookup map, so clearing the marker updates every alias of it. -/
def confirmSt (st : St) (e : ManifestEntry) : St :=
  { st with
    manifest := st.manifest.map (fun x => if x = e then clearUnverified e else x)
    lookup := fun q => match st.lookup q with
      | some x => if x = e then some (clearUnverified e) else some x
      | none => none }

/-- Copy or write step of processEntry (lines 142-158): materialises the
entry at its hashed physical path, appends it to the session manifest
and registers it in the lookup cache. -/
def materialize (fullPath : String) (entry : ManifestEntry) (st : St) :
    Except (String × St) (Option ManifestEntry × St) := do
  let r ← match entry.transformedText with
    | some doc => Except.ok (({ entry with transformedText := none } : ManifestEntry),
        writeFileOp st entry.hashedPathPhysical (FileData.text doc))
    | none =>
      match copySyncE st entry.pathPhysical entry.hashedPathPhysical with
      | Except.ok s => Except.ok (entry, s)
      | Except.error e => Except.error e
  let entry' := r.1
  let st₂ := r.2
  Except.ok (some entry',
    { st₂ with manifest := st₂.manifest ++ [entry'],
               lookup := lookupInsert st₂.lookup fullPath entry' })

/-- Build dispatch of processEntry (lines 122-128): the stylesheet
entry builder when css processing is enabled and the extension is css,
the plain entry builder otherwise. -/
def buildEntry (H : String → String) (opts : Opts)
    (proc : String → St → Except (String × St) (Option ManifestEntry × St))
    (fullPath baseDir targetDir : String) (st : St) :
    Except (String × St) (ManifestEntry × St) :=
  if opts.processCss ∧ extnameOf fullPath = ".css" then
    createManifestEntryCss H opts proc fullPath baseDir targetDir st
  else
    match createManifestEntry H opts fullPath baseDir targetDir st.fs none with
    | Except.ok e => Except.ok (e, st)
    | Except.error m => Except.error (m, st)

/-- Body of processEntry after the cache check (lines 103-174):
containment check, already-hashed check, exclusion check, build
dispatch, amend confirmation against the captured existing entry,
materialisation, and the per-file catch. -/
def processEntryCore (H : String → String) (opts : Opts) (baseDir targetDir : String)
    (proc : String → St → Except (String × St) (Option ManifestEntry × St))
    (fullPath : String) (existing : Option ManifestEntry) (st : St) :
    Except (String × St) (Option ManifestEntry × St) :=
  if strStarts fullPath baseDir then
    if isHashedFile fullPath then Except.ok (none, st)
    else if opts.shouldBeExcluded fullPath then Except.ok (none, st)
    else
      let attempt : Except (String × St) (Option ManifestEntry × St) := do
        let (entry, st₁) ← buildEntry H opts proc fullPath baseDir targetDir st
        match existing with
        | some e =>
          if e.unverified ∧ entry.hashedPath = e.hashedPath then
            Except.ok (some (clearUnverified e), confirmSt st₁ e)
          else materialize fullPath entry st₁
        | none => materialize fullPath entry st₁
      match attempt with
      | Except.ok r => Except.ok r
      | Except.error (msg, stE) =>
        if opts.continueOnError then
          Except.ok (none, { stE with errors := stE.errors ++ ["ERROR: " ++ fullPath ++ ": " ++ msg] })
        else Except.error (msg, stE)
  else
    Except.error ("The file " ++ fullPath ++ " is not in the base directory: " ++ baseDir, st)

/-- Embedding of processEntry (lines 95-175). The fuel argument models
the JS call stack: exhaustion behaves as a thrown error raised before
the per-file try block. -/
def processEntry (H : String → String) (opts : Opts) (baseDir targetDir : String) :
    Nat → String → St → Except (String × St) (Option ManifestEntry × St)
  | 0, _, st => Except.error ("stack overflow", st)
  | Nat.succ fuel, fullPath, st =>
    match st.lookup fullPath with
    | some e =>
      if e.unverified = false then Except.ok (some e, st)
      else processEntryCore H opts baseDir targetDir
        (processEntry H opts baseDir targetDir fuel) fullPath (some e) st
    | none => processEntryCore H opts baseDir targetDir
        (processEntry H opts baseDir targetDir fuel) fullPath none st

/-- Sequential processing of the candidate list (the forEach of
createManifest, lines 199-201). -/
def processList (H : String → String) (opts : Opts) (baseDir targetDir : String)
    (fuel : Nat) : List String → St → Except (String × St) St
  | [], st => Except.ok st
  | f :: rest, st =>
    match processEntry H opts baseDir targetDir fuel f st with
    | Except.ok r => processList H opts baseDir targetDir fuel rest r.2
    | Except.error e => Except.error e

def seedEntry (e : ManifestEntry) : ManifestEntry :=
  { e with unverified := true }

/-- Embedding of createManifest (lines 179-204): builds the fresh
session data, seeding it from existing manifest data in amend mode
(marking every carried-over entry unverified and indexing it by its
physical path), then processes every candidate file. -/
def createManifest (H : String → String) (opts : Opts) (fuel : Nat)
    (files : List String) (baseDir targetDir : String)
    (existing : Option (List ManifestEntry)) (fs : FS) (ops : List FileOp) :
    Except (String × St) St :=
  let st0 : St :=
    match existing with
    | none => { manifest := [], errors := [], lookup := fun _ => none, fs := fs, ops := ops }
    | some es =>
      let seeded := es.map seedEntry
      { manifest := seeded, errors := [],
        lookup := seeded.foldl (fun lk e => lookupInsert lk e.pathPhysical e) (fun _ => none),
        fs := fs, ops := ops }
  processList H opts baseDir targetDir fuel files st0

/-- Embedding of getManifestPath (lines 15-24): the explicit override
wins, otherwise the manifest sits in the directory under the serializer
extension (modelled from the spec with the json codec). -/
def getManifestPath (opts : Opts) (directory : String) : String :=
  match opts.manifestPath with
  | some p => p
  | none => pathJoin directory "manifest.json"

/-- Lexicographic comparison of character lists by code point; the
model of the JS string comparison the manifest sort comparator uses. -/
def charsLe : List Char → List Char → Bool
  | [], _ => true
  | _ :: _, [] => false
  | a :: as, b :: bs =>
    if a.toNat < b.toNat then true
    else if b.toNat < a.toNat then false
    else charsLe as bs

def strLe (a b : String) : Bool :=
  charsLe a.data b.data

/-- Stable insertion of a trimmed entry into a list sorted by virtual
path, realising the sort with the compare function of lines 26-34. -/
def insertSorted (e : TrimmedEntry) : List TrimmedEntry → List TrimmedEntry
  | [] => [e]
  | x :: xs => if strLe x.path e.path then x :: insertSorted e xs else e :: x :: xs

def sortManifest (l : List TrimmedEntry) : List TrimmedEntry :=
  l.foldl (fun acc e => insertSorted e acc) []

/-- Reconstruction of a full manifest entry from a serialized trimmed
entry during amend parsing (lines 296-304): physical paths are rebuilt
by prepending the base and target directories to the virtual paths. -/
def entryOfTrimmed (baseDir targetDir : String) (t : TrimmedEntry) : ManifestEntry :=
  { path := t.path, pathPhysical := baseDir ++ t.path,
    hashedPath := t.hashedPath, hashedPathPhysical := targetDir ++ t.hashedPath,
    hashCode := none, unverified := false, transformedText := none,
    extra := t.extra }

/-- Embedding of processFiles (lines 265-362). Logging is omitted as
observationally irrelevant; the result is the JS return code with the
final session state, and a propagating exception is an error value. -/
def processFiles (H : String → String) (opts : Opts) (fuel : Nat)
    (files : List String) (baseDir targetDir : String) (fs0 : FS) :
    Except (String × St) (Int × St) :=
  let stInit : St := { manifest := [], errors := [], lookup := fun _ => none, fs := fs0, ops := [] }
  if fsExists fs0 baseDir then
    let manifestPath := getManifestPath opts targetDir
    let parsed : Except (String × St) (Option (List ManifestEntry)) :=
      if opts.amend then
        match fsRead fs0 manifestPath with
        | some (FileData.manifest tes) =>
          Except.ok (some (tes.map (entryOfTrimmed baseDir targetDir)))
        | some (FileData.text _) => Except.error ("manifest parse error", stInit)
        | none => Except.ok none
      else Except.ok none
    match parsed with
    | Except.error e => Except.error e
    | Except.ok existing =>
      let fs1 := fsDelete fs0 manifestPath
      let files' := files.filter (fun f => f ≠ manifestPath)
      match createManifest H opts fuel files' baseDir targetDir existing fs1 [FileOp.del manifestPath] with
      | Except.error r => Except.ok (-1, r.2)
      | Except.ok st =>
        let trimmed := sortManifest (st.manifest.map trimEntry)
        let st' := writeFileOp st manifestPath (FileData.manifest trimmed)
        Except.ok (if st.errors ≠ [] then (-1, st') else (0, st'))
  else Except.ok (-1, stInit)

/-- Deletion decision of the cleanOld walk (lines 431-446): a hashed
file not referenced by the manifest is deleted when no positive age
threshold is configured or when its last-modified time is older than
the oldest allowed moment. -/
def cleanOldDoomed (fileSet : List String) (posGate : Bool) (oldestAllowed : Int)
    (mtimeOf : String → Int) (p : String) : Bool :=
  isHashedFile p && ! fileSet.contains p &&
    (! posGate || decide (mtimeOf p < oldestAllowed))

def cleanOldWalk (shouldDelete : String → Bool) :
    List String → FS → List FileOp → FS × List FileOp
  | [], fs, ops => (fs, ops)
  | p :: rest, fs, ops =>
    if shouldDelete p then cleanOldWalk shouldDelete rest (fsDelete fs p) (ops ++ [FileOp.del p])
    else cleanOldWalk shouldDelete rest fs ops

/-- Embedding of cleanOld (lines 407-447): reads the manifest (if
present) into the set of referenced hashed physical paths, then walks
the directory deleting doomed hashed files. Timestamps are abstracted to
integers measured in days, with the stat collaborator modelled from the
spec as the mtimeOf map. -/
def cleanOld (opts : Opts) (cleanOldDays : Option Int) (directory : String)
    (fs : FS) (mtimeOf : String → Int) (now : Int) :
    Except String (FS × List FileOp) := do
  let manifestPath := getManifestPath opts directory
  let fileSet ← match fsRead fs manifestPath with
    | some (FileData.manifest tes) => Except.ok (tes.map (fun t => directory ++ t.hashedPath))
    | some (FileData.text _) => Except.error "manifest parse error"
    | none => Except.ok ([] : List String)
  let posGate := match cleanOldDays with
    | some d => decide (d > 0)
    | none => false
  let oldestAllowed := now - cleanOldDays.getD 0
  let walkList := (fs.map Prod.fst).filter (fun p => strStarts p (directory ++ "/"))
  Except.ok (cleanOldWalk (cleanOldDoomed fileSet posGate oldestAllowed mtimeOf) walkList fs [])

/-- Identity hash function used by concrete witnesses: a degenerate but
deterministic content hash. -/
def idH : String → String := fun s => s

/-- Concrete options: amend on, plain processing, no filters. -/
def wOptsAmend : Opts := ⟨none, true, false, false, fun _ => false, []⟩

/-- Concrete carried-over entry for the witness of the amend
confirmation theorem. -/
def wEntryA : ManifestEntry :=
  ⟨"/a.txt", "/src/a.txt", "/a-hcA.txt", "/dist/a-hcA.txt", none, true, none, []⟩

/-- Fresh entry the build step computes for the witness file. -/
def wFreshA : ManifestEntry :=
  ⟨"/a.txt", "/src/a.txt", "/a-hcA.txt", "/dist/a-hcA.txt", some "A", false, none, []⟩

/-- Concrete seeded session state for the amend confirmation witness. -/
def wStA : St :=
  ⟨[wEntryA], [], fun q => if q = "/src/a.txt" then some wEntryA else none,
    [("/src/a.txt", FileData.text [CssTok.lit "A"])], []⟩

/-- Concrete options with css processing enabled. -/
def wOptsCss : Opts := ⟨none, false, false, true, fun _ => false, []⟩

/-- Source tree with a stylesheet referencing an image with bytes X. -/
def wFsX : FS :=
  [("/src/style.css", FileData.text [CssTok.lit "x:url(", CssTok.url "img.png", CssTok.lit ")"]),
   ("/src/img.png", FileData.text [CssTok.lit "X"])]

/-- The same source tree with the image bytes changed to Y. -/
def wFsY : FS :=
  [("/src/style.css", FileData.text [CssTok.lit "x:url(", CssTok.url "img.png", CssTok.lit ")"]),
   ("/src/img.png", FileData.text [CssTok.lit "Y"])]

/-- Fresh session state over a given file system. -/
def freshSt (fs : FS) : St := ⟨[], [], fun _ => none, fs, []⟩

/-- Concrete options with continue-on-error enabled and plain
processing. -/
def wOptsCont : Opts := ⟨none, false, true, false, fun _ => false, []⟩

/-- Session state holding one file that shares a string prefix with the
base directory without lying under it. -/
def wStOutside : St :=
  ⟨[], [], fun _ => none, [("/srcfoo/a.txt", FileData.text [CssTok.lit "Z"])], []⟩

/-- Concrete options with continue-on-error and css processing both
enabled. -/
def wOptsContCss : Opts := ⟨none, false, true, true, fun _ => false, []⟩

/-- Session state holding one stylesheet whose referenced image is
missing from the file system. -/
def wStCssOnly : St :=
  ⟨[], [], fun _ => none,
    [("/src/style.css", FileData.text
      [CssTok.lit "background:url(", CssTok.url "img.png", CssTok.lit ")"])], []⟩

/-- Session state after the failing recursive processing of the missing
image: the error is recorded, nothing else changed. -/
def wStErr : St :=
  ⟨[], ["ERROR: /src/img.png: ENOENT: no such file /src/img.png"], fun _ => none,
    [("/src/style.css", FileData.text
      [CssTok.lit "background:url(", CssTok.url "img.png", CssTok.lit ")"])], []⟩

/-- Source tree and prior manifest for the duplicate-path scenario: the
file content changed from A (recorded) to B. -/
def wFsChanged : FS :=
  [("/src/a.txt", FileData.text [CssTok.lit "B"]),
   ("/dist/manifest.json", FileData.manifest [⟨"/a.txt", "/a-hcA.txt", []⟩])]

/-- State after the copy-and-push step of processEntry for a plain
entry: the file copied to its hashed path, the entry appended to the
manifest and registered in the lookup cache. -/
def afterCopyPush (st₁ : St) (fullPath : String) (fresh : ManifestEntry) (d : FileData) : St :=
  { manifest := st₁.manifest ++ [fresh], errors := st₁.errors,
    lookup := lookupInsert st₁.lookup fullPath fresh,
    fs := fsWrite st₁.fs fresh.hashedPathPhysical d,
    ops := st₁.ops ++ [FileOp.copy fresh.pathPhysical fresh.hashedPathPhysical] }

/-- Decidable projection of a processFiles outcome: the result code and
the content stored at the given path. -/
def codeAndFileAt (r : Except (String × St) (Int × St)) (p : String) :
    Option (Int × Option FileData) :=
  match r with
  | Except.ok (c, st) => some (c, fsRead st.fs p)
  | Except.error _ => none

/-- Fresh entry computed for the changed file content B. -/
def wFreshB : ManifestEntry :=
  ⟨"/a.txt", "/src/a.txt", "/a-hcB.txt", "/dist/a-hcB.txt", some "B", false, none, []⟩

/-- Seeded session state whose carried-over entry records the old hash
while the file now has content B. -/
def wStB : St :=
  ⟨[wEntryA], [], fun q => if q = "/src/a.txt" then some wEntryA else none,
    [("/src/a.txt", FileData.text [CssTok.lit "B"])], []⟩

/-- Trimmed entries of the manifest used by the stale-clean witness. -/
def wTesClean : List TrimmedEntry := [⟨"/a.txt", "/a-hcA.txt", []⟩]

/-- Target directory population for the stale-clean witness: the
referenced hashed file, an unreferenced old hashed file, an unreferenced
fresh hashed file, and the manifest. -/
def wCleanFs : FS :=
  [("/dist/manifest.json", FileData.manifest wTesClean),
   ("/dist/a-hcA.txt", FileData.text [CssTok.lit "A"]),
   ("/dist/b-hcB.txt", FileData.text [CssTok.lit "B"]),
   ("/dist/c-hcC.txt", FileData.text [CssTok.lit "C"])]

/-- Last-modified times for the stale-clean witness. -/
def wMtime : String → Int := fun p => if p = "/dist/b-hcB.txt" then 5 else 9

/-- The missing-file message of the modelled read primitive. -/
def enoent (p : String) : String := "ENOENT: no such file " ++ p

/-- The per-file error message format of processEntry (line 165). -/
def wrapErr (p msg : String) : String := "ERROR: " ++ p ++ ": " ++ msg

/-- Denotation of the entry createManifestEntry builds from a given
hash code string: the path computations of lines 39-53 as a pure
function. -/
def entryWithHash (opts : Opts) (fullPath basePath targetBasePath h : String) : ManifestEntry :=
  let relativePath := pathRelative basePath fullPath
  let targetPath := pathResolve targetBasePath relativePath
  let targetDir := dirname targetPath
  let hashedPathPhysical := getHashedFileName fullPath targetDir h
  let hashedPath := pathRelative targetBasePath hashedPathPhysical
  let e0 : ManifestEntry :=
    { path := "/" ++ relativePath
      pathPhysical := fullPath
      hashedPath := "/" ++ hashedPath
      hashedPathPhysical := hashedPathPhysical
      hashCode := some h
      unverified := false
      transformedText := none
      extra := [] }
  opts.plugins.foldl (fun acc pl => { acc with extra := mergeExtra acc.extra (pl acc) }) e0

/-- Denotation of the entry createManifestEntry builds for a plain file
whose content is d: the same computation with the content hash taken of
d directly. -/
def plainEntry (H : String → String) (opts : Opts)
    (fullPath basePath targetBasePath : String) (d : FileData) : ManifestEntry :=
  entryWithHash opts fullPath basePath targetBasePath (H (renderData d))

/-- Reference substitution text of processImagePath when the recursive
processing returned an entry (lines 79-83). -/
def specSubst (fullPath : String) (v : String) (e : ManifestEntry) : String :=
  if strStarts v "/" then e.hashedPath
  else pathRelative (dirname fullPath) e.hashedPathPhysical

/-- Pure counterpart of cssFold over a given per-path denotation. -/
def specFoldTokens (spec : String → Except String (Option ManifestEntry))
    (fullPath basePath : String) : List CssTok → Except String (List CssTok)
  | [] => Except.ok []
  | CssTok.lit s :: rest =>
    match specFoldTokens spec fullPath basePath rest with
    | Except.ok ts => Except.ok (CssTok.lit s :: ts)
    | Except.error m => Except.error m
  | CssTok.url v :: rest =>
    match spec (resolvedRefPath fullPath basePath v) with
    | Except.ok none =>
      match specFoldTokens spec fullPath basePath rest with
      | Except.ok ts => Except.ok (CssTok.url v :: ts)
      | Except.error m => Except.error m
    | Except.ok (some e) =>
      match specFoldTokens spec fullPath basePath rest with
      | Except.ok ts => Except.ok (CssTok.url (specSubst fullPath v e) :: ts)
      | Except.error m => Except.error m
    | Except.error m => Except.error m

/-- Denotation of per-file processing: the entry (or silent skip) a path
yields in a fresh run over the initial file system, independent of
session state. The catch of lines 159-174 is mirrored: a build failure
under continue-on-error denotes no entry. -/
def specProcess (H : String → String) (opts : Opts) (baseDir targetDir : String) (fs0 : FS) :
    Nat → String → Except String (Option ManifestEntry)
  | 0, _ => Except.error "stack overflow"
  | Nat.succ fuel, p =>
    if strStarts p baseDir then
      if isHashedFile p then Except.ok none
      else if opts.shouldBeExcluded p then Except.ok none
      else
        let attempt : Except String ManifestEntry :=
          match fsRead fs0 p with
          | none => Except.error (enoent p)
          | some d =>
            if opts.processCss ∧ extnameOf p = ".css" then
              match specFoldTokens (specProcess H opts baseDir targetDir fs0 fuel)
                  p baseDir (docOfData d) with
              | Except.ok tdoc =>
                Except.ok (entryWithHash opts p baseDir targetDir (H (renderDoc tdoc)))
              | Except.error m => Except.error m
            else Except.ok (plainEntry H opts p baseDir targetDir d)
        match attempt with
        | Except.ok e => Except.ok (some e)
        | Except.error m =>
          if opts.continueOnError then Except.ok none else Except.error m
    else Except.error ("The file " ++ p ++ " is not in the base directory: " ++ baseDir)

/-- Decidable path hygiene: normalised absolute form, plain segments,
and proper containment under the base directory at segment level. -/
def hygienicB (baseDir p : String) : Bool :=
  decide (p = renderAbs (splitPath p)) &&
  (splitPath p).all (fun s => ! decide (s = ".") && ! decide (s = "..")) &&
  (splitPath baseDir).isPrefixOf (splitPath p) &&
  ! decide (splitPath p = splitPath baseDir)

def specCleanTokens (clean : String → Bool) (fullPath basePath : String) : List CssTok → Bool
  | [] => true
  | CssTok.lit _ :: rest => specCleanTokens clean fullPath basePath rest
  | CssTok.url v :: rest =>
    clean (resolvedRefPath fullPath basePath v) && specCleanTokens clean fullPath basePath rest

/-- Cleanliness of a path: it is hygienic and its processing (and that
of every reference reachable from it) raises no error within the given
recursion budget. -/
def specClean (opts : Opts) (baseDir : String) (fs0 : FS) :
    Nat → String → Bool
  | 0, _ => false
  | Nat.succ fuel, p =>
    hygienicB baseDir p &&
    (isHashedFile p || opts.shouldBeExcluded p ||
      match fsRead fs0 p with
      | none => false
      | some d =>
        if opts.processCss ∧ extnameOf p = ".css" then
          specCleanTokens (specClean opts baseDir fs0 fuel) p baseDir (docOfData d)
        else true)

def specKeysTokens (keys : String → List String) (fullPath basePath : String) :
    List CssTok → List String
  | [] => []
  | CssTok.lit _ :: rest => specKeysTokens keys fullPath basePath rest
  | CssTok.url v :: rest =>
    keys (resolvedRefPath fullPath basePath v) ++ specKeysTokens keys fullPath basePath rest

/-- Paths that receive a manifest entry when the given path is
processed fresh: the recursively referenced assets first, then the path
itself, mirroring the push order of processEntry. -/
def specKeys (opts : Opts) (baseDir : String) (fs0 : FS) :
    Nat → String → List String
  | 0, _ => []
  | Nat.succ fuel, p =>
    if strStarts p baseDir && ! isHashedFile p && ! opts.shouldBeExcluded p then
      match fsRead fs0 p with
      | none => []
      | some d =>
        if opts.processCss ∧ extnameOf p = ".css" then
          specKeysTokens (specKeys opts baseDir fs0 fuel) p baseDir (docOfData d) ++ [p]
        else [p]
    else []

/-- Entry a good candidate contributes, reading its content from the
initial file system. -/
def goodEntry (H : String → String) (opts : Opts) (baseDir targetDir : String)
    (fs0 : FS) (p : String) : ManifestEntry :=
  plainEntry H opts p baseDir targetDir ((fsRead fs0 p).getD (FileData.text []))

/-- Candidates of a fresh plain run that produce an entry: under the
base, not already hashed, not excluded, readable. -/
def goodsOf (opts : Opts) (baseDir : String) (fs0 : FS) (files : List String) : List String :=
  files.filter (fun p => strStarts p baseDir && ! isHashedFile p &&
    ! opts.shouldBeExcluded p && (fsRead fs0 p).isSome)

/-- Candidates of a fresh plain run that raise a per-file read error:
under the base, not already hashed, not excluded, missing. -/
def badsOf (opts : Opts) (baseDir : String) (fs0 : FS) (files : List String) : List String :=
  files.filter (fun p => strStarts p baseDir && ! isHashedFile p &&
    ! opts.shouldBeExcluded p && ! (fsRead fs0 p).isSome)

/-- Invariant of a fresh (non amend) plain run: the file system agrees
with the initial one away from hashed names, and every cached entry is
verified. -/
def FreshInv (fs0 : FS) (st : St) : Prop :=
  (∀ q, isHashedFile q = false → fsRead st.fs q = fsRead fs0 q) ∧
  (∀ k e, st.lookup k = some e → e.unverified = false)

/-- Concrete slash-free hash function for witnesses: keeps every
character but the path separator. -/
def wHsf : String → String := fun s => String.mk (s.data.filter (fun c => c ≠ '/'))

/-- Source tree for the partial-failure witness: first and third file
present, second missing. -/
def wFsC4 : FS :=
  [("/src/a.txt", FileData.text [CssTok.lit "A"]),
   ("/src/c.txt", FileData.text [CssTok.lit "C"])]

/-- Field agreement of a session entry with a spec entry on the four
path fields; hash code and plugin fields are irrelevant to
reconciliation. -/
def FieldMatch (e se : ManifestEntry) : Prop :=
  e.path = se.path ∧ e.pathPhysical = se.pathPhysical ∧
  e.hashedPath = se.hashedPath ∧ e.hashedPathPhysical = se.hashedPathPhysical

/-- Invariant of the first (fresh) run: reads away from hashed names
see the initial file system; every cached entry is verified, is exactly
the spec entry of its key at some clean fuel, sits in the session
manifest under its own physical path, and its reference closure is
cached too. -/
def Inv1 (H : String → String) (opts : Opts) (baseDir targetDir : String)
    (fs0 : FS) (st : St) : Prop :=
  (∀ q, isHashedFile q = false → fsRead st.fs q = fsRead fs0 q) ∧
  (∀ k e, st.lookup k = some e →
    e.unverified = false ∧ e.pathPhysical = k ∧ e ∈ st.manifest ∧
    ∃ fl, specClean opts baseDir fs0 fl k = true ∧
      specProcess H opts baseDir targetDir fs0 fl k = Except.ok (some e) ∧
      (∀ q ∈ specKeys opts baseDir fs0 fl k, st.lookup q ≠ none)) ∧
  (∀ e, e ∈ st.manifest → st.lookup e.pathPhysical = some e)

/-- Invariant of the second (amend) run: reads away from hashed names
still see the initial file system, and every cached entry (seeded or
confirmed) field-matches the spec entry of its key at some clean
fuel. -/
def Inv2 (H : String → String) (opts : Opts) (baseDir targetDir : String)
    (fs0 : FS) (st : St) : Prop :=
  (∀ q, isHashedFile q = false → fsRead st.fs q = fsRead fs0 q) ∧
  (∀ k e, st.lookup k = some e →
    e.transformedText = none ∧ e.pathPhysical = k ∧
    ∃ fl se, specClean opts baseDir fs0 fl k = true ∧
      specProcess H opts baseDir targetDir fs0 fl k = Except.ok (some se) ∧
      FieldMatch e se ∧
      (∀ q ∈ specKeys opts baseDir fs0 fl k, (st.lookup q).isSome))

/-- Step relation of the second run: the state may only flip unverified
markers; manifest order and content (up to the marker), errors, file
system and recorded operations are untouched. -/
def FlipLe (st st' : St) : Prop :=
  st'.errors = st.errors ∧ st'.fs = st.fs ∧ st'.ops = st.ops ∧
  st'.manifest.map trimEntry = st.manifest.map trimEntry ∧
  st'.manifest.length = st.manifest.length ∧
  (∀ q, (st'.lookup q).isSome = (st.lookup q).isSome)

/-- Simulation contract of one recursion level of the first run: on a
clean path from an Inv1 state, processing succeeds, returns exactly the
spec denotation, preserves the invariant and the error list, only
extends the lookup cache, covers the spec keys of the path, and never
removes files. -/
def Step1 (H : String → String) (opts : Opts) (baseDir targetDir : String) (fs0 : FS)
    (proc : String → St → Except (String × St) (Option ManifestEntry × St))
    (spec : String → Except String (Option ManifestEntry))
    (clean : String → Bool) (keys : String → List String) : Prop :=
  ∀ q st, clean q = true → Inv1 H opts baseDir targetDir fs0 st →
    ∃ ro st', proc q st = Except.ok (ro, st') ∧ spec q = Except.ok ro ∧
      Inv1 H opts baseDir targetDir fs0 st' ∧
      st'.errors = st.errors ∧
      (∀ r e, st.lookup r = some e → st'.lookup r = some e) ∧
      (∀ r ∈ keys q, st'.lookup r ≠ none) ∧
      (∀ r, fsExists st.fs r = true → fsExists st'.fs r = true)

/-- Correspondence of a returned entry option with the spec entry
option: both absent, or both present with matching path fields. -/
def OptMatch (ro so : Option ManifestEntry) : Prop :=
  match ro, so with
  | none, none => True
  | some e, some se => FieldMatch e se
  | _, _ => False

/-- Simulation contract of one recursion level of the second run: on a
clean path whose spec keys are all cached, processing succeeds with a
result matching the spec denotation on path fields, and the state at
most flips unverified markers. -/
def Step2 (H : String → String) (opts : Opts) (baseDir targetDir : String) (fs0 : FS)
    (proc : String → St → Except (String × St) (Option ManifestEntry × St))
    (spec : String → Except String (Option ManifestEntry))
    (clean : String → Bool) (keys : String → List String) : Prop :=
  ∀ q st, clean q = true → Inv2 H opts baseDir targetDir fs0 st →
    (∀ r ∈ keys q, (st.lookup r).isSome = true) →
    ∃ ro so st', proc q st = Except.ok (ro, st') ∧ spec q = Except.ok so ∧
      OptMatch ro so ∧ Inv2 H opts baseDir targetDir fs0 st' ∧ FlipLe st st'

/-- Concrete options for the idempotence witness: amend on, plain
processing, no filters. -/
def wOptsC2 : Opts := ⟨none, true, false, false, fun _ => false, []⟩

/-- Source tree for the idempotence witness. -/
def wFsC2 : FS := [("/src/a.txt", FileData.text [CssTok.lit "A"])]

section Reduction

@[simp] theorem exceptBindOk {ε α β : Type} (a : α) (f : α → Except ε β) :
    (Except.ok a : Except ε α) >>= f = f a := rfl

@[simp] theorem exceptBindErr {ε α β : Type} (e : ε) (f : α → Except ε β) :
    (Except.error e : Except ε α) >>= f = Except.error e := rfl

@[simp] theorem exceptPure {ε α : Type} (a : α) :
    (pure a : Except ε α) = Except.ok a := rfl

end Reduction

section PathLemmas

theorem splitChunks_no_sep (sep : Char) (xs : List Char) (h : ∀ c ∈ xs, c ≠ sep)
    (acc ys : List Char) :
    splitChunks sep acc (xs ++ ys) = splitChunks sep (xs.reverse ++ acc) ys := by
  induction xs generalizing acc with
  | nil => simp
  | cons c rest ih =>
    have hc : c ≠ sep := h c (by simp)
    show splitChunks sep acc (c :: (rest ++ ys)) = _
    rw [splitChunks]
    simp only [hc, if_false]
    rw [ih (fun x hx => h x (by simp [hx])) (c :: acc)]
    simp

theorem splitChunks_all_no_sep (sep : Char) (xs : List Char) (h : ∀ c ∈ xs, c ≠ sep)
    (acc : List Char) :
    splitChunks sep acc xs = [acc.reverse ++ xs] := by
  have := splitChunks_no_sep sep xs h acc []
  rw [List.append_nil] at this
  rw [this, splitChunks]
  simp

theorem splitPath_single (s : String) (hne : s ≠ "") (hsl : '/' ∉ s.data) :
    splitPath s = [s] := by
  rw [splitPath, splitChunks_all_no_sep '/' s.data (fun c hc heq => hsl (heq ▸ hc)) []]
  simp [hne]

theorem splitChunks_chunk_mem (sep : Char) (xs acc : List Char) :
    ∀ chunk ∈ splitChunks sep acc xs, ∀ c ∈ chunk, c ∈ acc ∨ (c ∈ xs ∧ c ≠ sep) := by
  induction xs generalizing acc with
  | nil =>
    intro chunk hchunk c hc
    simp [splitChunks] at hchunk
    subst hchunk
    exact Or.inl (List.mem_reverse.mp hc)
  | cons x rest ih =>
    intro chunk hchunk c hc
    rw [splitChunks] at hchunk
    by_cases hx : x = sep
    · simp only [hx, if_true] at hchunk
      rcases List.mem_cons.mp hchunk with h1 | h2
      · subst h1
        exact Or.inl (List.mem_reverse.mp hc)
      · rcases ih [] chunk h2 c hc with h3 | h3
        · simp at h3
        · exact Or.inr ⟨by simp [h3.1], h3.2⟩
    · simp only [hx, if_false] at hchunk
      rcases ih (x :: acc) chunk hchunk c hc with h3 | h3
      · rcases List.mem_cons.mp h3 with h4 | h4
        · subst h4
          refine Or.inr ⟨by simp, hx⟩
        · exact Or.inl h4
      · exact Or.inr ⟨by simp [h3.1], h3.2⟩

theorem splitPath_valid (p : String) : ∀ s ∈ splitPath p, ValidSeg s := by
  intro s hs
  rw [splitPath] at hs
  rw [List.mem_filter] at hs
  obtain ⟨hmem, hne⟩ := hs
  obtain ⟨chunk, hchunk, rfl⟩ := List.mem_map.mp hmem
  refine ⟨by simpa using hne, ?_⟩
  intro hsl
  rcases splitChunks_chunk_mem '/' p.data [] chunk hchunk '/' hsl with h | h
  · simp at h
  · exact h.2 rfl

theorem renderRel_cons (s : String) (rest : List String) (h : rest ≠ []) :
    renderRel (s :: rest) = s ++ "/" ++ renderRel rest := by
  cases rest with
  | nil => exact absurd rfl h
  | cons r rs => rfl

theorem chunks_renderRel (l : List String) (h : ∀ s ∈ l, ValidSeg s) :
    ((splitChunks '/' [] (renderRel l).data).map String.mk).filter (fun seg => seg ≠ "") = l := by
  induction l with
  | nil => simp [renderRel, splitChunks]
  | cons s rest ih =>
    cases rest with
    | nil =>
      have hv := h s (by simp)
      rw [show renderRel [s] = s from rfl,
        splitChunks_all_no_sep '/' s.data (fun c hc heq => hv.2 (heq ▸ hc)) []]
      simp [hv.1]
    | cons r rs =>
      have hv := h s (by simp)
      rw [renderRel_cons s (r :: rs) (by simp)]
      have hdata : (s ++ "/" ++ renderRel (r :: rs)).data =
          s.data ++ '/' :: (renderRel (r :: rs)).data := by
        show (s.data ++ "/".data) ++ (renderRel (r :: rs)).data = _
        simp
      rw [hdata, splitChunks_no_sep '/' s.data (fun c hc heq => hv.2 (heq ▸ hc)) [],
        List.append_nil, splitChunks]
      simp only [if_true, List.reverse_reverse, List.map_cons]
      rw [List.filter_cons_of_pos (by simpa using hv.1)]
      exact congrArg (fun t => s :: t) (ih (fun x hx => h x (by simp [hx])))

theorem splitPath_renderAbs (l : List String) (h : ∀ s ∈ l, ValidSeg s) :
    splitPath (renderAbs l) = l := by
  rw [splitPath, renderAbs]
  have hdata : ("/" ++ renderRel l).data = '/' :: (renderRel l).data := rfl
  rw [hdata, splitChunks]
  simp only [if_true, List.reverse_nil, List.map_cons]
  rw [List.filter_cons_of_neg (by simp)]
  exact chunks_renderRel l h

theorem splitPath_renderRel (l : List String) (h : ∀ s ∈ l, ValidSeg s) :
    splitPath (renderRel l) = l := by
  rw [splitPath]
  exact chunks_renderRel l h

theorem normAbsAux_mem (l stack : List String) :
    ∀ s ∈ normAbsAux stack l, s ∈ stack ∨ s ∈ l := by
  induction l generalizing stack with
  | nil =>
    intro s hs
    simp only [normAbsAux] at hs
    exact Or.inl (List.mem_reverse.mp hs)
  | cons x rest ih =>
    intro s hs
    simp only [normAbsAux] at hs
    by_cases hdot : x = "."
    · simp only [hdot, if_pos rfl] at hs
      rcases ih _ s hs with h | h
      · exact Or.inl h
      · exact Or.inr (by simp [h])
    · simp only [hdot, if_false] at hs
      by_cases hdd : x = ".."
      · simp only [hdd, if_pos rfl] at hs
        cases stack with
        | nil =>
          rcases ih _ s hs with h | h
          · simp at h
          · exact Or.inr (by simp [h])
        | cons t stk =>
          rcases ih _ s hs with h | h
          · exact Or.inl (by simp [h])
          · exact Or.inr (by simp [h])
      · simp only [hdd, if_false] at hs
        rcases ih _ s hs with h | h
        · rcases List.mem_cons.mp h with h1 | h1
          · exact Or.inr (by simp [h1])
          · exact Or.inl h1
        · exact Or.inr (by simp [h])

theorem normAbs_mem (l : List String) : ∀ s ∈ normAbs l, s ∈ l := by
  intro s hs
  rcases normAbsAux_mem l [] s hs with h | h
  · simp at h
  · exact h

theorem normAbsAux_plain (l : List String) (h : ∀ s ∈ l, s ≠ "." ∧ s ≠ "..")
    (stack : List String) :
    normAbsAux stack l = stack.reverse ++ l := by
  induction l generalizing stack with
  | nil => simp [normAbsAux]
  | cons x rest ih =>
    have hx := h x (by simp)
    simp only [normAbsAux, hx.1, hx.2, if_false]
    rw [ih (fun s hs => h s (by simp [hs])) (x :: stack)]
    simp

theorem normAbs_plain (l : List String) (h : ∀ s ∈ l, s ≠ "." ∧ s ≠ "..") :
    normAbs l = l := by
  rw [normAbs, normAbsAux_plain l h []]
  simp

theorem normAbsAux_append_single (l : List String) (f : String)
    (hf : f ≠ "." ∧ f ≠ "..") (stack : List String) :
    normAbsAux stack (l ++ [f]) = normAbsAux stack l ++ [f] := by
  induction l generalizing stack with
  | nil =>
    show normAbsAux stack [f] = _
    simp only [normAbsAux, hf.1, hf.2, if_false]
    simp
  | cons x rest ih =>
    show normAbsAux stack (x :: (rest ++ [f])) = _
    by_cases hdot : x = "."
    · simp only [normAbsAux, hdot, if_pos rfl]
      exact ih stack
    · by_cases hdd : x = ".."
      · simp only [normAbsAux, hdot, hdd, if_false, if_pos rfl]
        cases stack with
        | nil => exact ih []
        | cons t stk => exact ih stk
      · simp only [normAbsAux, hdot, hdd, if_false]
        exact ih (x :: stack)

theorem normAbs_append_single (l : List String) (f : String)
    (hf : f ≠ "." ∧ f ≠ "..") :
    normAbs (l ++ [f]) = normAbs l ++ [f] :=
  normAbsAux_append_single l f hf []

theorem markerIn_infix (a b : List Char) :
    markerIn (a ++ ('-' :: 'h' :: 'c' :: b)) = true := by
  induction a with
  | nil =>
    show markerIn ('-' :: 'h' :: 'c' :: b) = true
    rw [markerIn]
    have : "-hc".data.isPrefixOf ('-' :: 'h' :: 'c' :: b) = true := by
      have h2 : "-hc".data <+: ('-' :: 'h' :: 'c' :: b) := by
        show "-hc".data <+: ("-hc".data ++ b)
        exact List.prefix_append _ b
      exact List.isPrefixOf_iff_prefix.mpr h2
    rw [this]
    simp
  | cons c a ih =>
    show markerIn (c :: (a ++ ('-' :: 'h' :: 'c' :: b))) = true
    rw [markerIn, ih]
    simp

theorem markerIn_length (l : List Char) (h : markerIn l = true) : 3 ≤ l.length := by
  induction l with
  | nil => simp [markerIn] at h
  | cons c cs ih =>
    rw [markerIn, Bool.or_eq_true] at h
    rcases h with h | h
    · have h2 : "-hc".data <+: (c :: cs) := List.isPrefixOf_iff_prefix.mp h
      have := h2.length_le
      simpa using this
    · have := ih h
      simp only [List.length_cons]
      omega

theorem marker_not_dots (f : String) (h : markerIn f.data = true) :
    f ≠ "." ∧ f ≠ ".." := by
  have hlen := markerIn_length f.data h
  constructor
  · intro hf
    rw [hf] at hlen
    simp at hlen
  · intro hf
    rw [hf] at hlen
    simp at hlen

theorem marker_ne_empty (f : String) (h : markerIn f.data = true) : f ≠ "" := by
  intro hf
  have hlen := markerIn_length f.data h
  rw [hf] at hlen
  simp at hlen

theorem basenameOf_cases (p : String) :
    basenameOf p = "" ∨ ValidSeg (basenameOf p) := by
  rw [basenameOf]
  cases h : (splitPath p).getLast? with
  | none => left; rfl
  | some s =>
    right
    show ValidSeg s
    exact splitPath_valid p s (List.mem_of_mem_getLast? h)

theorem slashfree_basenameOf (p : String) : '/' ∉ (basenameOf p).data := by
  rcases basenameOf_cases p with h | h
  · rw [h]; simp
  · exact h.2

theorem slashfree_basenameExt (p ext : String) : '/' ∉ (basenameExt p ext).data := by
  rw [basenameExt]
  by_cases h : ext ≠ "" ∧ strEnds (basenameOf p) ext
  · rw [if_pos h]
    intro hmem
    have h2 : '/' ∈ (basenameOf p).data := List.take_subset _ _ hmem
    exact slashfree_basenameOf p h2
  · rw [if_neg h]
    exact slashfree_basenameOf p

theorem dot_cons_data (s : String) : ("." ++ s).data = '.' :: s.data := rfl

theorem slashfree_extnameOf (p : String) : '/' ∉ (extnameOf p).data := by
  have hbase := slashfree_basenameOf p
  rcases hsc : splitChunks '.' [] (basenameOf p).data with _ | ⟨x, _ | ⟨y, _ | ⟨z, rest⟩⟩⟩
  · unfold extnameOf
    rw [hsc]
    simp
  · unfold extnameOf
    rw [hsc]
    simp
  · unfold extnameOf
    rw [hsc]
    dsimp only
    by_cases hx : x = []
    · rw [if_pos hx]
      simp
    · rw [if_neg hx, dot_cons_data]
      intro hmem
      rcases List.mem_cons.mp hmem with h1 | h1
      · exact absurd h1 (by decide)
      · apply hbase
        have hychunk : y ∈ splitChunks '.' [] (basenameOf p).data := by
          rw [hsc]; simp
        rcases splitChunks_chunk_mem '.' (basenameOf p).data [] y hychunk '/'
            (by simpa using h1) with h2 | h2
        · simp at h2
        · exact h2.1
  · unfold extnameOf
    rw [hsc]
    dsimp only
    rw [dot_cons_data]
    intro hmem
    rcases List.mem_cons.mp hmem with h1 | h1
    · exact absurd h1 (by decide)
    · apply hbase
      have hylast : (y :: z :: rest).getLast? = some ((y :: z :: rest).getLast (by simp)) := by
        rw [List.getLast?_eq_getLast]
      have hychunk : (y :: z :: rest).getLast (by simp) ∈
          splitChunks '.' [] (basenameOf p).data := by
        rw [hsc]
        exact List.mem_cons_of_mem x (List.getLast_mem _)
      rcases splitChunks_chunk_mem '.' (basenameOf p).data []
          ((y :: z :: rest).getLast (by simp)) hychunk '/'
          (by rw [hylast] at h1; simpa using h1) with h2 | h2
      · simp at h2
      · exact h2.1

theorem hashedName_data (stem h ext : String) :
    (stem ++ "-hc" ++ h ++ ext).data =
      stem.data ++ ('-' :: 'h' :: 'c' :: (h.data ++ ext.data)) := by
  show ((stem.data ++ "-hc".data) ++ h.data) ++ ext.data = _
  simp

theorem markerIn_hashedName (stem h ext : String) :
    markerIn (stem ++ "-hc" ++ h ++ ext).data = true := by
  rw [hashedName_data]
  exact markerIn_infix stem.data (h.data ++ ext.data)

theorem slashfree_hashedName (stem h ext : String)
    (hs : '/' ∉ stem.data) (hh : '/' ∉ h.data) (he : '/' ∉ ext.data) :
    '/' ∉ (stem ++ "-hc" ++ h ++ ext).data := by
  rw [hashedName_data]
  intro hmem
  rcases List.mem_append.mp hmem with h1 | h1
  · exact hs h1
  · rcases List.mem_cons.mp h1 with h2 | h2
    · exact absurd h2 (by decide)
    · rcases List.mem_cons.mp h2 with h3 | h3
      · exact absurd h3 (by decide)
      · rcases List.mem_cons.mp h3 with h4 | h4
        · exact absurd h4 (by decide)
        · rcases List.mem_append.mp h4 with h5 | h5
          · exact hh h5
          · exact he h5

theorem basenameOf_pathJoin (d f : String) (hv : ValidSeg f) (hdots : f ≠ "." ∧ f ≠ "..") :
    basenameOf (pathJoin d f) = f := by
  have hvalid : ∀ s ∈ normAbs (splitPath d) ++ [f], ValidSeg s := by
    intro s hs
    rcases List.mem_append.mp hs with h1 | h1
    · exact splitPath_valid d s (normAbs_mem _ s h1)
    · simp at h1
      rw [h1]
      exact hv
  rw [pathJoin, splitPath_single f hv.1 hv.2]
  by_cases hab : strStarts d "/"
  · simp only [hab, if_true]
    rw [normAbs_append_single _ f hdots, basenameOf, splitPath_renderAbs _ hvalid]
    simp [List.getLast?_concat]
  · simp only [hab, Bool.false_eq_true, if_false]
    rw [normAbs_append_single _ f hdots, basenameOf, splitPath_renderRel _ hvalid]
    simp [List.getLast?_concat]

theorem isHashedFile_getHashedFileName (fullPath targetDir h : String)
    (hh : '/' ∉ h.data) :
    isHashedFile (getHashedFileName fullPath targetDir h) = true := by
  rw [getHashedFileName]
  have hm := markerIn_hashedName (basenameExt fullPath (extnameOf fullPath)) h (extnameOf fullPath)
  have hsl := slashfree_hashedName (basenameExt fullPath (extnameOf fullPath)) h (extnameOf fullPath)
    (slashfree_basenameExt fullPath (extnameOf fullPath)) hh (slashfree_extnameOf fullPath)
  have hdots := marker_not_dots _ hm
  have hne := marker_ne_empty _ hm
  rw [isHashedFile, basenameOf_pathJoin targetDir _ ⟨hne, hsl⟩ hdots]
  exact hm

theorem fsRead_cons (a : String) (b : FileData) (rest : FS) (q : String) :
    fsRead ((a, b) :: rest) q = if a = q then some b else fsRead rest q := by
  by_cases h : a = q <;> simp [fsRead, List.find?, h]

theorem fsRead_fsWrite (fs : FS) (p : String) (d : FileData) (q : String) :
    fsRead (fsWrite fs p d) q = if q = p then some d else fsRead fs q := by
  induction fs with
  | nil =>
    rw [show fsWrite [] p d = [(p, d)] from rfl, fsRead_cons]
    by_cases hq : q = p
    · rw [if_pos hq, if_pos hq.symm]
    · rw [if_neg hq, if_neg (fun h => hq h.symm)]
  | cons kv rest ih =>
    rw [fsWrite]
    by_cases hk : kv.1 = p
    · rw [if_pos hk, fsRead_cons]
      by_cases hq : q = p
      · rw [if_pos hq, if_pos hq.symm]
      · rw [if_neg hq, if_neg (fun h => hq h.symm)]
        have hkv : (kv.1, kv.2) = kv := rfl
        rw [← hkv, fsRead_cons, if_neg (by rw [hk]; exact fun h => hq h.symm)]
    · rw [if_neg hk]
      have hkv : (kv.1, kv.2) = kv := rfl
      rw [← hkv, fsRead_cons, fsRead_cons]
      by_cases hkq : kv.1 = q
      · rw [if_pos hkq, if_pos hkq, if_neg (fun h : q = p => hk (hkq.trans h))]
      · rw [if_neg hkq, if_neg hkq]
        exact ih

theorem fsRead_fsDelete (fs : FS) (p q : String) :
    fsRead (fsDelete fs p) q = if q = p then none else fsRead fs q := by
  induction fs with
  | nil =>
    rw [show fsDelete [] p = [] from rfl]
    by_cases hq : q = p
    · rw [if_pos hq]
      rfl
    · rw [if_neg hq]
  | cons kv rest ih =>
    rw [fsDelete, List.filter_cons]
    have hkv : (kv.1, kv.2) = kv := rfl
    by_cases hk : kv.1 = p
    · rw [if_neg (by simp [hk])]
      rw [show List.filter (fun kv => decide (kv.1 ≠ p)) rest = fsDelete rest p from rfl, ih]
      by_cases hq : q = p
      · rw [if_pos hq, if_pos hq]
      · rw [if_neg hq, if_neg hq, ← hkv, fsRead_cons,
          if_neg (by rw [hk]; exact fun h => hq h.symm)]
    · rw [if_pos (by simp [hk])]
      rw [← hkv, fsRead_cons]
      by_cases hkq : kv.1 = q
      · rw [if_pos hkq, if_neg (fun h : q = p => hk (hkq.trans h)), ← hkv, fsRead_cons,
          if_pos hkq]
      · rw [if_neg hkq,
          show List.filter (fun kv => decide (kv.1 ≠ p)) rest = fsDelete rest p from rfl, ih]
        by_cases hq : q = p
        · rw [if_pos hq, if_pos hq]
        · rw [if_neg hq, if_neg hq, ← hkv, fsRead_cons, if_neg hkq]

theorem renderRel_append (A S : List String) (hA : A ≠ []) (hS : S ≠ []) :
    renderRel (A ++ S) = renderRel A ++ "/" ++ renderRel S := by
  induction A with
  | nil => exact absurd rfl hA
  | cons a A ih =>
    cases A with
    | nil =>
      rw [show ([a] ++ S) = a :: S from rfl, renderRel_cons a S hS]
      rfl
    | cons b B =>
      rw [show ((a :: b :: B) ++ S) = a :: ((b :: B) ++ S) from rfl,
        renderRel_cons a ((b :: B) ++ S) (by simp), ih (by simp),
        renderRel_cons a (b :: B) (by simp)]
      simp [String.append_assoc]

theorem renderAbs_append (A S : List String) (hA : A ≠ []) (hS : S ≠ []) :
    renderAbs A ++ renderAbs S = renderAbs (A ++ S) := by
  rw [renderAbs, renderAbs, renderAbs, renderRel_append A S hA hS]
  simp [String.append_assoc]

theorem relSegs_append (A S : List String) : relSegs A (A ++ S) = S := by
  induction A with
  | nil =>
    cases S with
    | nil => rfl
    | cons s S => rfl
  | cons a A ih =>
    rw [show ((a :: A) ++ S) = a :: (A ++ S) from rfl]
    rw [relSegs]
    simp only [if_pos rfl]
    exact ih

theorem strStarts_renderAbs (L : List String) : strStarts (renderAbs L) "/" = true := by
  rw [strStarts]
  show ['/'].isPrefixOf ('/' :: (renderRel L).data) = true
  simp [List.isPrefixOf]

theorem data_ne_nil (s : String) (h : s ≠ "") : s.data ≠ [] := by
  intro hd
  exact h (by cases s; simp at hd; simp [hd])

theorem renderRel_head_data (R : List String) (hR : R ≠ []) :
    ∃ t, (renderRel R).data = (R.head hR).data ++ t := by
  cases R with
  | nil => exact absurd rfl hR
  | cons r R =>
    cases R with
    | nil => exact ⟨[], by simp [renderRel]⟩
    | cons b B =>
      refine ⟨("/" ++ renderRel (b :: B)).data, ?_⟩
      rw [renderRel_cons r (b :: B) (by simp)]
      show ((r ++ "/") ++ renderRel (b :: B)).data = _
      simp [String.append_assoc]

theorem not_strStarts_renderRel (R : List String) (hR : R ≠ [])
    (hv : ∀ s ∈ R, ValidSeg s) : strStarts (renderRel R) "/" = false := by
  obtain ⟨t, ht⟩ := renderRel_head_data R hR
  have hhead := hv (R.head hR) (List.head_mem hR)
  rcases hd : (R.head hR).data with _ | ⟨c, cs⟩
  · exact absurd hd (data_ne_nil _ hhead.1)
  · have hc : c ≠ '/' := by
      intro hceq
      exact hhead.2 (by rw [hd, hceq]; simp)
    rw [strStarts, ht, hd]
    show ['/'].isPrefixOf (c :: (cs ++ t)) = false
    simp [List.isPrefixOf]
    exact fun h => absurd h.symm hc

theorem dirname_renderAbs (L : List String) (hv : ∀ s ∈ L, ValidSeg s) :
    dirname (renderAbs L) = renderAbs L.dropLast := by
  rw [dirname, if_pos (strStarts_renderAbs L), splitPath_renderAbs L hv]

theorem pathResolve_rel (T R : List String)
    (hvT : ∀ s ∈ T, ValidSeg s) (hpT : ∀ s ∈ T, s ≠ "." ∧ s ≠ "..")
    (hvR : ∀ s ∈ R, ValidSeg s) (hpR : ∀ s ∈ R, s ≠ "." ∧ s ≠ "..")
    (hR : R ≠ []) :
    pathResolve (renderAbs T) (renderRel R) = renderAbs (T ++ R) := by
  rw [pathResolve, if_neg (by rw [not_strStarts_renderRel R hR hvR]; simp),
    splitPath_renderAbs T hvT, splitPath_renderRel R hvR,
    normAbs_plain (T ++ R) (by
      intro s hs
      rcases List.mem_append.mp hs with h | h
      · exact hpT s h
      · exact hpR s h)]

theorem pathJoin_abs_single (L : List String) (f : String)
    (hvL : ∀ s ∈ L, ValidSeg s) (hpL : ∀ s ∈ L, s ≠ "." ∧ s ≠ "..")
    (hvf : ValidSeg f) (hpf : f ≠ "." ∧ f ≠ "..") :
    pathJoin (renderAbs L) f = renderAbs (L ++ [f]) := by
  rw [pathJoin, if_pos (strStarts_renderAbs L), splitPath_renderAbs L hvL,
    splitPath_single f hvf.1 hvf.2, normAbs_append_single L f hpf,
    normAbs_plain L hpL]

theorem pathRelative_abs (A S : List String)
    (hvA : ∀ s ∈ A, ValidSeg s) (hpA : ∀ s ∈ A, s ≠ "." ∧ s ≠ "..")
    (hvS : ∀ s ∈ S, ValidSeg s) (hpS : ∀ s ∈ S, s ≠ "." ∧ s ≠ "..") :
    pathRelative (renderAbs A) (renderAbs (A ++ S)) = renderRel S := by
  rw [pathRelative, splitPath_renderAbs A hvA,
    splitPath_renderAbs (A ++ S) (by
      intro s hs
      rcases List.mem_append.mp hs with h | h
      · exact hvA s h
      · exact hvS s h),
    normAbs_plain A hpA,
    normAbs_plain (A ++ S) (by
      intro s hs
      rcases List.mem_append.mp hs with h | h
      · exact hpA s h
      · exact hpS s h),
    relSegs_append A S]

theorem hygienicB_spec (baseDir p : String) (h : hygienicB baseDir p = true) :
    p = renderAbs (splitPath p) ∧ (∀ s ∈ splitPath p, s ≠ "." ∧ s ≠ "..") ∧
    splitPath baseDir <+: splitPath p ∧ splitPath p ≠ splitPath baseDir := by
  rw [hygienicB] at h
  simp only [Bool.and_eq_true, decide_eq_true_eq, List.all_eq_true, Bool.not_eq_true,
    decide_eq_false_iff_not] at h
  refine ⟨h.1.1.1, ?_, List.isPrefixOf_iff_prefix.mp h.1.2, by simpa using h.2⟩
  intro s hs
  have := h.1.1.2 s hs
  constructor
  · intro heq
    rw [heq] at this
    simp at this
  · intro heq
    rw [heq] at this
    simp at this

end PathLemmas

section EngineLemmas

theorem pluginsFold_fields (l : List (ManifestEntry → List (String × String)))
    (acc : ManifestEntry) :
    (l.foldl (fun acc pl => { acc with extra := mergeExtra acc.extra (pl acc) }) acc).path = acc.path ∧
    (l.foldl (fun acc pl => { acc with extra := mergeExtra acc.extra (pl acc) }) acc).pathPhysical = acc.pathPhysical ∧
    (l.foldl (fun acc pl => { acc with extra := mergeExtra acc.extra (pl acc) }) acc).hashedPath = acc.hashedPath ∧
    (l.foldl (fun acc pl => { acc with extra := mergeExtra acc.extra (pl acc) }) acc).hashedPathPhysical = acc.hashedPathPhysical ∧
    (l.foldl (fun acc pl => { acc with extra := mergeExtra acc.extra (pl acc) }) acc).hashCode = acc.hashCode ∧
    (l.foldl (fun acc pl => { acc with extra := mergeExtra acc.extra (pl acc) }) acc).unverified = acc.unverified ∧
    (l.foldl (fun acc pl => { acc with extra := mergeExtra acc.extra (pl acc) }) acc).transformedText = acc.transformedText := by
  induction l generalizing acc with
  | nil => exact ⟨rfl, rfl, rfl, rfl, rfl, rfl, rfl⟩
  | cons pl rest ih => simpa using ih { acc with extra := mergeExtra acc.extra (pl acc) }

theorem createManifestEntry_eq_plain (H : String → String) (opts : Opts)
    (fullPath basePath targetBasePath : String) (fs : FS) (d : FileData)
    (h : fsRead fs fullPath = some d) :
    createManifestEntry H opts fullPath basePath targetBasePath fs none =
      Except.ok (plainEntry H opts fullPath basePath targetBasePath d) := by
  simp [createManifestEntry, plainEntry, entryWithHash, generateForFile, readFileE, h, Except.map]

theorem createManifestEntry_missing (H : String → String) (opts : Opts)
    (fullPath basePath targetBasePath : String) (fs : FS)
    (h : fsRead fs fullPath = none) :
    createManifestEntry H opts fullPath basePath targetBasePath fs none =
      Except.error (enoent fullPath) := by
  simp [createManifestEntry, generateForFile, readFileE, h, Except.map, enoent]

theorem plainEntry_pathPhysical (H : String → String) (opts : Opts)
    (fullPath basePath targetBasePath : String) (d : FileData) :
    (plainEntry H opts fullPath basePath targetBasePath d).pathPhysical = fullPath :=
  (pluginsFold_fields opts.plugins _).2.1

theorem plainEntry_transformedText (H : String → String) (opts : Opts)
    (fullPath basePath targetBasePath : String) (d : FileData) :
    (plainEntry H opts fullPath basePath targetBasePath d).transformedText = none :=
  (pluginsFold_fields opts.plugins _).2.2.2.2.2.2

theorem plainEntry_unverified (H : String → String) (opts : Opts)
    (fullPath basePath targetBasePath : String) (d : FileData) :
    (plainEntry H opts fullPath basePath targetBasePath d).unverified = false :=
  (pluginsFold_fields opts.plugins _).2.2.2.2.2.1

theorem plainEntry_hashedPathPhysical (H : String → String) (opts : Opts)
    (fullPath basePath targetBasePath : String) (d : FileData) :
    (plainEntry H opts fullPath basePath targetBasePath d).hashedPathPhysical =
      getHashedFileName fullPath
        (dirname (pathResolve targetBasePath (pathRelative basePath fullPath)))
        (H (renderData d)) :=
  (pluginsFold_fields opts.plugins _).2.2.2.1

theorem plainEntry_hashed_isHashed (H : String → String) (opts : Opts)
    (fullPath basePath targetBasePath : String) (d : FileData) (hH : SlashFree H) :
    isHashedFile (plainEntry H opts fullPath basePath targetBasePath d).hashedPathPhysical = true := by
  rw [plainEntry_hashedPathPhysical]
  exact isHashedFile_getHashedFileName _ _ _ (hH _)

theorem processEntry_fresh_push (H : String → String) (opts : Opts)
    (baseDir targetDir : String) (fuel : Nat) (p : String) (st st₁ : St)
    (fresh : ManifestEntry) (d : FileData)
    (hlk : st.lookup p = none)
    (hpre : strStarts p baseDir = true)
    (hhash : isHashedFile p = false)
    (hexcl : opts.shouldBeExcluded p = false)
    (hbuild : buildEntry H opts (processEntry H opts baseDir targetDir fuel)
      p baseDir targetDir st = Except.ok (fresh, st₁))
    (htext : fresh.transformedText = none)
    (hread : fsRead st₁.fs fresh.pathPhysical = some d) :
    processEntry H opts baseDir targetDir (fuel + 1) p st =
      Except.ok (some fresh, afterCopyPush st₁ p fresh d) := by
  show (match st.lookup p with
    | some e =>
      if e.unverified = false then Except.ok (some e, st)
      else processEntryCore H opts baseDir targetDir
        (processEntry H opts baseDir targetDir fuel) p (some e) st
    | none => processEntryCore H opts baseDir targetDir
        (processEntry H opts baseDir targetDir fuel) p none st) = _
  simp [hlk, processEntryCore, hpre, hhash, hexcl, hbuild, materialize, htext,
    copySyncE, hread, afterCopyPush]

theorem processEntry_excluded (H : String → String) (opts : Opts)
    (baseDir targetDir : String) (fuel : Nat) (p : String) (st : St)
    (hcache : ∀ e, st.lookup p = some e → e.unverified = true)
    (hpre : strStarts p baseDir = true)
    (hexcl : opts.shouldBeExcluded p = true) :
    processEntry H opts baseDir targetDir (fuel + 1) p st = Except.ok (none, st) := by
  show (match st.lookup p with
    | some e =>
      if e.unverified = false then Except.ok (some e, st)
      else processEntryCore H opts baseDir targetDir
        (processEntry H opts baseDir targetDir fuel) p (some e) st
    | none => processEntryCore H opts baseDir targetDir
        (processEntry H opts baseDir targetDir fuel) p none st) = _
  cases hq : st.lookup p with
  | none =>
    by_cases hhash : isHashedFile p = true
    · simp [processEntryCore, hpre, hhash]
    · simp at hhash
      simp [processEntryCore, hpre, hhash, hexcl]
  | some e =>
    by_cases hhash : isHashedFile p = true
    · simp [hcache e hq, processEntryCore, hpre, hhash]
    · simp at hhash
      simp [hcache e hq, processEntryCore, hpre, hhash, hexcl]

theorem processEntry_plain_good (H : String → String) (opts : Opts)
    (baseDir targetDir : String) (fuel : Nat) (p : String) (st : St) (d : FileData)
    (hlk : st.lookup p = none)
    (hpre : strStarts p baseDir = true)
    (hhash : isHashedFile p = false)
    (hexcl : opts.shouldBeExcluded p = false)
    (hdisp : ¬ (opts.processCss = true ∧ extnameOf p = ".css"))
    (hd : fsRead st.fs p = some d) :
    processEntry H opts baseDir targetDir (fuel + 1) p st =
      Except.ok (some (plainEntry H opts p baseDir targetDir d),
        afterCopyPush st p (plainEntry H opts p baseDir targetDir d) d) := by
  apply processEntry_fresh_push H opts baseDir targetDir fuel p st st _ d hlk hpre hhash hexcl
  · rw [buildEntry, if_neg hdisp, createManifestEntry_eq_plain H opts p baseDir targetDir st.fs d hd]
  · exact plainEntry_transformedText H opts p baseDir targetDir d
  · rw [plainEntry_pathPhysical]
    exact hd

theorem processEntry_plain_missing (H : String → String) (opts : Opts)
    (baseDir targetDir : String) (fuel : Nat) (p : String) (st : St)
    (hlk : st.lookup p = none)
    (hpre : strStarts p baseDir = true)
    (hhash : isHashedFile p = false)
    (hexcl : opts.shouldBeExcluded p = false)
    (hdisp : ¬ (opts.processCss = true ∧ extnameOf p = ".css"))
    (hmiss : fsRead st.fs p = none)
    (hcont : opts.continueOnError = true) :
    processEntry H opts baseDir targetDir (fuel + 1) p st =
      Except.ok (none, { st with errors := st.errors ++ [wrapErr p (enoent p)] }) := by
  show (match st.lookup p with
    | some e =>
      if e.unverified = false then Except.ok (some e, st)
      else processEntryCore H opts baseDir targetDir
        (processEntry H opts baseDir targetDir fuel) p (some e) st
    | none => processEntryCore H opts baseDir targetDir
        (processEntry H opts baseDir targetDir fuel) p none st) = _
  have hbuild : buildEntry H opts (processEntry H opts baseDir targetDir fuel)
      p baseDir targetDir st = Except.error (enoent p, st) := by
    rw [buildEntry, if_neg hdisp, createManifestEntry_missing H opts p baseDir targetDir st.fs hmiss]
  simp [hlk, processEntryCore, hpre, hhash, hexcl, hbuild, hcont, wrapErr]

theorem processEntry_hashed_skip (H : String → String) (opts : Opts)
    (baseDir targetDir : String) (fuel : Nat) (p : String) (st : St)
    (hcache : ∀ e, st.lookup p = some e → e.unverified = true)
    (hpre : strStarts p baseDir = true)
    (hhashed : isHashedFile p = true) :
    processEntry H opts baseDir targetDir (fuel + 1) p st = Except.ok (none, st) := by
  show (match st.lookup p with
    | some e =>
      if e.unverified = false then Except.ok (some e, st)
      else processEntryCore H opts baseDir targetDir
        (processEntry H opts baseDir targetDir fuel) p (some e) st
    | none => processEntryCore H opts baseDir targetDir
        (processEntry H opts baseDir targetDir fuel) p none st) = _
  cases hq : st.lookup p with
  | none => simp [processEntryCore, hpre, hhashed]
  | some e => simp [hcache e hq, processEntryCore, hpre, hhashed]

theorem processList_fresh_plain (H : String → String) (opts : Opts)
    (baseDir targetDir : String) (fs0 : FS)
    (hH : SlashFree H) (hcont : opts.continueOnError = true)
    (files : List String) (fuel : Nat) (st : St)
    (hpre : ∀ f ∈ files, strStarts f baseDir = true)
    (hdisp : ∀ f ∈ files, ¬ (opts.processCss = true ∧ extnameOf f = ".css"))
    (hlk : ∀ f ∈ files, st.lookup f = none)
    (hnodup : files.Nodup)
    (hinv : FreshInv fs0 st) :
    ∃ st', processList H opts baseDir targetDir (fuel + 1) files st = Except.ok st' ∧
      st'.manifest = st.manifest ++
        (goodsOf opts baseDir fs0 files).map (goodEntry H opts baseDir targetDir fs0) ∧
      st'.errors = st.errors ++
        (badsOf opts baseDir fs0 files).map (fun p => wrapErr p (enoent p)) ∧
      st'.ops = st.ops ++
        (goodsOf opts baseDir fs0 files).map (fun p =>
          FileOp.copy p (goodEntry H opts baseDir targetDir fs0 p).hashedPathPhysical) ∧
      FreshInv fs0 st' := by
  induction files generalizing st with
  | nil =>
    exact ⟨st, rfl, by simp [goodsOf], by simp [badsOf], by simp [goodsOf], hinv⟩
  | cons f rest ih =>
    have hpref := hpre f (by simp)
    have hdispf := hdisp f (by simp)
    have hlkf := hlk f (by simp)
    have hprer : ∀ g ∈ rest, strStarts g baseDir = true := fun g hg => hpre g (by simp [hg])
    have hdispr : ∀ g ∈ rest, ¬ (opts.processCss = true ∧ extnameOf g = ".css") :=
      fun g hg => hdisp g (by simp [hg])
    have hfnotin : f ∉ rest := (List.nodup_cons.mp hnodup).1
    have hnodupr : rest.Nodup := (List.nodup_cons.mp hnodup).2
    by_cases hhash : isHashedFile f = true
    · have hstep := processEntry_hashed_skip H opts baseDir targetDir fuel f st
        (fun e he => absurd (hlkf.symm.trans he) (by simp)) hpref hhash
      rw [show processList H opts baseDir targetDir (fuel + 1) (f :: rest) st =
          (match processEntry H opts baseDir targetDir (fuel + 1) f st with
          | Except.ok r => processList H opts baseDir targetDir (fuel + 1) rest r.2
          | Except.error e => Except.error e) from rfl, hstep]
      have hgoods : goodsOf opts baseDir fs0 (f :: rest) = goodsOf opts baseDir fs0 rest := by
        rw [goodsOf, List.filter_cons_of_neg (by simp [hhash])]
        rfl
      have hbads : badsOf opts baseDir fs0 (f :: rest) = badsOf opts baseDir fs0 rest := by
        rw [badsOf, List.filter_cons_of_neg (by simp [hhash])]
        rfl
      rw [hgoods, hbads]
      exact ih st hprer hdispr (fun g hg => hlk g (by simp [hg])) hnodupr hinv
    · simp at hhash
      by_cases hexcl : opts.shouldBeExcluded f = true
      · have hstep := processEntry_excluded H opts baseDir targetDir fuel f st
          (fun e he => absurd (hlkf.symm.trans he) (by simp)) hpref hexcl
        rw [show processList H opts baseDir targetDir (fuel + 1) (f :: rest) st =
            (match processEntry H opts baseDir targetDir (fuel + 1) f st with
            | Except.ok r => processList H opts baseDir targetDir (fuel + 1) rest r.2
            | Except.error e => Except.error e) from rfl, hstep]
        have hgoods : goodsOf opts baseDir fs0 (f :: rest) = goodsOf opts baseDir fs0 rest := by
          rw [goodsOf, List.filter_cons_of_neg (by simp [hhash, hexcl])]
          rfl
        have hbads : badsOf opts baseDir fs0 (f :: rest) = badsOf opts baseDir fs0 rest := by
          rw [badsOf, List.filter_cons_of_neg (by simp [hhash, hexcl])]
          rfl
        rw [hgoods, hbads]
        exact ih st hprer hdispr (fun g hg => hlk g (by simp [hg])) hnodupr hinv
      · simp at hexcl
        cases hd : fsRead fs0 f with
        | some d =>
          have hd' : fsRead st.fs f = some d := (hinv.1 f hhash).trans hd
          have hstep := processEntry_plain_good H opts baseDir targetDir fuel f st d
            hlkf hpref hhash hexcl hdispf hd'
          rw [show processList H opts baseDir targetDir (fuel + 1) (f :: rest) st =
              (match processEntry H opts baseDir targetDir (fuel + 1) f st with
              | Except.ok r => processList H opts baseDir targetDir (fuel + 1) rest r.2
              | Except.error e => Except.error e) from rfl, hstep]
          have hge : goodEntry H opts baseDir targetDir fs0 f =
              plainEntry H opts f baseDir targetDir d := by
            rw [goodEntry, hd]
            rfl
          set pe := plainEntry H opts f baseDir targetDir d with hpe
          have hst2lk : ∀ g ∈ rest,
              (afterCopyPush st f pe d).lookup g = none := by
            intro g hg
            show lookupInsert st.lookup f pe g = none
            rw [lookupInsert]
            rw [if_neg (fun hgf : g = f => hfnotin (hgf ▸ hg))]
            exact hlk g (by simp [hg])
          have hinv2 : FreshInv fs0 (afterCopyPush st f pe d) := by
            constructor
            · intro q hq
              show fsRead (fsWrite st.fs pe.hashedPathPhysical d) q = _
              rw [fsRead_fsWrite]
              rw [if_neg (by
                intro hqd
                rw [hqd] at hq
                rw [plainEntry_hashed_isHashed H opts f baseDir targetDir d hH] at hq
                exact absurd hq (by decide))]
              exact hinv.1 q hq
            · intro k e he
              show _ = false
              rw [show (afterCopyPush st f pe d).lookup k = lookupInsert st.lookup f pe k
                from rfl, lookupInsert] at he
              by_cases hkf : k = f
              · rw [if_pos hkf] at he
                cases he
                exact plainEntry_unverified H opts f baseDir targetDir d
              · rw [if_neg hkf] at he
                exact hinv.2 k e he
          obtain ⟨st', hrun, hman, herr, hops, hinv'⟩ :=
            ih (afterCopyPush st f pe d) hprer hdispr hst2lk hnodupr hinv2
          refine ⟨st', hrun, ?_, ?_, ?_, hinv'⟩
          · rw [hman]
            have hgoods : goodsOf opts baseDir fs0 (f :: rest) =
                f :: goodsOf opts baseDir fs0 rest := by
              rw [goodsOf, List.filter_cons_of_pos (by simp [hhash, hexcl, hpref, hd])]
              rfl
            rw [hgoods]
            show (st.manifest ++ [pe]) ++ _ = _
            rw [List.map_cons, hge]
            simp
          · rw [herr]
            have hbads : badsOf opts baseDir fs0 (f :: rest) = badsOf opts baseDir fs0 rest := by
              rw [badsOf, List.filter_cons_of_neg (by simp [hd])]
              rfl
            rw [hbads]
            rfl
          · rw [hops]
            have hgoods : goodsOf opts baseDir fs0 (f :: rest) =
                f :: goodsOf opts baseDir fs0 rest := by
              rw [goodsOf, List.filter_cons_of_pos (by simp [hhash, hexcl, hpref, hd])]
              rfl
            rw [hgoods]
            show (st.ops ++ [FileOp.copy pe.pathPhysical pe.hashedPathPhysical]) ++ _ = _
            rw [List.map_cons, hge]
            rw [show pe.pathPhysical = f from plainEntry_pathPhysical H opts f baseDir targetDir d]
            simp
        | none =>
          have hd' : fsRead st.fs f = none := (hinv.1 f hhash).trans hd
          have hstep := processEntry_plain_missing H opts baseDir targetDir fuel f st
            hlkf hpref hhash hexcl hdispf hd' hcont
          rw [show processList H opts baseDir targetDir (fuel + 1) (f :: rest) st =
              (match processEntry H opts baseDir targetDir (fuel + 1) f st with
              | Except.ok r => processList H opts baseDir targetDir (fuel + 1) rest r.2
              | Except.error e => Except.error e) from rfl, hstep]
          have hinv2 : FreshInv fs0 { st with errors := st.errors ++ [wrapErr f (enoent f)] } := by
            exact ⟨hinv.1, hinv.2⟩
          obtain ⟨st', hrun, hman, herr, hops, hinv'⟩ :=
            ih { st with errors := st.errors ++ [wrapErr f (enoent f)] } hprer hdispr
              (fun g hg => hlk g (by simp [hg])) hnodupr hinv2
          refine ⟨st', hrun, ?_, ?_, ?_, hinv'⟩
          · rw [hman]
            have hgoods : goodsOf opts baseDir fs0 (f :: rest) = goodsOf opts baseDir fs0 rest := by
              rw [goodsOf, List.filter_cons_of_neg (by simp [hd])]
              rfl
            rw [hgoods]
          · rw [herr]
            have hbads : badsOf opts baseDir fs0 (f :: rest) =
                f :: badsOf opts baseDir fs0 rest := by
              rw [badsOf, List.filter_cons_of_pos (by simp [hhash, hexcl, hpref, hd])]
              rfl
            rw [hbads]
            simp
          · rw [hops]
            have hgoods : goodsOf opts baseDir fs0 (f :: rest) = goodsOf opts baseDir fs0 rest := by
              rw [goodsOf, List.filter_cons_of_neg (by simp [hd])]
              rfl
            rw [hgoods]

theorem fsDelete_absent (fs : FS) (p : String) (h : fsRead fs p = none) :
    fsDelete fs p = fs := by
  rw [fsDelete]
  apply List.filter_eq_self.mpr
  intro kv hkv
  rcases hfind : fs.find? (fun kv => kv.1 = p) with _ | kv2
  · have := List.find?_eq_none.mp hfind kv hkv
    simpa using this
  · rw [fsRead, hfind] at h
    simp at h

theorem entryWithHash_fields (opts : Opts) (fullPath basePath targetBasePath h : String) :
    (entryWithHash opts fullPath basePath targetBasePath h).path =
      "/" ++ pathRelative basePath fullPath ∧
    (entryWithHash opts fullPath basePath targetBasePath h).pathPhysical = fullPath ∧
    (entryWithHash opts fullPath basePath targetBasePath h).hashedPath =
      "/" ++ pathRelative targetBasePath (getHashedFileName fullPath
        (dirname (pathResolve targetBasePath (pathRelative basePath fullPath))) h) ∧
    (entryWithHash opts fullPath basePath targetBasePath h).hashedPathPhysical =
      getHashedFileName fullPath
        (dirname (pathResolve targetBasePath (pathRelative basePath fullPath))) h ∧
    (entryWithHash opts fullPath basePath targetBasePath h).hashCode = some h ∧
    (entryWithHash opts fullPath basePath targetBasePath h).unverified = false ∧
    (entryWithHash opts fullPath basePath targetBasePath h).transformedText = none := by
  have hf := pluginsFold_fields opts.plugins
    ({ path := "/" ++ pathRelative basePath fullPath
       pathPhysical := fullPath
       hashedPath := "/" ++ pathRelative targetBasePath (getHashedFileName fullPath
         (dirname (pathResolve targetBasePath (pathRelative basePath fullPath))) h)
       hashedPathPhysical := getHashedFileName fullPath
         (dirname (pathResolve targetBasePath (pathRelative basePath fullPath))) h
       hashCode := some h
       unverified := false
       transformedText := none
       extra := [] } : ManifestEntry)
  exact hf

/-- The path fields of a built entry for a hygienic candidate:
its virtual path keys back to the physical path under the base, and the
hashed virtual path keys back to the hashed physical path under the
target. -/
theorem entryWithHash_recon (opts : Opts) (baseDir targetDir p h : String)
    (hB : NormalAbs baseDir) (hBne : splitPath baseDir ≠ [])
    (hT : NormalAbs targetDir) (hTne : splitPath targetDir ≠ [])
    (hyg : hygienicB baseDir p = true)
    (hsl : '/' ∉ h.data) :
    baseDir ++ (entryWithHash opts p baseDir targetDir h).path = p ∧
    targetDir ++ (entryWithHash opts p baseDir targetDir h).hashedPath =
      (entryWithHash opts p baseDir targetDir h).hashedPathPhysical ∧
    isHashedFile (entryWithHash opts p baseDir targetDir h).hashedPathPhysical = true := by
  obtain ⟨hpnorm, hpplain, hpref, hpne⟩ := hygienicB_spec baseDir p hyg
  obtain ⟨hfpath, hfphys, hfhp, hfhpp, _, _, _⟩ :=
    entryWithHash_fields opts p baseDir targetDir h
  have hBR : splitPath baseDir ++ (splitPath p).drop (splitPath baseDir).length = splitPath p :=
    List.prefix_iff_eq_append.mp hpref
  set B := splitPath baseDir with hBdef
  set R := (splitPath p).drop (splitPath baseDir).length with hRdef
  have hRne : R ≠ [] := by
    intro h0
    rw [h0, List.append_nil] at hBR
    exact hpne hBR.symm
  have hvB : ∀ s ∈ B, ValidSeg s := fun s hs => splitPath_valid baseDir s hs
  have hpB : ∀ s ∈ B, s ≠ "." ∧ s ≠ ".." := by
    intro s hs
    have := hB.2 s hs
    exact this.2
  have hvR : ∀ s ∈ R, ValidSeg s := by
    intro s hs
    apply splitPath_valid p
    rw [← hBR]
    exact List.mem_append_right B hs
  have hpR : ∀ s ∈ R, s ≠ "." ∧ s ≠ ".." := by
    intro s hs
    apply hpplain
    rw [← hBR]
    exact List.mem_append_right B hs
  set T := splitPath targetDir with hTdef
  have hvT : ∀ s ∈ T, ValidSeg s := fun s hs => splitPath_valid targetDir s hs
  have hpT : ∀ s ∈ T, s ≠ "." ∧ s ≠ ".." := by
    intro s hs
    exact (hT.2 s hs).2
  have hpeq : p = renderAbs (B ++ R) := by
    rw [hBR]
    exact hpnorm
  have hrel : pathRelative baseDir p = renderRel R := by
    rw [show baseDir = renderAbs B from hB.1, hpeq]
    exact pathRelative_abs B R hvB hpB hvR hpR
  set fname := basenameExt p (extnameOf p) ++ "-hc" ++ h ++ extnameOf p with hfname
  have hfnm : markerIn fname.data = true := markerIn_hashedName _ h _
  have hfnsl : '/' ∉ fname.data :=
    slashfree_hashedName _ h _ (slashfree_basenameExt p (extnameOf p)) hsl
      (slashfree_extnameOf p)
  have hfnv : ValidSeg fname := ⟨marker_ne_empty fname hfnm, hfnsl⟩
  have hfnd : fname ≠ "." ∧ fname ≠ ".." := marker_not_dots fname hfnm
  have hvRd : ∀ s ∈ R.dropLast, ValidSeg s := fun s hs => hvR s (List.dropLast_subset R hs)
  have hpRd : ∀ s ∈ R.dropLast, s ≠ "." ∧ s ≠ ".." :=
    fun s hs => hpR s (List.dropLast_subset R hs)
  have hresolve : pathResolve targetDir (pathRelative baseDir p) = renderAbs (T ++ R) := by
    rw [hrel, show targetDir = renderAbs T from hT.1]
    exact pathResolve_rel T R hvT hpT hvR hpR hRne
  have hdir : dirname (pathResolve targetDir (pathRelative baseDir p)) =
      renderAbs (T ++ R.dropLast) := by
    rw [hresolve, dirname_renderAbs (T ++ R) (by
      intro s hs
      rcases List.mem_append.mp hs with hh | hh
      · exact hvT s hh
      · exact hvR s hh)]
    rw [List.dropLast_append_of_ne_nil T hRne]
  have hvTRd : ∀ s ∈ T ++ R.dropLast, ValidSeg s := by
    intro s hs
    rcases List.mem_append.mp hs with hh | hh
    · exact hvT s hh
    · exact hvRd s hh
  have hpTRd : ∀ s ∈ T ++ R.dropLast, s ≠ "." ∧ s ≠ ".." := by
    intro s hs
    rcases List.mem_append.mp hs with hh | hh
    · exact hpT s hh
    · exact hpRd s hh
  have hhpp : getHashedFileName p
      (dirname (pathResolve targetDir (pathRelative baseDir p))) h =
      renderAbs (T ++ (R.dropLast ++ [fname])) := by
    rw [getHashedFileName, hdir, ← hfname,
      pathJoin_abs_single (T ++ R.dropLast) fname hvTRd hpTRd hfnv hfnd]
    rw [List.append_assoc]
  have hvX : ∀ s ∈ R.dropLast ++ [fname], ValidSeg s := by
    intro s hs
    rcases List.mem_append.mp hs with hh | hh
    · exact hvRd s hh
    · simp at hh
      rw [hh]
      exact hfnv
  have hpX : ∀ s ∈ R.dropLast ++ [fname], s ≠ "." ∧ s ≠ ".." := by
    intro s hs
    rcases List.mem_append.mp hs with hh | hh
    · exact hpRd s hh
    · simp at hh
      rw [hh]
      exact hfnd
  have hrelT : pathRelative targetDir (getHashedFileName p
      (dirname (pathResolve targetDir (pathRelative baseDir p))) h) =
      renderRel (R.dropLast ++ [fname]) := by
    rw [hhpp, show targetDir = renderAbs T from hT.1]
    exact pathRelative_abs T (R.dropLast ++ [fname]) hvT hpT hvX hpX
  refine ⟨?_, ?_, ?_⟩
  · rw [hfpath, hrel]
    show baseDir ++ renderAbs R = p
    rw [show baseDir = renderAbs B from hB.1, renderAbs_append B R hBne hRne]
    exact hpeq.symm
  · rw [hfhp, hfhpp, hrelT, hhpp]
    show targetDir ++ renderAbs (R.dropLast ++ [fname]) = _
    rw [show targetDir = renderAbs T from hT.1,
      renderAbs_append T (R.dropLast ++ [fname]) hTne (by simp)]
  · rw [hfhpp]
    exact isHashedFile_getHashedFileName p _ h hsl

theorem strStarts_append (a b : String) : strStarts (a ++ b) a = true := by
  rw [strStarts]
  have : a.data <+: (a ++ b).data := by
    rw [show (a ++ b).data = a.data ++ b.data from rfl]
    exact List.prefix_append a.data b.data
  exact List.isPrefixOf_iff_prefix.mpr this

theorem hygienic_strStarts (baseDir p : String) (hB : NormalAbs baseDir)
    (hyg : hygienicB baseDir p = true) : strStarts p baseDir = true := by
  obtain ⟨hpnorm, _, hpref, hpne⟩ := hygienicB_spec baseDir p hyg
  obtain ⟨R, hR⟩ := hpref
  have hRne : R ≠ [] := by
    intro h0
    rw [h0, List.append_nil] at hR
    exact hpne hR.symm
  by_cases hBn : splitPath baseDir = []
  · have hbd : baseDir = "/" := by
      rw [hB.1, hBn]
      rfl
    rw [hbd, hpnorm]
    exact strStarts_renderAbs (splitPath p)
  · have : p = baseDir ++ renderAbs R := by
      rw [show baseDir = renderAbs (splitPath baseDir) from hB.1,
        renderAbs_append (splitPath baseDir) R hBn hRne, hR]
      exact hpnorm
    rw [this]
    exact strStarts_append baseDir (renderAbs R)

theorem specCleanTokens_true (clean : String → Bool) (p baseDir : String)
    (toks : List CssTok) (h : specCleanTokens clean p baseDir toks = true) :
    ∀ v, CssTok.url v ∈ toks → clean (resolvedRefPath p baseDir v) = true := by
  induction toks with
  | nil => intro v hv; simp at hv
  | cons t rest ih =>
    intro v hv
    cases t with
    | lit s =>
      rw [specCleanTokens] at h
      rcases List.mem_cons.mp hv with h1 | h1
      · simp at h1
      · exact ih h v h1
    | url w =>
      rw [specCleanTokens, Bool.and_eq_true] at h
      rcases List.mem_cons.mp hv with h1 | h1
      · cases h1
        exact h.1
      · exact ih h.2 v h1

theorem specFoldTokens_ok (spec : String → Except String (Option ManifestEntry))
    (clean : String → Bool) (p baseDir : String)
    (hrec : ∀ q, clean q = true → ∃ ro, spec q = Except.ok ro)
    (toks : List CssTok) (h : specCleanTokens clean p baseDir toks = true) :
    ∃ ts, specFoldTokens spec p baseDir toks = Except.ok ts := by
  induction toks with
  | nil => exact ⟨[], rfl⟩
  | cons t rest ih =>
    cases t with
    | lit s =>
      rw [specCleanTokens] at h
      obtain ⟨ts, hts⟩ := ih h
      exact ⟨CssTok.lit s :: ts, by rw [specFoldTokens, hts]⟩
    | url v =>
      rw [specCleanTokens, Bool.and_eq_true] at h
      obtain ⟨ro, hro⟩ := hrec _ h.1
      obtain ⟨ts, hts⟩ := ih h.2
      cases ro with
      | none => exact ⟨CssTok.url v :: ts, by rw [specFoldTokens, hro, hts]⟩
      | some e =>
        exact ⟨CssTok.url (specSubst p v e) :: ts, by rw [specFoldTokens, hro, hts]⟩

theorem specFoldTokens_congr (spec spec' : String → Except String (Option ManifestEntry))
    (clean : String → Bool) (p baseDir : String)
    (hrec : ∀ q, clean q = true → spec' q = spec q)
    (toks : List CssTok) (h : specCleanTokens clean p baseDir toks = true) :
    specFoldTokens spec' p baseDir toks = specFoldTokens spec p baseDir toks := by
  induction toks with
  | nil => rfl
  | cons t rest ih =>
    cases t with
    | lit s =>
      rw [specCleanTokens] at h
      rw [specFoldTokens, specFoldTokens, ih h]
    | url v =>
      rw [specCleanTokens, Bool.and_eq_true] at h
      rw [specFoldTokens, specFoldTokens, ih h.2, hrec _ h.1]

theorem specCleanTokens_mono (clean clean' : String → Bool) (p baseDir : String)
    (hrec : ∀ q, clean q = true → clean' q = true)
    (toks : List CssTok) (h : specCleanTokens clean p baseDir toks = true) :
    specCleanTokens clean' p baseDir toks = true := by
  induction toks with
  | nil => rfl
  | cons t rest ih =>
    cases t with
    | lit s =>
      rw [specCleanTokens] at h ⊢
      exact ih h
    | url v =>
      rw [specCleanTokens, Bool.and_eq_true] at h
      rw [specCleanTokens, Bool.and_eq_true]
      exact ⟨hrec _ h.1, ih h.2⟩

theorem specKeysTokens_congr (keys keys' : String → List String)
    (clean : String → Bool) (p baseDir : String)
    (hrec : ∀ q, clean q = true → keys' q = keys q)
    (toks : List CssTok) (h : specCleanTokens clean p baseDir toks = true) :
    specKeysTokens keys' p baseDir toks = specKeysTokens keys p baseDir toks := by
  induction toks with
  | nil => rfl
  | cons t rest ih =>
    cases t with
    | lit s =>
      rw [specCleanTokens] at h
      rw [specKeysTokens, specKeysTokens, ih h]
    | url v =>
      rw [specCleanTokens, Bool.and_eq_true] at h
      rw [specKeysTokens, specKeysTokens, ih h.2, hrec _ h.1]

theorem specProcess_succ (H : String → String) (opts : Opts) (baseDir targetDir : String)
    (fs0 : FS) (fuel : Nat) (p : String) :
    specProcess H opts baseDir targetDir fs0 (fuel + 1) p =
      (if strStarts p baseDir then
        if isHashedFile p then Except.ok none
        else if opts.shouldBeExcluded p then Except.ok none
        else
          match
            (match fsRead fs0 p with
            | none => Except.error (enoent p)
            | some d =>
              if opts.processCss ∧ extnameOf p = ".css" then
                match specFoldTokens (specProcess H opts baseDir targetDir fs0 fuel)
                    p baseDir (docOfData d) with
                | Except.ok tdoc =>
                  Except.ok (entryWithHash opts p baseDir targetDir (H (renderDoc tdoc)))
                | Except.error m => Except.error m
              else Except.ok (plainEntry H opts p baseDir targetDir d) :
              Except String ManifestEntry) with
          | Except.ok e => Except.ok (some e)
          | Except.error m =>
            if opts.continueOnError then Except.ok none else Except.error m
      else Except.error ("The file " ++ p ++ " is not in the base directory: " ++ baseDir)) := rfl

theorem specClean_succ (opts : Opts) (baseDir : String) (fs0 : FS) (fuel : Nat) (p : String) :
    specClean opts baseDir fs0 (fuel + 1) p =
      (hygienicB baseDir p &&
        (isHashedFile p || opts.shouldBeExcluded p ||
          match fsRead fs0 p with
          | none => false
          | some d =>
            if opts.processCss ∧ extnameOf p = ".css" then
              specCleanTokens (specClean opts baseDir fs0 fuel) p baseDir (docOfData d)
            else true)) := rfl

theorem specKeys_succ (opts : Opts) (baseDir : String) (fs0 : FS) (fuel : Nat) (p : String) :
    specKeys opts baseDir fs0 (fuel + 1) p =
      (if strStarts p baseDir && ! isHashedFile p && ! opts.shouldBeExcluded p then
        match fsRead fs0 p with
        | none => []
        | some d =>
          if opts.processCss ∧ extnameOf p = ".css" then
            specKeysTokens (specKeys opts baseDir fs0 fuel) p baseDir (docOfData d) ++ [p]
          else [p]
      else []) := rfl

theorem specClean_zero (opts : Opts) (baseDir : String) (fs0 : FS) (p : String) :
    specClean opts baseDir fs0 0 p = false := rfl

theorem specClean_succ_elim (opts : Opts) (baseDir : String) (fs0 : FS) (fuel : Nat)
    (p : String) (h : specClean opts baseDir fs0 (fuel + 1) p = true) :
    hygienicB baseDir p = true ∧
    (isHashedFile p = true ∨
      (isHashedFile p = false ∧ opts.shouldBeExcluded p = true) ∨
      (isHashedFile p = false ∧ opts.shouldBeExcluded p = false ∧
        ∃ d, fsRead fs0 p = some d ∧
          ((opts.processCss ∧ extnameOf p = ".css") →
            specCleanTokens (specClean opts baseDir fs0 fuel) p baseDir (docOfData d) = true))) := by
  rw [specClean_succ, Bool.and_eq_true] at h
  refine ⟨h.1, ?_⟩
  have h2 := h.2
  rw [Bool.or_eq_true, Bool.or_eq_true] at h2
  by_cases hhash : isHashedFile p = true
  · exact Or.inl hhash
  · simp only [Bool.not_eq_true] at hhash
    by_cases hexcl : opts.shouldBeExcluded p = true
    · exact Or.inr (Or.inl ⟨hhash, hexcl⟩)
    · simp only [Bool.not_eq_true] at hexcl
      refine Or.inr (Or.inr ⟨hhash, hexcl, ?_⟩)
      rcases h2 with h3 | h3
      · rcases h3 with h4 | h4
        · rw [hhash] at h4
          simp at h4
        · rw [hexcl] at h4
          simp at h4
      · cases hread : fsRead fs0 p with
        | none =>
          rw [hread] at h3
          simp at h3
        | some d =>
          rw [hread] at h3
          dsimp only at h3
          refine ⟨d, rfl, ?_⟩
          intro hcss
          rw [if_pos hcss] at h3
          exact h3

theorem specClean_spec_ok (H : String → String) (opts : Opts) (baseDir targetDir : String)
    (fs0 : FS) (hB : NormalAbs baseDir) :
    ∀ fuel p, specClean opts baseDir fs0 fuel p = true →
    ∃ ro, specProcess H opts baseDir targetDir fs0 fuel p = Except.ok ro := by
  intro fuel
  induction fuel with
  | zero =>
    intro p h
    rw [specClean_zero] at h
    simp at h
  | succ fuel ih =>
    intro p h
    obtain ⟨hyg, hcases⟩ := specClean_succ_elim opts baseDir fs0 fuel p h
    have hpre := hygienic_strStarts baseDir p hB hyg
    rw [specProcess_succ, if_pos hpre]
    rcases hcases with h1 | h1 | h1
    · rw [if_pos h1]
      exact ⟨none, rfl⟩
    · rw [if_neg (by rw [h1.1]; simp), if_pos h1.2]
      exact ⟨none, rfl⟩
    · obtain ⟨hhash, hexcl, d, hread, htoks⟩ := h1
      rw [if_neg (by rw [hhash]; simp), if_neg (by rw [hexcl]; simp), hread]
      dsimp only
      by_cases hcss : opts.processCss ∧ extnameOf p = ".css"
      · obtain ⟨ts, hts⟩ := specFoldTokens_ok
          (specProcess H opts baseDir targetDir fs0 fuel)
          (specClean opts baseDir fs0 fuel) p baseDir ih (docOfData d) (htoks hcss)
        rw [if_pos hcss, hts]
        exact ⟨some (entryWithHash opts p baseDir targetDir (H (renderDoc ts))), rfl⟩
      · rw [if_neg hcss]
        exact ⟨some (plainEntry H opts p baseDir targetDir d), rfl⟩

theorem spec_mono_step (H : String → String) (opts : Opts) (baseDir targetDir : String)
    (fs0 : FS) (hB : NormalAbs baseDir) :
    ∀ fuel p, specClean opts baseDir fs0 fuel p = true →
    specClean opts baseDir fs0 (fuel + 1) p = true ∧
    specProcess H opts baseDir targetDir fs0 (fuel + 1) p =
      specProcess H opts baseDir targetDir fs0 fuel p ∧
    specKeys opts baseDir fs0 (fuel + 1) p = specKeys opts baseDir fs0 fuel p := by
  intro fuel
  induction fuel with
  | zero =>
    intro p h
    rw [specClean_zero] at h
    simp at h
  | succ fuel ih =>
    intro p h
    obtain ⟨hyg, hcases⟩ := specClean_succ_elim opts baseDir fs0 fuel p h
    have hpre := hygienic_strStarts baseDir p hB hyg
    refine ⟨?_, ?_, ?_⟩
    · rw [specClean_succ, Bool.and_eq_true]
      refine ⟨hyg, ?_⟩
      rcases hcases with h1 | h1 | h1
      · rw [h1]
        simp
      · rw [h1.2]
        simp
      · obtain ⟨hhash, hexcl, d, hread, htoks⟩ := h1
        rw [hread]
        dsimp only
        by_cases hcss : opts.processCss ∧ extnameOf p = ".css"
        · rw [if_pos hcss]
          have := specCleanTokens_mono (specClean opts baseDir fs0 fuel)
            (specClean opts baseDir fs0 (fuel + 1)) p baseDir
            (fun q hq => (ih q hq).1) (docOfData d) (htoks hcss)
          rw [this]
          simp
        · rw [if_neg hcss]
          simp
    · rw [specProcess_succ H opts baseDir targetDir fs0 (fuel + 1),
        specProcess_succ H opts baseDir targetDir fs0 fuel]
      simp only [if_pos hpre]
      rcases hcases with h1 | h1 | h1
      · simp only [if_pos h1]
      · simp only [if_neg (show ¬ isHashedFile p = true by rw [h1.1]; simp), if_pos h1.2]
      · obtain ⟨hhash, hexcl, d, hread, htoks⟩ := h1
        simp only [if_neg (show ¬ isHashedFile p = true by rw [hhash]; simp),
          if_neg (show ¬ opts.shouldBeExcluded p = true by rw [hexcl]; simp), hread]
        by_cases hcss : opts.processCss ∧ extnameOf p = ".css"
        · rw [if_pos hcss,
            specFoldTokens_congr (specProcess H opts baseDir targetDir fs0 fuel)
              (specProcess H opts baseDir targetDir fs0 (fuel + 1))
              (specClean opts baseDir fs0 fuel) p baseDir
              (fun q hq => (ih q hq).2.1) (docOfData d) (htoks hcss)]
          rw [if_pos hcss]
        · rw [if_neg hcss, if_neg hcss]
    · rw [specKeys_succ opts baseDir fs0 (fuel + 1), specKeys_succ opts baseDir fs0 fuel]
      rcases hcases with h1 | h1 | h1
      · simp only [show (strStarts p baseDir && ! isHashedFile p && ! opts.shouldBeExcluded p)
            = false by rw [h1]; simp]
        simp
      · simp only [show (strStarts p baseDir && ! isHashedFile p && ! opts.shouldBeExcluded p)
            = false by rw [h1.2]; simp]
        simp
      · obtain ⟨hhash, hexcl, d, hread, htoks⟩ := h1
        simp only [hread]
        simp only [if_pos (show (strStarts p baseDir && ! isHashedFile p &&
          ! opts.shouldBeExcluded p) = true by rw [hpre, hhash, hexcl]; simp)]
        by_cases hcss : opts.processCss ∧ extnameOf p = ".css"
        · rw [if_pos hcss,
            specKeysTokens_congr (specKeys opts baseDir fs0 fuel)
              (specKeys opts baseDir fs0 (fuel + 1))
              (specClean opts baseDir fs0 fuel) p baseDir
              (fun q hq => (ih q hq).2.2) (docOfData d) (htoks hcss)]
          rw [if_pos hcss]
        · rw [if_neg hcss, if_neg hcss]

theorem spec_mono_le (H : String → String) (opts : Opts) (baseDir targetDir : String)
    (fs0 : FS) (hB : NormalAbs baseDir) (fl fl' : Nat) (hle : fl ≤ fl') (p : String)
    (h : specClean opts baseDir fs0 fl p = true) :
    specClean opts baseDir fs0 fl' p = true ∧
    specProcess H opts baseDir targetDir fs0 fl' p =
      specProcess H opts baseDir targetDir fs0 fl p ∧
    specKeys opts baseDir fs0 fl' p = specKeys opts baseDir fs0 fl p := by
  induction fl' with
  | zero =>
    have : fl = 0 := Nat.le_zero.mp hle
    rw [this] at h
    rw [specClean_zero] at h
    simp at h
  | succ fl' ih =>
    rcases Nat.lt_or_ge fl (fl' + 1) with hlt | hge
    · have hle' : fl ≤ fl' := Nat.lt_succ_iff.mp hlt
      obtain ⟨hc, hs, hk⟩ := ih hle'
      obtain ⟨hc2, hs2, hk2⟩ := spec_mono_step H opts baseDir targetDir fs0 hB fl' p hc
      exact ⟨hc2, hs2.trans hs, hk2.trans hk⟩
    · have : fl = fl' + 1 := Nat.le_antisymm hle hge
      rw [← this]
      exact ⟨h, rfl, rfl⟩

theorem spec_clean_agree (H : String → String) (opts : Opts) (baseDir targetDir : String)
    (fs0 : FS) (hB : NormalAbs baseDir) (fl fl' : Nat) (p : String)
    (h : specClean opts baseDir fs0 fl p = true)
    (h' : specClean opts baseDir fs0 fl' p = true) :
    specProcess H opts baseDir targetDir fs0 fl' p =
      specProcess H opts baseDir targetDir fs0 fl p ∧
    specKeys opts baseDir fs0 fl' p = specKeys opts baseDir fs0 fl p := by
  rcases Nat.le_total fl fl' with hle | hle
  · exact (spec_mono_le H opts baseDir targetDir fs0 hB fl fl' hle p h).2
  · obtain ⟨_, hs, hk⟩ := spec_mono_le H opts baseDir targetDir fs0 hB fl' fl hle p h'
    exact ⟨hs.symm, hk.symm⟩

theorem processEntry_succ (H : String → String) (opts : Opts) (baseDir targetDir : String)
    (fuel : Nat) (p : String) (st : St) :
    processEntry H opts baseDir targetDir (fuel + 1) p st =
      (match st.lookup p with
      | some e =>
        if e.unverified = false then Except.ok (some e, st)
        else processEntryCore H opts baseDir targetDir
          (processEntry H opts baseDir targetDir fuel) p (some e) st
      | none => processEntryCore H opts baseDir targetDir
          (processEntry H opts baseDir targetDir fuel) p none st) := rfl

theorem createManifestEntry_some (H : String → String) (opts : Opts)
    (fullPath basePath targetBasePath : String) (fs : FS) (h : String) :
    createManifestEntry H opts fullPath basePath targetBasePath fs (some h) =
      Except.ok (entryWithHash opts fullPath basePath targetBasePath h) := rfl

theorem reset_transformedText (e : ManifestEntry) (t : List CssTok)
    (h : e.transformedText = none) :
    ({ ({ e with transformedText := some t }) with transformedText := none } :
      ManifestEntry) = e := by
  cases e
  simp only [ManifestEntry.mk.injEq]
  simp at h
  simp [h]

theorem clearUnverified_fields (e : ManifestEntry) :
    (clearUnverified e).path = e.path ∧
    (clearUnverified e).pathPhysical = e.pathPhysical ∧
    (clearUnverified e).hashedPath = e.hashedPath ∧
    (clearUnverified e).hashedPathPhysical = e.hashedPathPhysical ∧
    (clearUnverified e).transformedText = e.transformedText ∧
    trimEntry (clearUnverified e) = trimEntry e := by
  simp [clearUnverified, trimEntry]

theorem specSubst_congr (p v : String) (e se : ManifestEntry) (h : FieldMatch e se) :
    specSubst p v e = specSubst p v se := by
  rw [specSubst, specSubst, h.2.2.1, h.2.2.2]

theorem FlipLe_refl (st : St) : FlipLe st st :=
  ⟨rfl, rfl, rfl, rfl, rfl, fun _ => rfl⟩

theorem FlipLe_trans (a b c : St) (h1 : FlipLe a b) (h2 : FlipLe b c) : FlipLe a c :=
  ⟨h2.1.trans h1.1, h2.2.1.trans h1.2.1, h2.2.2.1.trans h1.2.2.1,
   h2.2.2.2.1.trans h1.2.2.2.1, h2.2.2.2.2.1.trans h1.2.2.2.2.1,
   fun q => (h2.2.2.2.2.2 q).trans (h1.2.2.2.2.2 q)⟩

theorem confirmSt_flip (st : St) (e : ManifestEntry) : FlipLe st (confirmSt st e) := by
  refine ⟨rfl, rfl, rfl, ?_, by simp [confirmSt], ?_⟩
  · show (st.manifest.map (fun x => if x = e then clearUnverified e else x)).map trimEntry =
      st.manifest.map trimEntry
    rw [List.map_map]
    apply List.map_congr_left
    intro x _
    show trimEntry (if x = e then clearUnverified e else x) = trimEntry x
    by_cases hx : x = e
    · rw [if_pos hx, (clearUnverified_fields e).2.2.2.2.2, hx]
    · rw [if_neg hx]
  · intro q
    show (match st.lookup q with
      | some x => if x = e then some (clearUnverified e) else some x
      | none => none).isSome = (st.lookup q).isSome
    cases st.lookup q with
    | none => rfl
    | some x =>
      dsimp only
      by_cases hx : x = e
      · rw [if_pos hx]
        rfl
      · rw [if_neg hx]

theorem confirmSt_inv2 (H : String → String) (opts : Opts) (baseDir targetDir : String)
    (fs0 : FS) (st : St) (e : ManifestEntry)
    (hinv : Inv2 H opts baseDir targetDir fs0 st) :
    Inv2 H opts baseDir targetDir fs0 (confirmSt st e) := by
  obtain ⟨hfs, hlk⟩ := hinv
  refine ⟨hfs, ?_⟩
  intro k y hy
  have hlook : (confirmSt st e).lookup k = (match st.lookup k with
    | some x => if x = e then some (clearUnverified e) else some x
    | none => none) := rfl
  rw [hlook] at hy
  cases hq : st.lookup k with
  | none =>
    rw [hq] at hy
    exact absurd hy (by simp)
  | some x =>
    rw [hq] at hy
    dsimp only at hy
    have hx := hlk k x hq
    obtain ⟨htt, hpp, fl, se, hc, hs, hfm, hcov⟩ := hx
    have hcov2 : ∀ q ∈ specKeys opts baseDir fs0 fl k,
        ((confirmSt st e).lookup q).isSome = true := by
      intro q hqmem
      have := (confirmSt_flip st e).2.2.2.2.2 q
      rw [this]
      exact hcov q hqmem
    by_cases hxe : x = e
    · rw [if_pos hxe] at hy
      cases hy
      refine ⟨?_, ?_, fl, se, hc, hs, ?_, hcov2⟩
      · rw [(clearUnverified_fields e).2.2.2.2.1, ← hxe]
        exact htt
      · rw [(clearUnverified_fields e).2.1, ← hxe]
        exact hpp
      · obtain ⟨f1, f2, f3, f4⟩ := hfm
        exact ⟨by rw [(clearUnverified_fields e).1, ← hxe]; exact f1,
          by rw [(clearUnverified_fields e).2.1, ← hxe]; exact f2,
          by rw [(clearUnverified_fields e).2.2.1, ← hxe]; exact f3,
          by rw [(clearUnverified_fields e).2.2.2.1, ← hxe]; exact f4⟩
    · rw [if_neg hxe] at hy
      cases hy
      exact ⟨htt, hpp, fl, se, hc, hs, hfm, hcov2⟩

theorem fsWrite_any_key (P : String → Bool) (fs : FS) (k : String) (d : FileData)
    (h : fs.any (fun kv => P kv.1) = true) :
    (fsWrite fs k d).any (fun kv => P kv.1) = true := by
  induction fs with
  | nil => simp at h
  | cons kv rest ih =>
    rw [List.any_cons, Bool.or_eq_true] at h
    rw [fsWrite]
    by_cases hk : kv.1 = k
    · rw [if_pos hk, List.any_cons, Bool.or_eq_true]
      rcases h with h1 | h1
      · left
        show P k = true
        rw [← hk]
        exact h1
      · right
        exact h1
    · rw [if_neg hk, List.any_cons, Bool.or_eq_true]
      rcases h with h1 | h1
      · left
        exact h1
      · right
        exact ih h1

theorem fsExists_fsWrite (fs : FS) (k : String) (d : FileData) (p : String)
    (h : fsExists fs p = true) : fsExists (fsWrite fs k d) p = true := by
  rw [fsExists, Bool.or_eq_true] at h
  rw [fsExists, Bool.or_eq_true]
  rcases h with h1 | h1
  · exact Or.inl (fsWrite_any_key (fun s => decide (s = p)) fs k d h1)
  · exact Or.inr (fsWrite_any_key (fun s => strStarts s (p ++ "/")) fs k d h1)

theorem lookupFold_some (l : List ManifestEntry) (lk0 : String → Option ManifestEntry)
    (q : String) (e : ManifestEntry)
    (h : (l.foldl (fun lk x => lookupInsert lk x.pathPhysical x) lk0) q = some e) :
    (e ∈ l ∧ e.pathPhysical = q) ∨ lk0 q = some e := by
  induction l generalizing lk0 with
  | nil => exact Or.inr h
  | cons x r ih =>
    rw [List.foldl_cons] at h
    rcases ih (lookupInsert lk0 x.pathPhysical x) h with h1 | h1
    · exact Or.inl ⟨List.mem_cons_of_mem x h1.1, h1.2⟩
    · rw [lookupInsert] at h1
      by_cases hq : q = x.pathPhysical
      · rw [if_pos hq] at h1
        have hx : x = e := Option.some.inj h1
        rw [← hx]
        exact Or.inl ⟨List.mem_cons_self x r, hq.symm⟩
      · rw [if_neg hq] at h1
        exact Or.inr h1

theorem lookupFold_mono (l : List ManifestEntry) (lk0 : String → Option ManifestEntry)
    (q : String) (h : (lk0 q).isSome = true) :
    ((l.foldl (fun lk x => lookupInsert lk x.pathPhysical x) lk0) q).isSome = true := by
  induction l generalizing lk0 with
  | nil => exact h
  | cons x r ih =>
    rw [List.foldl_cons]
    apply ih
    rw [lookupInsert]
    by_cases hq : q = x.pathPhysical
    · rw [if_pos hq]
      rfl
    · rw [if_neg hq]
      exact h

theorem lookupFold_isSome (l : List ManifestEntry) (lk0 : String → Option ManifestEntry)
    (e : ManifestEntry) (hmem : e ∈ l) :
    ((l.foldl (fun lk x => lookupInsert lk x.pathPhysical x) lk0) e.pathPhysical).isSome
      = true := by
  induction l generalizing lk0 with
  | nil => simp at hmem
  | cons x r ih =>
    rw [List.foldl_cons]
    rcases List.mem_cons.mp hmem with h1 | h1
    · apply lookupFold_mono
      rw [h1, lookupInsert, if_pos rfl]
      rfl
    · exact ih (lookupInsert lk0 x.pathPhysical x) h1

theorem buildEntry_plain (H : String → String) (opts : Opts)
    (proc : String → St → Except (String × St) (Option ManifestEntry × St))
    (p baseDir targetDir : String) (st : St) (d : FileData)
    (hdisp : ¬ (opts.processCss = true ∧ extnameOf p = ".css"))
    (hread : fsRead st.fs p = some d) :
    buildEntry H opts proc p baseDir targetDir st =
      Except.ok (plainEntry H opts p baseDir targetDir d, st) := by
  rw [buildEntry, if_neg hdisp,
    createManifestEntry_eq_plain H opts p baseDir targetDir st.fs d hread]

theorem buildEntry_css (H : String → String) (opts : Opts)
    (proc : String → St → Except (String × St) (Option ManifestEntry × St))
    (p baseDir targetDir : String) (st st₁ : St) (d : FileData) (ts : List CssTok)
    (hcss : opts.processCss = true ∧ extnameOf p = ".css")
    (hread : fsRead st.fs p = some d)
    (hfold : cssFold proc p baseDir (docOfData d) st = Except.ok (ts, st₁)) :
    buildEntry H opts proc p baseDir targetDir st =
      Except.ok ({ entryWithHash opts p baseDir targetDir (H (renderDoc ts)) with
        transformedText := some ts }, st₁) := by
  rw [buildEntry, if_pos hcss]
  simp [createManifestEntryCss, readFileE, hread, hfold, createManifestEntry_some]

theorem processEntry_fresh_write (H : String → String) (opts : Opts)
    (baseDir targetDir : String) (fuel : Nat) (p : String) (st st₁ : St)
    (fresh : ManifestEntry) (doc : List CssTok)
    (hlk : st.lookup p = none)
    (hpre : strStarts p baseDir = true)
    (hhash : isHashedFile p = false)
    (hexcl : opts.shouldBeExcluded p = false)
    (hbuild : buildEntry H opts (processEntry H opts baseDir targetDir fuel)
      p baseDir targetDir st = Except.ok (fresh, st₁))
    (htext : fresh.transformedText = some doc) :
    processEntry H opts baseDir targetDir (fuel + 1) p st =
      Except.ok (some ({ fresh with transformedText := none }),
        { manifest := st₁.manifest ++ [{ fresh with transformedText := none }],
          errors := st₁.errors,
          lookup := lookupInsert st₁.lookup p ({ fresh with transformedText := none }),
          fs := fsWrite st₁.fs fresh.hashedPathPhysical (FileData.text doc),
          ops := st₁.ops ++ [FileOp.write fresh.hashedPathPhysical (FileData.text doc)] }) := by
  show (match st.lookup p with
    | some e =>
      if e.unverified = false then Except.ok (some e, st)
      else processEntryCore H opts baseDir targetDir
        (processEntry H opts baseDir targetDir fuel) p (some e) st
    | none => processEntryCore H opts baseDir targetDir
        (processEntry H opts baseDir targetDir fuel) p none st) = _
  simp [hlk, processEntryCore, hpre, hhash, hexcl, hbuild, materialize, htext, writeFileOp]

theorem specClean_hyg (opts : Opts) (baseDir : String) (fs0 : FS) (fl : Nat) (p : String)
    (h : specClean opts baseDir fs0 fl p = true) : hygienicB baseDir p = true := by
  cases fl with
  | zero =>
    rw [specClean_zero] at h
    simp at h
  | succ fl => exact (specClean_succ_elim opts baseDir fs0 fl p h).1

theorem spec_skip_none (H : String → String) (opts : Opts) (baseDir targetDir : String)
    (fs0 : FS) (hB : NormalAbs baseDir) (fl : Nat) (p : String)
    (hc : specClean opts baseDir fs0 fl p = true)
    (hskip : isHashedFile p = true ∨ opts.shouldBeExcluded p = true) :
    specProcess H opts baseDir targetDir fs0 fl p = Except.ok none := by
  cases fl with
  | zero =>
    rw [specClean_zero] at hc
    simp at hc
  | succ fl =>
    have hpre := hygienic_strStarts baseDir p hB
      (specClean_succ_elim opts baseDir fs0 fl p hc).1
    rw [specProcess_succ, if_pos hpre]
    by_cases hhash : isHashedFile p = true
    · rw [if_pos hhash]
    · rw [if_neg hhash]
      rcases hskip with h1 | h1
      · exact absurd h1 hhash
      · rw [if_pos h1]

theorem spec_entry_recon (H : String → String) (opts : Opts) (baseDir targetDir : String)
    (fs0 : FS) (hB : NormalAbs baseDir) (hBne : splitPath baseDir ≠ [])
    (hT : NormalAbs targetDir) (hTne : splitPath targetDir ≠ [])
    (hH : SlashFree H) (fl : Nat) (p : String) (e : ManifestEntry)
    (hc : specClean opts baseDir fs0 fl p = true)
    (hs : specProcess H opts baseDir targetDir fs0 fl p = Except.ok (some e)) :
    isHashedFile p = false ∧ opts.shouldBeExcluded p = false ∧
    (fsRead fs0 p).isSome = true ∧
    e.pathPhysical = p ∧ e.unverified = false ∧ e.transformedText = none ∧
    baseDir ++ e.path = p ∧ targetDir ++ e.hashedPath = e.hashedPathPhysical ∧
    isHashedFile e.hashedPathPhysical = true := by
  cases fl with
  | zero =>
    rw [specClean_zero] at hc
    simp at hc
  | succ fl =>
    obtain ⟨hyg, hcases⟩ := specClean_succ_elim opts baseDir fs0 fl p hc
    have hpre := hygienic_strStarts baseDir p hB hyg
    rcases hcases with h1 | h1 | h1
    · rw [specProcess_succ, if_pos hpre, if_pos h1] at hs
      exact absurd hs (by simp)
    · rw [specProcess_succ, if_pos hpre, if_neg (by rw [h1.1]; simp), if_pos h1.2] at hs
      exact absurd hs (by simp)
    · obtain ⟨hhash, hexcl, d, hread, htoks⟩ := h1
      rw [specProcess_succ, if_pos hpre, if_neg (by rw [hhash]; simp),
        if_neg (by rw [hexcl]; simp), hread] at hs
      dsimp only at hs
      have hgoal : ∀ h0, e = entryWithHash opts p baseDir targetDir (H h0) →
          isHashedFile p = false ∧ opts.shouldBeExcluded p = false ∧
          (fsRead fs0 p).isSome = true ∧
          e.pathPhysical = p ∧ e.unverified = false ∧ e.transformedText = none ∧
          baseDir ++ e.path = p ∧ targetDir ++ e.hashedPath = e.hashedPathPhysical ∧
          isHashedFile e.hashedPathPhysical = true := by
        intro h0 he
        obtain ⟨hf1, hf2, hf3, hf4, hf5, hf6, hf7⟩ :=
          entryWithHash_fields opts p baseDir targetDir (H h0)
        obtain ⟨hr1, hr2, hr3⟩ := entryWithHash_recon opts baseDir targetDir p (H h0)
          hB hBne hT hTne hyg (hH h0)
        rw [he]
        exact ⟨hhash, hexcl, by rw [hread]; rfl, hf2, hf6, hf7, hr1, hr2, hr3⟩
      by_cases hcss : opts.processCss = true ∧ extnameOf p = ".css"
      · rw [if_pos hcss] at hs
        obtain ⟨ts, hts⟩ := specFoldTokens_ok
          (specProcess H opts baseDir targetDir fs0 fl) (specClean opts baseDir fs0 fl)
          p baseDir (fun q hq => specClean_spec_ok H opts baseDir targetDir fs0 hB fl q hq)
          (docOfData d) (htoks hcss)
        rw [hts] at hs
        dsimp only at hs
        exact hgoal (renderDoc ts) (Option.some.inj (Except.ok.inj hs)).symm
      · rw [if_neg hcss] at hs
        dsimp only at hs
        exact hgoal (renderData d) (Option.some.inj (Except.ok.inj hs)).symm

theorem charsLe_total (a b : List Char) : charsLe a b = true ∨ charsLe b a = true := by
  induction a generalizing b with
  | nil => exact Or.inl rfl
  | cons x xs ih =>
    cases b with
    | nil => exact Or.inr rfl
    | cons y ys =>
      rcases Nat.lt_trichotomy x.toNat y.toNat with h1 | h1 | h1
      · left
        rw [charsLe, if_pos h1]
      · rw [charsLe, charsLe, if_neg (show ¬ x.toNat < y.toNat by omega),
          if_neg (show ¬ y.toNat < x.toNat by omega),
          if_neg (show ¬ y.toNat < x.toNat by omega),
          if_neg (show ¬ x.toNat < y.toNat by omega)]
        exact ih ys
      · right
        rw [charsLe, if_pos h1]

theorem charsLe_trans (a b c : List Char) (hab : charsLe a b = true)
    (hbc : charsLe b c = true) : charsLe a c = true := by
  induction a generalizing b c with
  | nil => rfl
  | cons x xs ih =>
    cases b with
    | nil => exact absurd hab (by rw [charsLe]; simp)
    | cons y ys =>
      cases c with
      | nil => exact absurd hbc (by rw [charsLe]; simp)
      | cons z zs =>
        rw [charsLe] at hab hbc ⊢
        rcases Nat.lt_trichotomy x.toNat y.toNat with h1 | h1 | h1
        · rcases Nat.lt_trichotomy y.toNat z.toNat with h2 | h2 | h2
          · rw [if_pos (show x.toNat < z.toNat by omega)]
          · rw [if_pos (show x.toNat < z.toNat by omega)]
          · rw [if_neg (show ¬ y.toNat < z.toNat by omega), if_pos h2] at hbc
            exact absurd hbc (by simp)
        · rw [if_neg (show ¬ x.toNat < y.toNat by omega),
            if_neg (show ¬ y.toNat < x.toNat by omega)] at hab
          rcases Nat.lt_trichotomy y.toNat z.toNat with h2 | h2 | h2
          · rw [if_pos (show x.toNat < z.toNat by omega)]
          · rw [if_neg (show ¬ y.toNat < z.toNat by omega),
              if_neg (show ¬ z.toNat < y.toNat by omega)] at hbc
            rw [if_neg (show ¬ x.toNat < z.toNat by omega),
              if_neg (show ¬ z.toNat < x.toNat by omega)]
            exact ih ys zs hab hbc
          · rw [if_neg (show ¬ y.toNat < z.toNat by omega), if_pos h2] at hbc
            exact absurd hbc (by simp)
        · rw [if_neg (show ¬ x.toNat < y.toNat by omega), if_pos h1] at hab
          exact absurd hab (by simp)

theorem strLe_total (a b : String) : strLe a b = true ∨ strLe b a = true :=
  charsLe_total a.data b.data

theorem strLe_trans (a b c : String) (hab : strLe a b = true) (hbc : strLe b c = true) :
    strLe a c = true :=
  charsLe_trans a.data b.data c.data hab hbc

theorem insertSorted_mem (e x : TrimmedEntry) (l : List TrimmedEntry) :
    x ∈ insertSorted e l ↔ x = e ∨ x ∈ l := by
  induction l with
  | nil => simp [insertSorted]
  | cons y ys ih =>
    rw [insertSorted]
    by_cases hy : strLe y.path e.path = true
    · rw [if_pos hy]
      simp only [List.mem_cons, ih]
      tauto
    · rw [if_neg hy]
      simp only [List.mem_cons]

theorem sortManifest_mem (l : List TrimmedEntry) (x : TrimmedEntry) :
    x ∈ sortManifest l ↔ x ∈ l := by
  have hgen : ∀ (l acc : List TrimmedEntry) (x : TrimmedEntry),
      x ∈ l.foldl (fun a e => insertSorted e a) acc ↔ x ∈ acc ∨ x ∈ l := by
    intro l
    induction l with
    | nil => intro acc x; simp
    | cons e r ih =>
      intro acc x
      rw [List.foldl_cons, ih (insertSorted e acc) x, insertSorted_mem]
      simp only [List.mem_cons]
      tauto
  rw [sortManifest, hgen]
  simp

theorem insertSorted_pairwise (e : TrimmedEntry) (l : List TrimmedEntry)
    (h : List.Pairwise (fun a b => strLe a.path b.path = true) l) :
    List.Pairwise (fun a b => strLe a.path b.path = true) (insertSorted e l) := by
  induction l with
  | nil => simp [insertSorted]
  | cons y ys ih =>
    rw [List.pairwise_cons] at h
    rw [insertSorted]
    by_cases hy : strLe y.path e.path = true
    · rw [if_pos hy, List.pairwise_cons]
      refine ⟨?_, ih h.2⟩
      intro b hb
      rcases (insertSorted_mem e b ys).mp hb with h1 | h1
      · rw [h1]
        exact hy
      · exact h.1 b h1
    · rw [if_neg hy, List.pairwise_cons]
      have hey : strLe e.path y.path = true := by
        rcases strLe_total y.path e.path with h1 | h1
        · exact absurd h1 hy
        · exact h1
      refine ⟨?_, List.pairwise_cons.mpr h⟩
      intro b hb
      rcases List.mem_cons.mp hb with h1 | h1
      · rw [h1]
        exact hey
      · exact strLe_trans e.path y.path b.path hey (h.1 b h1)

theorem sortManifest_pairwise (l : List TrimmedEntry) :
    List.Pairwise (fun a b => strLe a.path b.path = true) (sortManifest l) := by
  have hgen : ∀ (l acc : List TrimmedEntry),
      List.Pairwise (fun a b => strLe a.path b.path = true) acc →
      List.Pairwise (fun a b => strLe a.path b.path = true)
        (l.foldl (fun a e => insertSorted e a) acc) := by
    intro l
    induction l with
    | nil => intro acc h; exact h
    | cons e r ih =>
      intro acc h
      rw [List.foldl_cons]
      exact ih (insertSorted e acc) (insertSorted_pairwise e acc h)
  exact hgen l [] List.Pairwise.nil

theorem insertSorted_append (e : TrimmedEntry) (l : List TrimmedEntry)
    (h : ∀ x ∈ l, strLe x.path e.path = true) :
    insertSorted e l = l ++ [e] := by
  induction l with
  | nil => rfl
  | cons y ys ih =>
    rw [insertSorted, if_pos (h y (List.mem_cons_self y ys)), List.cons_append,
      ih (fun x hx => h x (List.mem_cons_of_mem y hx))]

theorem sortManifest_of_pairwise (l : List TrimmedEntry)
    (h : List.Pairwise (fun a b => strLe a.path b.path = true) l) :
    sortManifest l = l := by
  have hgen : ∀ (l acc : List TrimmedEntry),
      List.Pairwise (fun a b => strLe a.path b.path = true) l →
      (∀ x ∈ acc, ∀ y ∈ l, strLe x.path y.path = true) →
      l.foldl (fun a e => insertSorted e a) acc = acc ++ l := by
    intro l
    induction l with
    | nil => intro acc _ _; simp
    | cons e r ih =>
      intro acc hp hle
      rw [List.pairwise_cons] at hp
      rw [List.foldl_cons,
        insertSorted_append e acc (fun x hx => hle x hx e (List.mem_cons_self e r)),
        ih (acc ++ [e]) hp.2 ?later]
      · simp
      case later =>
        intro x hx y hy
        rcases List.mem_append.mp hx with h1 | h1
        · exact hle x h1 y (List.mem_cons_of_mem e hy)
        · simp at h1
          rw [h1]
          exact hp.1 y hy
  exact hgen l [] h (by intro x hx; simp at hx)

theorem sortManifest_idem (l : List TrimmedEntry) :
    sortManifest (sortManifest l) = sortManifest l :=
  sortManifest_of_pairwise (sortManifest l) (sortManifest_pairwise l)

theorem trim_seed_entryOfTrimmed (baseDir targetDir : String) (t : TrimmedEntry) :
    trimEntry (seedEntry (entryOfTrimmed baseDir targetDir t)) = t := by
  cases t
  rfl

theorem option_ne_none_pres (f g : String → Option ManifestEntry)
    (hext : ∀ r e, f r = some e → g r = some e) (r : String) (h : f r ≠ none) :
    g r ≠ none := by
  cases hx : f r with
  | none => exact absurd hx h
  | some e =>
    rw [hext r e hx]
    simp

theorem cssFold_sim1 (H : String → String) (opts : Opts) (baseDir targetDir : String)
    (fs0 : FS)
    (proc : String → St → Except (String × St) (Option ManifestEntry × St))
    (spec : String → Except String (Option ManifestEntry))
    (clean : String → Bool) (keys : String → List String)
    (hstep : Step1 H opts baseDir targetDir fs0 proc spec clean keys)
    (p : String) :
    ∀ (toks : List CssTok) (st : St),
      specCleanTokens clean p baseDir toks = true →
      Inv1 H opts baseDir targetDir fs0 st →
      ∃ ts st', cssFold proc p baseDir toks st = Except.ok (ts, st') ∧
        specFoldTokens spec p baseDir toks = Except.ok ts ∧
        Inv1 H opts baseDir targetDir fs0 st' ∧
        st'.errors = st.errors ∧
        (∀ r e, st.lookup r = some e → st'.lookup r = some e) ∧
        (∀ r ∈ specKeysTokens keys p baseDir toks, st'.lookup r ≠ none) ∧
        (∀ r, fsExists st.fs r = true → fsExists st'.fs r = true) := by
  intro toks
  induction toks with
  | nil =>
    intro st hct hinv
    refine ⟨[], st, rfl, rfl, hinv, rfl, fun r e h => h, ?_, fun r h => h⟩
    intro r hr
    rw [specKeysTokens] at hr
    exact absurd hr (List.not_mem_nil r)
  | cons t rest ih =>
    intro st hct hinv
    cases t with
    | lit s =>
      rw [specCleanTokens] at hct
      obtain ⟨ts, st', h1, h2, h3, h4, h5, h6, h7⟩ := ih st hct hinv
      refine ⟨CssTok.lit s :: ts, st', ?_, ?_, h3, h4, h5, ?_, h7⟩
      · rw [cssFold, h1]
        rfl
      · rw [specFoldTokens, h2]
      · intro r hr
        rw [specKeysTokens] at hr
        exact h6 r hr
    | url v =>
      rw [specCleanTokens, Bool.and_eq_true] at hct
      obtain ⟨ro, st₁, hp1, hp2, hp3, hp4, hp5, hp6, hp7⟩ :=
        hstep (resolvedRefPath p baseDir v) st hct.1 hinv
      obtain ⟨ts, st₂, h1, h2, h3, h4, h5, h6, h7⟩ := ih st₁ hct.2 hp3
      have hcov : ∀ r ∈ specKeysTokens keys p baseDir (CssTok.url v :: rest),
          st₂.lookup r ≠ none := by
        intro r hr
        rw [specKeysTokens] at hr
        rcases List.mem_append.mp hr with hm | hm
        · exact option_ne_none_pres st₁.lookup st₂.lookup h5 r (hp6 r hm)
        · exact h6 r hm
      cases ro with
      | none =>
        refine ⟨CssTok.url v :: ts, st₂, ?_, ?_, h3, h4.trans hp4,
          fun r e h => h5 r e (hp5 r e h), hcov, fun r h => h7 r (hp7 r h)⟩
        · rw [cssFold]
          simp only [processImagePath, hp1, exceptBindOk]
          simp only [h1, exceptBindOk]
        · rw [specFoldTokens, hp2, h2]
      | some e =>
        refine ⟨CssTok.url (specSubst p v e) :: ts, st₂, ?_, ?_, h3, h4.trans hp4,
          fun r e h => h5 r e (hp5 r e h), hcov, fun r h => h7 r (hp7 r h)⟩
        · rw [cssFold]
          simp only [processImagePath, hp1, exceptBindOk]
          rw [specSubst]
          by_cases hroot : strStarts v "/" = true
          · simp only [hroot, if_true, exceptBindOk, h1]
          · simp only [hroot, if_false, Bool.false_eq_true, exceptBindOk, h1]
        · rw [specFoldTokens, hp2, h2]

theorem specKeys_skip (opts : Opts) (baseDir : String) (fs0 : FS) (fuel : Nat) (p : String)
    (h : isHashedFile p = true ∨ opts.shouldBeExcluded p = true) :
    specKeys opts baseDir fs0 (fuel + 1) p = [] := by
  have hcond : (strStarts p baseDir && ! isHashedFile p && ! opts.shouldBeExcluded p)
      = false := by
    rcases h with h1 | h1
    · rw [h1]
      simp
    · rw [h1]
      simp
  rw [specKeys_succ, hcond]
  simp

theorem specKeys_entry (opts : Opts) (baseDir : String) (fs0 : FS) (fuel : Nat) (p : String)
    (d : FileData) (hpre : strStarts p baseDir = true) (hhash : isHashedFile p = false)
    (hexcl : opts.shouldBeExcluded p = false) (hread : fsRead fs0 p = some d) :
    specKeys opts baseDir fs0 (fuel + 1) p =
      (if opts.processCss = true ∧ extnameOf p = ".css" then
        specKeysTokens (specKeys opts baseDir fs0 fuel) p baseDir (docOfData d) ++ [p]
      else [p]) := by
  have hcond : (strStarts p baseDir && ! isHashedFile p && ! opts.shouldBeExcluded p)
      = true := by
    rw [hpre, hhash, hexcl]
    simp
  rw [specKeys_succ, hcond]
  simp only [if_true]
  simp only [hread]

theorem specProcess_entry (H : String → String) (opts : Opts) (baseDir targetDir : String)
    (fs0 : FS) (fuel : Nat) (p : String) (d : FileData)
    (hpre : strStarts p baseDir = true) (hhash : isHashedFile p = false)
    (hexcl : opts.shouldBeExcluded p = false) (hread : fsRead fs0 p = some d) :
    specProcess H opts baseDir targetDir fs0 (fuel + 1) p =
      (match (if opts.processCss = true ∧ extnameOf p = ".css" then
          match specFoldTokens (specProcess H opts baseDir targetDir fs0 fuel)
              p baseDir (docOfData d) with
          | Except.ok tdoc =>
            Except.ok (entryWithHash opts p baseDir targetDir (H (renderDoc tdoc)))
          | Except.error m => Except.error m
        else Except.ok (plainEntry H opts p baseDir targetDir d) :
          Except String ManifestEntry) with
      | Except.ok e => Except.ok (some e)
      | Except.error m =>
        if opts.continueOnError then Except.ok none else Except.error m) := by
  rw [specProcess_succ, if_pos hpre, if_neg (show ¬ isHashedFile p = true by rw [hhash]; simp),
    if_neg (show ¬ opts.shouldBeExcluded p = true by rw [hexcl]; simp), hread]

theorem lookupInsert_ne_none (lk : String → Option ManifestEntry) (k : String)
    (e : ManifestEntry) (r : String) (h : lk r ≠ none) :
    lookupInsert lk k e r ≠ none := by
  rw [lookupInsert]
  by_cases hr : r = k
  · rw [if_pos hr]
    simp
  · rw [if_neg hr]
    exact h

theorem run1_step (H : String → String) (opts : Opts) (baseDir targetDir : String)
    (fs0 : FS) (hB : NormalAbs baseDir) (hBne : splitPath baseDir ≠ [])
    (hT : NormalAbs targetDir) (hTne : splitPath targetDir ≠ [])
    (hH : SlashFree H) :
    ∀ fuel : Nat, Step1 H opts baseDir targetDir fs0
      (processEntry H opts baseDir targetDir fuel)
      (specProcess H opts baseDir targetDir fs0 fuel)
      (specClean opts baseDir fs0 fuel)
      (specKeys opts baseDir fs0 fuel) := by
  intro fuel
  induction fuel with
  | zero =>
    intro q st hc hinv
    rw [specClean_zero] at hc
    simp at hc
  | succ fuel ih =>
    intro p st hc hinv
    obtain ⟨hyg, hcases⟩ := specClean_succ_elim opts baseDir fs0 fuel p hc
    have hpre := hygienic_strStarts baseDir p hB hyg
    cases hq : st.lookup p with
    | some e =>
      obtain ⟨huv, hpp, hmem, fl, hcfl, hsfl, hcov⟩ := hinv.2.1 p e hq
      have hagree := spec_clean_agree H opts baseDir targetDir fs0 hB fl (fuel + 1) p hcfl hc
      refine ⟨some e, st, ?_, ?_, hinv, rfl, fun r x h => h, ?_, fun r h => h⟩
      · rw [processEntry_succ, hq]
        dsimp only
        rw [if_pos huv]
      · rw [hagree.1, hsfl]
      · intro r hr
        rw [hagree.2] at hr
        exact hcov r hr
    | none =>
      have hnocache : ∀ x, st.lookup p = some x → x.unverified = true := by
        intro x hx
        rw [hq] at hx
        exact absurd hx (by simp)
      rcases hcases with h1 | h1 | h1
      · refine ⟨none, st, ?_, ?_, hinv, rfl, fun r x h => h, ?_, fun r h => h⟩
        · exact processEntry_hashed_skip H opts baseDir targetDir fuel p st hnocache hpre h1
        · exact spec_skip_none H opts baseDir targetDir fs0 hB (fuel + 1) p hc (Or.inl h1)
        · intro r hr
          rw [specKeys_skip opts baseDir fs0 fuel p (Or.inl h1)] at hr
          exact absurd hr (List.not_mem_nil r)
      · refine ⟨none, st, ?_, ?_, hinv, rfl, fun r x h => h, ?_, fun r h => h⟩
        · exact processEntry_excluded H opts baseDir targetDir fuel p st hnocache hpre h1.2
        · exact spec_skip_none H opts baseDir targetDir fs0 hB (fuel + 1) p hc (Or.inr h1.2)
        · intro r hr
          rw [specKeys_skip opts baseDir fs0 fuel p (Or.inr h1.2)] at hr
          exact absurd hr (List.not_mem_nil r)
      · obtain ⟨hhash, hexcl, d, hread, htoks⟩ := h1
        have hreadst : fsRead st.fs p = some d := by
          rw [hinv.1 p hhash, hread]
        by_cases hcss : opts.processCss = true ∧ extnameOf p = ".css"
        · obtain ⟨ts, st₁, hcf, hsf, hinv1, herr1, hext1, hcov1, hfse1⟩ :=
            cssFold_sim1 H opts baseDir targetDir fs0
              (processEntry H opts baseDir targetDir fuel)
              (specProcess H opts baseDir targetDir fs0 fuel)
              (specClean opts baseDir fs0 fuel)
              (specKeys opts baseDir fs0 fuel) ih p (docOfData d) st (htoks hcss) hinv
          have hbuild := buildEntry_css H opts (processEntry H opts baseDir targetDir fuel)
            p baseDir targetDir st st₁ d ts hcss hreadst hcf
          have hewhtt := (entryWithHash_fields opts p baseDir targetDir
            (H (renderDoc ts))).2.2.2.2.2.2
          have heq := reset_transformedText
            (entryWithHash opts p baseDir targetDir (H (renderDoc ts))) ts hewhtt
          have hrun := processEntry_fresh_write H opts baseDir targetDir fuel p st st₁
            ({ entryWithHash opts p baseDir targetDir (H (renderDoc ts)) with
              transformedText := some ts }) ts hq hpre hhash hexcl hbuild rfl
          rw [heq] at hrun
          have hspec : specProcess H opts baseDir targetDir fs0 (fuel + 1) p =
              Except.ok (some (entryWithHash opts p baseDir targetDir (H (renderDoc ts)))) := by
            rw [specProcess_entry H opts baseDir targetDir fs0 fuel p d hpre hhash hexcl hread,
              if_pos hcss, hsf]
          have hkeys : specKeys opts baseDir fs0 (fuel + 1) p =
              specKeysTokens (specKeys opts baseDir fs0 fuel) p baseDir (docOfData d)
                ++ [p] := by
            rw [specKeys_entry opts baseDir fs0 fuel p d hpre hhash hexcl hread, if_pos hcss]
          obtain ⟨hf1, hf2, hf3, hf4, hf5, hf6, hf7⟩ :=
            entryWithHash_fields opts p baseDir targetDir (H (renderDoc ts))
          have hhpp : isHashedFile (entryWithHash opts p baseDir targetDir
              (H (renderDoc ts))).hashedPathPhysical = true :=
            (entryWithHash_recon opts baseDir targetDir p (H (renderDoc ts))
              hB hBne hT hTne hyg (hH _)).2.2
          refine ⟨some (entryWithHash opts p baseDir targetDir (H (renderDoc ts))), _,
            hrun, hspec, ⟨?_, ?_, ?_⟩, herr1, ?_, ?_⟩
          · intro r hrh
            show fsRead (fsWrite st₁.fs ({ entryWithHash opts p baseDir targetDir
              (H (renderDoc ts)) with transformedText := some ts }).hashedPathPhysical
              (FileData.text ts)) r = fsRead fs0 r
            rw [fsRead_fsWrite, if_neg ?rne]
            · exact hinv1.1 r hrh
            case rne =>
              intro hre
              rw [hre] at hrh
              exact absurd hhpp (by rw [hrh]; simp)
          · intro k x hk
            replace hk : lookupInsert st₁.lookup p
              (entryWithHash opts p baseDir targetDir (H (renderDoc ts))) k = some x := hk
            rw [lookupInsert] at hk
            by_cases hkp : k = p
            · rw [if_pos hkp] at hk
              have hx : x = entryWithHash opts p baseDir targetDir (H (renderDoc ts)) :=
                (Option.some.inj hk).symm
              subst hx
              rw [hkp]
              refine ⟨hf6, hf2, ?_, fuel + 1, hc, hspec, ?_⟩
              · show _ ∈ st₁.manifest ++ [_]
                exact List.mem_append_right _ (List.mem_singleton.mpr rfl)
              · intro r hr
                rw [hkeys] at hr
                rcases List.mem_append.mp hr with hm | hm
                · exact lookupInsert_ne_none st₁.lookup p _ r (hcov1 r hm)
                · rw [List.mem_singleton.mp hm]
                  show lookupInsert st₁.lookup p _ p ≠ none
                  rw [lookupInsert, if_pos rfl]
                  simp
            · rw [if_neg hkp] at hk
              obtain ⟨huv2, hpp2, hmem2, fl2, hc2, hs2, hcov2⟩ := hinv1.2.1 k x hk
              refine ⟨huv2, hpp2, ?_, fl2, hc2, hs2, ?_⟩
              · show x ∈ st₁.manifest ++ [_]
                exact List.mem_append_left _ hmem2
              · intro r hr
                exact lookupInsert_ne_none st₁.lookup p _ r (hcov2 r hr)
          · intro x hx
            replace hx : x ∈ st₁.manifest ++
              [entryWithHash opts p baseDir targetDir (H (renderDoc ts))] := hx
            show lookupInsert st₁.lookup p
              (entryWithHash opts p baseDir targetDir (H (renderDoc ts)))
              x.pathPhysical = some x
            rcases List.mem_append.mp hx with hm | hm
            · have h3x := hinv1.2.2 x hm
              by_cases hxp : x.pathPhysical = p
              · rw [hxp] at h3x
                obtain ⟨_, _, _, flx, hcx, hsx, _⟩ := hinv1.2.1 p x h3x
                have hag := spec_clean_agree H opts baseDir targetDir fs0 hB flx (fuel + 1)
                  p hcx hc
                have h1 : specProcess H opts baseDir targetDir fs0 (fuel + 1) p =
                    Except.ok (some x) := by
                  rw [hag.1, hsx]
                have hxe : x = entryWithHash opts p baseDir targetDir (H (renderDoc ts)) :=
                  Option.some.inj (Except.ok.inj (h1.symm.trans hspec))
                rw [lookupInsert, if_pos hxp, hxe]
              · rw [lookupInsert, if_neg hxp]
                exact h3x
            · have hxw : x = entryWithHash opts p baseDir targetDir (H (renderDoc ts)) :=
                List.mem_singleton.mp hm
              rw [hxw, hf2, lookupInsert, if_pos rfl]
          · intro r x h
            show lookupInsert st₁.lookup p _ r = some x
            rw [lookupInsert]
            by_cases hrp : r = p
            · rw [hrp] at h
              rw [hq] at h
              exact absurd h (by simp)
            · rw [if_neg hrp]
              exact hext1 r x h
          · constructor
            · intro r hr
              rw [hkeys] at hr
              rcases List.mem_append.mp hr with hm | hm
              · exact lookupInsert_ne_none st₁.lookup p _ r (hcov1 r hm)
              · rw [List.mem_singleton.mp hm]
                show lookupInsert st₁.lookup p _ p ≠ none
                rw [lookupInsert, if_pos rfl]
                simp
            · intro r hr
              show fsExists (fsWrite st₁.fs _ _) r = true
              exact fsExists_fsWrite st₁.fs _ _ r (hfse1 r hr)
        · have hrun := processEntry_plain_good H opts baseDir targetDir fuel p st d
            hq hpre hhash hexcl hcss hreadst
          have hspec : specProcess H opts baseDir targetDir fs0 (fuel + 1) p =
              Except.ok (some (plainEntry H opts p baseDir targetDir d)) := by
            rw [specProcess_entry H opts baseDir targetDir fs0 fuel p d hpre hhash hexcl hread,
              if_neg hcss]
          have hkeys : specKeys opts baseDir fs0 (fuel + 1) p = [p] := by
            rw [specKeys_entry opts baseDir fs0 fuel p d hpre hhash hexcl hread, if_neg hcss]
          have hhpp : isHashedFile (plainEntry H opts p baseDir targetDir
              d).hashedPathPhysical = true :=
            plainEntry_hashed_isHashed H opts p baseDir targetDir d hH
          refine ⟨some (plainEntry H opts p baseDir targetDir d), _, hrun, hspec,
            ⟨?_, ?_, ?_⟩, rfl, ?_, ?_⟩
          · intro r hrh
            show fsRead (fsWrite st.fs (plainEntry H opts p baseDir targetDir
              d).hashedPathPhysical d) r = fsRead fs0 r
            rw [fsRead_fsWrite, if_neg ?rne2]
            · exact hinv.1 r hrh
            case rne2 =>
              intro hre
              rw [hre] at hrh
              exact absurd hhpp (by rw [hrh]; simp)
          · intro k x hk
            replace hk : lookupInsert st.lookup p (plainEntry H opts p baseDir targetDir d) k
              = some x := hk
            rw [lookupInsert] at hk
            by_cases hkp : k = p
            · rw [if_pos hkp] at hk
              have hx : x = plainEntry H opts p baseDir targetDir d :=
                (Option.some.inj hk).symm
              subst hx
              rw [hkp]
              refine ⟨plainEntry_unverified H opts p baseDir targetDir d,
                plainEntry_pathPhysical H opts p baseDir targetDir d, ?_,
                fuel + 1, hc, hspec, ?_⟩
              · show _ ∈ st.manifest ++ [_]
                exact List.mem_append_right _ (List.mem_singleton.mpr rfl)
              · intro r hr
                rw [hkeys] at hr
                rw [List.mem_singleton.mp hr]
                show lookupInsert st.lookup p _ p ≠ none
                rw [lookupInsert, if_pos rfl]
                simp
            · rw [if_neg hkp] at hk
              obtain ⟨huv2, hpp2, hmem2, fl2, hc2, hs2, hcov2⟩ := hinv.2.1 k x hk
              refine ⟨huv2, hpp2, ?_, fl2, hc2, hs2, ?_⟩
              · show x ∈ st.manifest ++ [_]
                exact List.mem_append_left _ hmem2
              · intro r hr
                exact lookupInsert_ne_none st.lookup p _ r (hcov2 r hr)
          · intro x hx
            replace hx : x ∈ st.manifest ++ [plainEntry H opts p baseDir targetDir d] := hx
            show lookupInsert st.lookup p (plainEntry H opts p baseDir targetDir d)
              x.pathPhysical = some x
            rcases List.mem_append.mp hx with hm | hm
            · have h3x := hinv.2.2 x hm
              have hxp : x.pathPhysical ≠ p := by
                intro hcontra
                rw [hcontra, hq] at h3x
                exact absurd h3x (by simp)
              rw [lookupInsert, if_neg hxp]
              exact h3x
            · have hxw : x = plainEntry H opts p baseDir targetDir d :=
                List.mem_singleton.mp hm
              rw [hxw, plainEntry_pathPhysical, lookupInsert, if_pos rfl]
          · intro r x h
            show lookupInsert st.lookup p _ r = some x
            rw [lookupInsert]
            by_cases hrp : r = p
            · rw [hrp] at h
              rw [hq] at h
              exact absurd h (by simp)
            · rw [if_neg hrp]
              exact h
          · constructor
            · intro r hr
              rw [hkeys] at hr
              rw [List.mem_singleton.mp hr]
              show lookupInsert st.lookup p _ p ≠ none
              rw [lookupInsert, if_pos rfl]
              simp
            · intro r hr
              show fsExists (fsWrite st.fs _ _) r = true
              exact fsExists_fsWrite st.fs _ _ r hr

theorem processList_run1 (H : String → String) (opts : Opts) (baseDir targetDir : String)
    (fs0 : FS) (hB : NormalAbs baseDir) (hBne : splitPath baseDir ≠ [])
    (hT : NormalAbs targetDir) (hTne : splitPath targetDir ≠ [])
    (hH : SlashFree H) (fuel : Nat) :
    ∀ (files : List String) (st : St),
      (∀ f ∈ files, specClean opts baseDir fs0 fuel f = true) →
      Inv1 H opts baseDir targetDir fs0 st →
      ∃ st', processList H opts baseDir targetDir fuel files st = Except.ok st' ∧
        Inv1 H opts baseDir targetDir fs0 st' ∧
        st'.errors = st.errors ∧
        (∀ r e, st.lookup r = some e → st'.lookup r = some e) ∧
        (∀ f ∈ files, ∀ r ∈ specKeys opts baseDir fs0 fuel f, st'.lookup r ≠ none) ∧
        (∀ r, fsExists st.fs r = true → fsExists st'.fs r = true) := by
  intro files
  induction files with
  | nil =>
    intro st _ hinv
    refine ⟨st, rfl, hinv, rfl, fun r e h => h, ?_, fun r h => h⟩
    intro f hf
    exact absurd hf (List.not_mem_nil f)
  | cons f rest ih =>
    intro st hcl hinv
    obtain ⟨ro, st₁, hp1, _, hp3, hp4, hp5, hp6, hp7⟩ :=
      run1_step H opts baseDir targetDir fs0 hB hBne hT hTne hH fuel f st
        (hcl f (List.mem_cons_self f rest)) hinv
    obtain ⟨st', h1, h2, h3, h4, h5, h6⟩ :=
      ih st₁ (fun g hg => hcl g (List.mem_cons_of_mem f hg)) hp3
    refine ⟨st', ?_, h2, h3.trans hp4, fun r e h => h4 r e (hp5 r e h), ?_,
      fun r h => h6 r (hp7 r h)⟩
    · rw [processList, hp1]
      exact h1
    · intro g hg r hr
      rcases List.mem_cons.mp hg with hgf | hgf
      · rw [hgf] at hr
        exact option_ne_none_pres st₁.lookup st'.lookup h4 r (hp6 r hr)
      · exact h5 g hgf r hr

theorem fieldMatch_clear (e se : ManifestEntry) (h : FieldMatch e se) :
    FieldMatch (clearUnverified e) se := by
  obtain ⟨a, b, c, d⟩ := h
  exact ⟨by rw [(clearUnverified_fields e).1]; exact a,
    by rw [(clearUnverified_fields e).2.1]; exact b,
    by rw [(clearUnverified_fields e).2.2.1]; exact c,
    by rw [(clearUnverified_fields e).2.2.2.1]; exact d⟩

theorem processEntry_confirm (H : String → String) (opts : Opts)
    (baseDir targetDir : String) (fuel : Nat) (p : String) (st st₁ : St)
    (e entry : ManifestEntry)
    (hq : st.lookup p = some e) (huv : e.unverified = true)
    (hpre : strStarts p baseDir = true) (hhash : isHashedFile p = false)
    (hexcl : opts.shouldBeExcluded p = false)
    (hbuild : buildEntry H opts (processEntry H opts baseDir targetDir fuel)
      p baseDir targetDir st = Except.ok (entry, st₁))
    (hhp : entry.hashedPath = e.hashedPath) :
    processEntry H opts baseDir targetDir (fuel + 1) p st =
      Except.ok (some (clearUnverified e), confirmSt st₁ e) := by
  rw [processEntry_succ, hq]
  dsimp only
  rw [if_neg (show ¬ e.unverified = false by rw [huv]; simp)]
  simp [processEntryCore, hpre, hhash, hexcl, hbuild, huv, hhp]

theorem cssFold_sim2 (H : String → String) (opts : Opts) (baseDir targetDir : String)
    (fs0 : FS)
    (proc : String → St → Except (String × St) (Option ManifestEntry × St))
    (spec : String → Except String (Option ManifestEntry))
    (clean : String → Bool) (keys : String → List String)
    (hstep : Step2 H opts baseDir targetDir fs0 proc spec clean keys)
    (p : String) :
    ∀ (toks : List CssTok) (st : St),
      specCleanTokens clean p baseDir toks = true →
      Inv2 H opts baseDir targetDir fs0 st →
      (∀ r ∈ specKeysTokens keys p baseDir toks, (st.lookup r).isSome = true) →
      ∃ ts st', cssFold proc p baseDir toks st = Except.ok (ts, st') ∧
        specFoldTokens spec p baseDir toks = Except.ok ts ∧
        Inv2 H opts baseDir targetDir fs0 st' ∧ FlipLe st st' := by
  intro toks
  induction toks with
  | nil =>
    intro st hct hinv _
    exact ⟨[], st, rfl, rfl, hinv, FlipLe_refl st⟩
  | cons t rest ih =>
    intro st hct hinv hkeys
    cases t with
    | lit s =>
      rw [specCleanTokens] at hct
      obtain ⟨ts, st', h1, h2, h3, h4⟩ := ih st hct hinv
        (fun r hr => hkeys r (by rw [specKeysTokens]; exact hr))
      refine ⟨CssTok.lit s :: ts, st', ?_, ?_, h3, h4⟩
      · rw [cssFold, h1]
        rfl
      · rw [specFoldTokens, h2]
    | url v =>
      rw [specCleanTokens, Bool.and_eq_true] at hct
      have hkq : ∀ r ∈ keys (resolvedRefPath p baseDir v), (st.lookup r).isSome = true := by
        intro r hr
        apply hkeys r
        rw [specKeysTokens]
        exact List.mem_append_left _ hr
      obtain ⟨ro, so, st₁, hp1, hp2, hm, hp3, hp4⟩ :=
        hstep (resolvedRefPath p baseDir v) st hct.1 hinv hkq
      have hkrest : ∀ r ∈ specKeysTokens keys p baseDir rest,
          (st₁.lookup r).isSome = true := by
        intro r hr
        rw [hp4.2.2.2.2.2 r]
        apply hkeys r
        rw [specKeysTokens]
        exact List.mem_append_right _ hr
      obtain ⟨ts, st₂, h1, h2, h3, h4⟩ := ih st₁ hct.2 hp3 hkrest
      cases ro with
      | none =>
        cases so with
        | none =>
          refine ⟨CssTok.url v :: ts, st₂, ?_, ?_, h3, FlipLe_trans st st₁ st₂ hp4 h4⟩
          · rw [cssFold]
            simp only [processImagePath, hp1, exceptBindOk]
            simp only [h1, exceptBindOk]
          · rw [specFoldTokens, hp2, h2]
        | some se => exact hm.elim
      | some e =>
        cases so with
        | none => exact hm.elim
        | some se =>
          refine ⟨CssTok.url (specSubst p v se) :: ts, st₂, ?_, ?_, h3,
            FlipLe_trans st st₁ st₂ hp4 h4⟩
          · rw [cssFold]
            simp only [processImagePath, hp1, exceptBindOk]
            rw [← specSubst_congr p v e se hm, specSubst]
            by_cases hroot : strStarts v "/" = true
            · simp only [hroot, if_true, exceptBindOk, h1]
            · simp only [hroot, if_false, Bool.false_eq_true, exceptBindOk, h1]
          · rw [specFoldTokens, hp2, h2]

theorem run2_step (H : String → String) (opts : Opts) (baseDir targetDir : String)
    (fs0 : FS) (hB : NormalAbs baseDir) (hBne : splitPath baseDir ≠ [])
    (hT : NormalAbs targetDir) (hTne : splitPath targetDir ≠ [])
    (hH : SlashFree H) :
    ∀ fuel : Nat, Step2 H opts baseDir targetDir fs0
      (processEntry H opts baseDir targetDir fuel)
      (specProcess H opts baseDir targetDir fs0 fuel)
      (specClean opts baseDir fs0 fuel)
      (specKeys opts baseDir fs0 fuel) := by
  intro fuel
  induction fuel with
  | zero =>
    intro q st hc _ _
    rw [specClean_zero] at hc
    simp at hc
  | succ fuel ih =>
    intro p st hc hinv hkeys
    obtain ⟨hyg, hcases⟩ := specClean_succ_elim opts baseDir fs0 fuel p hc
    have hpre := hygienic_strStarts baseDir p hB hyg
    cases hq : st.lookup p with
    | some e =>
      obtain ⟨htt, hpp, fl, se', hcfl, hsfl, hfm, hcov⟩ := hinv.2 p e hq
      have hagree := spec_clean_agree H opts baseDir targetDir fs0 hB fl (fuel + 1) p hcfl hc
      have hspecP : specProcess H opts baseDir targetDir fs0 (fuel + 1) p =
          Except.ok (some se') := by
        rw [hagree.1, hsfl]
      by_cases huv : e.unverified = false
      · refine ⟨some e, some se', st, ?_, hspecP, hfm, hinv, FlipLe_refl st⟩
        rw [processEntry_succ, hq]
        dsimp only
        rw [if_pos huv]
      · have huvT : e.unverified = true := by
          revert huv
          cases e.unverified
          · intro hcontra
            exact absurd rfl hcontra
          · intro _
            rfl
        obtain ⟨hshash, hsexcl, _, _, _, _, _, _, _⟩ :=
          spec_entry_recon H opts baseDir targetDir fs0 hB hBne hT hTne hH fl p se'
            hcfl hsfl
        rcases hcases with h1 | h1 | h1
        · exact absurd h1 (by rw [hshash]; simp)
        · exact absurd h1.2 (by rw [hsexcl]; simp)
        · obtain ⟨hhash, hexcl, d, hread, htoks⟩ := h1
          have hreadst : fsRead st.fs p = some d := by
            rw [hinv.1 p hhash, hread]
          by_cases hcss : opts.processCss = true ∧ extnameOf p = ".css"
          · have hkeysEq : specKeys opts baseDir fs0 (fuel + 1) p =
                specKeysTokens (specKeys opts baseDir fs0 fuel) p baseDir (docOfData d)
                  ++ [p] := by
              rw [specKeys_entry opts baseDir fs0 fuel p d hpre hhash hexcl hread,
                if_pos hcss]
            have hktoks : ∀ r ∈ specKeysTokens (specKeys opts baseDir fs0 fuel)
                p baseDir (docOfData d), (st.lookup r).isSome = true := by
              intro r hr
              apply hkeys r
              rw [hkeysEq]
              exact List.mem_append_left _ hr
            obtain ⟨ts, st₁, hcf, hsf, hinv1, hflip1⟩ :=
              cssFold_sim2 H opts baseDir targetDir fs0
                (processEntry H opts baseDir targetDir fuel)
                (specProcess H opts baseDir targetDir fs0 fuel)
                (specClean opts baseDir fs0 fuel)
                (specKeys opts baseDir fs0 fuel) ih p (docOfData d) st
                (htoks hcss) hinv hktoks
            have hbuild := buildEntry_css H opts (processEntry H opts baseDir targetDir fuel)
              p baseDir targetDir st st₁ d ts hcss hreadst hcf
            have hspec2 : specProcess H opts baseDir targetDir fs0 (fuel + 1) p =
                Except.ok (some (entryWithHash opts p baseDir targetDir
                  (H (renderDoc ts)))) := by
              rw [specProcess_entry H opts baseDir targetDir fs0 fuel p d hpre hhash
                hexcl hread, if_pos hcss, hsf]
            have hse : se' = entryWithHash opts p baseDir targetDir (H (renderDoc ts)) :=
              Option.some.inj (Except.ok.inj (hspecP.symm.trans hspec2))
            have hhp : ({ entryWithHash opts p baseDir targetDir (H (renderDoc ts)) with
                transformedText := some ts } : ManifestEntry).hashedPath
                = e.hashedPath := by
              show (entryWithHash opts p baseDir targetDir (H (renderDoc ts))).hashedPath
                = e.hashedPath
              rw [← hse]
              exact hfm.2.2.1.symm
            have hrun := processEntry_confirm H opts baseDir targetDir fuel p st st₁ e
              ({ entryWithHash opts p baseDir targetDir (H (renderDoc ts)) with
                transformedText := some ts }) hq huvT hpre hhash hexcl hbuild hhp
            refine ⟨some (clearUnverified e), some se', confirmSt st₁ e, hrun, hspecP,
              fieldMatch_clear e se' hfm,
              confirmSt_inv2 H opts baseDir targetDir fs0 st₁ e hinv1,
              FlipLe_trans st st₁ (confirmSt st₁ e) hflip1 (confirmSt_flip st₁ e)⟩
          · have hbuild := buildEntry_plain H opts
              (processEntry H opts baseDir targetDir fuel)
              p baseDir targetDir st d hcss hreadst
            have hspec2 : specProcess H opts baseDir targetDir fs0 (fuel + 1) p =
                Except.ok (some (plainEntry H opts p baseDir targetDir d)) := by
              rw [specProcess_entry H opts baseDir targetDir fs0 fuel p d hpre hhash
                hexcl hread, if_neg hcss]
            have hse : se' = plainEntry H opts p baseDir targetDir d :=
              Option.some.inj (Except.ok.inj (hspecP.symm.trans hspec2))
            have hhp : (plainEntry H opts p baseDir targetDir d).hashedPath
                = e.hashedPath := by
              rw [← hse]
              exact hfm.2.2.1.symm
            have hrun := processEntry_confirm H opts baseDir targetDir fuel p st st e
              (plainEntry H opts p baseDir targetDir d) hq huvT hpre hhash hexcl
              hbuild hhp
            refine ⟨some (clearUnverified e), some se', confirmSt st e, hrun, hspecP,
              fieldMatch_clear e se' hfm,
              confirmSt_inv2 H opts baseDir targetDir fs0 st e hinv,
              confirmSt_flip st e⟩
    | none =>
      have hnocache : ∀ x, st.lookup p = some x → x.unverified = true := by
        intro x hx
        rw [hq] at hx
        exact absurd hx (by simp)
      rcases hcases with h1 | h1 | h1
      · refine ⟨none, none, st, ?_, ?_, trivial, hinv, FlipLe_refl st⟩
        · exact processEntry_hashed_skip H opts baseDir targetDir fuel p st hnocache hpre h1
        · exact spec_skip_none H opts baseDir targetDir fs0 hB (fuel + 1) p hc (Or.inl h1)
      · refine ⟨none, none, st, ?_, ?_, trivial, hinv, FlipLe_refl st⟩
        · exact processEntry_excluded H opts baseDir targetDir fuel p st hnocache hpre h1.2
        · exact spec_skip_none H opts baseDir targetDir fs0 hB (fuel + 1) p hc
            (Or.inr h1.2)
      · obtain ⟨hhash, hexcl, d, hread, _⟩ := h1
        exfalso
        have hmem : p ∈ specKeys opts baseDir fs0 (fuel + 1) p := by
          rw [specKeys_entry opts baseDir fs0 fuel p d hpre hhash hexcl hread]
          by_cases hcss : opts.processCss = true ∧ extnameOf p = ".css"
          · rw [if_pos hcss]
            exact List.mem_append_right _ (List.mem_singleton.mpr rfl)
          · rw [if_neg hcss]
            exact List.mem_singleton.mpr rfl
        have := hkeys p hmem
        rw [hq] at this
        exact absurd this (by simp)

theorem processList_run2 (H : String → String) (opts : Opts) (baseDir targetDir : String)
    (fs0 : FS) (hB : NormalAbs baseDir) (hBne : splitPath baseDir ≠ [])
    (hT : NormalAbs targetDir) (hTne : splitPath targetDir ≠ [])
    (hH : SlashFree H) (fuel : Nat) :
    ∀ (files : List String) (st : St),
      (∀ f ∈ files, specClean opts baseDir fs0 fuel f = true) →
      Inv2 H opts baseDir targetDir fs0 st →
      (∀ f ∈ files, ∀ r ∈ specKeys opts baseDir fs0 fuel f,
        (st.lookup r).isSome = true) →
      ∃ st', processList H opts baseDir targetDir fuel files st = Except.ok st' ∧
        Inv2 H opts baseDir targetDir fs0 st' ∧ FlipLe st st' := by
  intro files
  induction files with
  | nil =>
    intro st _ hinv _
    exact ⟨st, rfl, hinv, FlipLe_refl st⟩
  | cons f rest ih =>
    intro st hcl hinv hcov
    obtain ⟨ro, so, st₁, hp1, _, _, hinv1, hflip1⟩ :=
      run2_step H opts baseDir targetDir fs0 hB hBne hT hTne hH fuel f st
        (hcl f (List.mem_cons_self f rest)) hinv (hcov f (List.mem_cons_self f rest))
    obtain ⟨st', h1, h2, h3⟩ := ih st₁
      (fun g hg => hcl g (List.mem_cons_of_mem f hg)) hinv1
      (fun g hg r hr => by
        rw [hflip1.2.2.2.2.2 r]
        exact hcov g (List.mem_cons_of_mem f hg) r hr)
    refine ⟨st', ?_, h2, FlipLe_trans st st₁ st' hflip1 h3⟩
    rw [processList, hp1]
    exact h1

theorem seed_domain (H : String → String) (opts : Opts) (baseDir targetDir : String)
    (fs0 : FS) (hB : NormalAbs baseDir) (hBne : splitPath baseDir ≠ [])
    (hT : NormalAbs targetDir) (hTne : splitPath targetDir ≠ [])
    (hH : SlashFree H) (stm : St)
    (hinv : Inv1 H opts baseDir targetDir fs0 stm)
    (lk0 : String → Option ManifestEntry) (r : String)
    (h : stm.lookup r ≠ none) :
    (((((sortManifest (stm.manifest.map trimEntry)).map
        (entryOfTrimmed baseDir targetDir)).map seedEntry).foldl
      (fun lk e => lookupInsert lk e.pathPhysical e) lk0) r).isSome = true := by
  cases hz : stm.lookup r with
  | none => exact absurd hz h
  | some z =>
    obtain ⟨_, hppz, hmemz, flz, hcz, hsz, _⟩ := hinv.2.1 r z hz
    obtain ⟨_, _, _, _, _, _, hbpz, _, _⟩ :=
      spec_entry_recon H opts baseDir targetDir fs0 hB hBne hT hTne hH flz r z hcz hsz
    have hymem : seedEntry (entryOfTrimmed baseDir targetDir (trimEntry z)) ∈
        ((sortManifest (stm.manifest.map trimEntry)).map
          (entryOfTrimmed baseDir targetDir)).map seedEntry := by
      apply List.mem_map_of_mem
      apply List.mem_map_of_mem
      exact (sortManifest_mem _ _).mpr (List.mem_map_of_mem trimEntry hmemz)
    have hfold := lookupFold_isSome _ lk0 _ hymem
    have hyp : (seedEntry (entryOfTrimmed baseDir targetDir (trimEntry z))).pathPhysical
        = r := by
      show baseDir ++ z.path = r
      exact hbpz
    rw [hyp] at hfold
    exact hfold

theorem inv2_seed (H : String → String) (opts : Opts) (baseDir targetDir : String)
    (fs0 : FS) (hB : NormalAbs baseDir) (hBne : splitPath baseDir ≠ [])
    (hT : NormalAbs targetDir) (hTne : splitPath targetDir ≠ [])
    (hH : SlashFree H) (stm : St) (mp : String) (D : FileData)
    (ops0 : List FileOp) (errs0 : List String)
    (hinv : Inv1 H opts baseDir targetDir fs0 stm)
    (hman0 : fsRead fs0 mp = none)
    (seeded : List ManifestEntry) (st0 : St)
    (hseeded : seeded = ((sortManifest (stm.manifest.map trimEntry)).map
      (entryOfTrimmed baseDir targetDir)).map seedEntry)
    (hst0 : st0 = St.mk seeded errs0
      (seeded.foldl (fun lk e => lookupInsert lk e.pathPhysical e) (fun _ => none))
      (fsDelete (fsWrite stm.fs mp D) mp) ops0) :
    Inv2 H opts baseDir targetDir fs0 st0 ∧
    (∀ r, stm.lookup r ≠ none → (st0.lookup r).isSome = true) := by
  subst hst0
  constructor
  · constructor
    · intro q hqh
      show fsRead (fsDelete (fsWrite stm.fs mp D) mp) q = fsRead fs0 q
      rw [fsRead_fsDelete]
      by_cases hqm : q = mp
      · rw [if_pos hqm, hqm, hman0]
      · rw [if_neg hqm, fsRead_fsWrite, if_neg hqm]
        exact hinv.1 q hqh
    · intro k y hy
      replace hy : (seeded.foldl (fun lk e => lookupInsert lk e.pathPhysical e)
        (fun _ => none)) k = some y := hy
      rcases lookupFold_some seeded _ k y hy with ⟨hymem, hypp⟩ | habs
      · rw [hseeded] at hymem
        obtain ⟨y1, hy1mem, hy1⟩ := List.mem_map.mp hymem
        obtain ⟨t, htmem, ht⟩ := List.mem_map.mp hy1mem
        have htm : t ∈ stm.manifest.map trimEntry := (sortManifest_mem _ t).mp htmem
        obtain ⟨x, hxmem, hx⟩ := List.mem_map.mp htm
        have h3 := hinv.2.2 x hxmem
        obtain ⟨huvx, hppx, _, flx, hcx, hsx, hcovx⟩ := hinv.2.1 x.pathPhysical x h3
        obtain ⟨_, _, _, _, _, httx, hbpx, htpx, _⟩ :=
          spec_entry_recon H opts baseDir targetDir fs0 hB hBne hT hTne hH flx
            x.pathPhysical x hcx hsx
        have hyfields : y.path = x.path ∧ y.pathPhysical = baseDir ++ x.path ∧
            y.hashedPath = x.hashedPath ∧
            y.hashedPathPhysical = targetDir ++ x.hashedPath ∧
            y.transformedText = none := by
          rw [← hy1, ← ht, ← hx]
          exact ⟨rfl, rfl, rfl, rfl, rfl⟩
        have hkx : k = x.pathPhysical := by
          rw [← hypp, hyfields.2.1, hbpx]
        refine ⟨hyfields.2.2.2.2, hypp, flx, x, by rw [hkx]; exact hcx,
          by rw [hkx]; exact hsx, ?_, ?_⟩
        · exact ⟨hyfields.1, by rw [hyfields.2.1, hbpx, hppx], hyfields.2.2.1,
            by rw [hyfields.2.2.2.1, htpx]⟩
        · intro q hqk
          rw [hkx] at hqk
          have hqdom := hcovx q hqk
          show ((seeded.foldl (fun lk e => lookupInsert lk e.pathPhysical e)
            (fun _ => none)) q).isSome = true
          rw [hseeded]
          exact seed_domain H opts baseDir targetDir fs0 hB hBne hT hTne hH stm hinv
            (fun _ => none) q hqdom
      · exact absurd habs (by simp)
  · intro r hr
    show ((seeded.foldl (fun lk e => lookupInsert lk e.pathPhysical e)
      (fun _ => none)) r).isSome = true
    rw [hseeded]
    exact seed_domain H opts baseDir targetDir fs0 hB hBne hT hTne hH stm hinv
      (fun _ => none) r hr

theorem processFiles_amend_fresh (H : String → String) (opts : Opts) (fuel : Nat)
    (files : List String) (baseDir targetDir : String) (fs0 : FS) (stm : St)
    (hamend : opts.amend = true)
    (hdir : fsExists fs0 baseDir = true)
    (hman0 : fsRead fs0 (getManifestPath opts targetDir) = none)
    (hpl : processList H opts baseDir targetDir fuel
      (files.filter (fun f => f ≠ getManifestPath opts targetDir))
      (St.mk [] [] (fun _ => none) fs0
        [FileOp.del (getManifestPath opts targetDir)]) = Except.ok stm)
    (herr : stm.errors = []) :
    processFiles H opts fuel files baseDir targetDir fs0 =
      Except.ok (0, writeFileOp stm (getManifestPath opts targetDir)
        (FileData.manifest (sortManifest (stm.manifest.map trimEntry)))) := by
  rw [processFiles, if_pos hdir]
  dsimp only
  rw [if_pos hamend, hman0]
  dsimp only
  rw [fsDelete_absent fs0 _ hman0, createManifest]
  rw [hpl]
  dsimp only
  rw [herr]
  simp

theorem processFiles_amend_seeded (H : String → String) (opts : Opts) (fuel : Nat)
    (files : List String) (baseDir targetDir : String) (fsX : FS)
    (tes : List TrimmedEntry) (st₂m : St)
    (hamend : opts.amend = true)
    (hdir : fsExists fsX baseDir = true)
    (hmanR : fsRead fsX (getManifestPath opts targetDir) =
      some (FileData.manifest tes))
    (hpl : processList H opts baseDir targetDir fuel
      (files.filter (fun f => f ≠ getManifestPath opts targetDir))
      (St.mk ((tes.map (entryOfTrimmed baseDir targetDir)).map seedEntry) []
        (((tes.map (entryOfTrimmed baseDir targetDir)).map seedEntry).foldl
          (fun lk e => lookupInsert lk e.pathPhysical e) (fun _ => none))
        (fsDelete fsX (getManifestPath opts targetDir))
        [FileOp.del (getManifestPath opts targetDir)]) = Except.ok st₂m)
    (herr : st₂m.errors = []) :
    processFiles H opts fuel files baseDir targetDir fsX =
      Except.ok (0, writeFileOp st₂m (getManifestPath opts targetDir)
        (FileData.manifest (sortManifest (st₂m.manifest.map trimEntry)))) := by
  rw [processFiles, if_pos hdir]
  dsimp only
  rw [if_pos hamend, hmanR]
  dsimp only
  rw [createManifest]
  dsimp only
  rw [hpl]
  dsimp only
  rw [herr]
  simp

theorem map_trim_seed (baseDir targetDir : String) (l : List TrimmedEntry) :
    ((l.map (entryOfTrimmed baseDir targetDir)).map seedEntry).map trimEntry = l := by
  induction l with
  | nil => rfl
  | cons t r ih =>
    simp only [List.map_cons, ih, trim_seed_entryOfTrimmed]

theorem cssFold_lits (proc : String → St → Except (String × St) (Option ManifestEntry × St))
    (p baseDir : String) (toks : List CssTok) (st : St)
    (hlits : ∀ t ∈ toks, ∃ s, t = CssTok.lit s) :
    cssFold proc p baseDir toks st = Except.ok (toks, st) := by
  induction toks with
  | nil => rfl
  | cons t rest ih =>
    obtain ⟨s, hs⟩ := hlits t (List.mem_cons_self t rest)
    subst hs
    rw [cssFold, ih (fun x hx => hlits x (List.mem_cons_of_mem _ hx))]
    rfl

theorem cssFold_single_ref
    (proc : String → St → Except (String × St) (Option ManifestEntry × St))
    (p baseDir v : String) (pre post : List CssTok) (st st₁ : St)
    (hlp : ∀ t ∈ pre, ∃ s, t = CssTok.lit s)
    (hlq : ∀ t ∈ post, ∃ s, t = CssTok.lit s)
    (hproc : proc (resolvedRefPath p baseDir v) st = Except.ok (none, st₁)) :
    cssFold proc p baseDir (pre ++ CssTok.url v :: post) st =
      Except.ok (pre ++ CssTok.url v :: post, st₁) := by
  induction pre with
  | nil =>
    rw [List.nil_append, cssFold]
    simp only [processImagePath, hproc, exceptBindOk]
    rw [cssFold_lits proc p baseDir post st₁ hlq]
    rfl
  | cons t rest ih =>
    obtain ⟨s, hs⟩ := hlp t (List.mem_cons_self t rest)
    subst hs
    rw [List.cons_append, cssFold, ih (fun x hx => hlp x (List.mem_cons_of_mem _ hx))]
    rfl

theorem processEntry_build_error (H : String → String) (opts : Opts)
    (baseDir targetDir : String) (fuel : Nat) (q : String) (st stE : St) (m : String)
    (hcont : opts.continueOnError = true)
    (hcache : ∀ x, st.lookup q = some x → x.unverified = true)
    (hpre : strStarts q baseDir = true)
    (hhash : isHashedFile q = false)
    (hexcl : opts.shouldBeExcluded q = false)
    (hbuild : buildEntry H opts (processEntry H opts baseDir targetDir fuel)
      q baseDir targetDir st = Except.error (m, stE)) :
    processEntry H opts baseDir targetDir (fuel + 1) q st =
      Except.ok (none, { stE with errors := stE.errors ++ [wrapErr q m] }) := by
  rw [processEntry_succ]
  cases hx : st.lookup q with
  | none =>
    dsimp only
    simp [processEntryCore, hpre, hhash, hexcl, hbuild, hcont, wrapErr]
  | some e =>
    dsimp only
    rw [if_neg (show ¬ e.unverified = false by rw [hcache e hx]; simp)]
    simp [processEntryCore, hpre, hhash, hexcl, hbuild, hcont, wrapErr]

theorem processEntry_cssref_skipped (H : String → String) (opts : Opts)
    (baseDir targetDir : String) (fuel : Nat) (p : String) (st st₁ : St)
    (d : FileData) (v : String) (pre post : List CssTok)
    (hcssOn : opts.processCss = true) (hext : extnameOf p = ".css")
    (hlk : st.lookup p = none) (hpre : strStarts p baseDir = true)
    (hhash : isHashedFile p = false) (hexcl : opts.shouldBeExcluded p = false)
    (hread : fsRead st.fs p = some d)
    (hdoc : docOfData d = pre ++ CssTok.url v :: post)
    (hlp : ∀ t ∈ pre, ∃ s, t = CssTok.lit s)
    (hlq : ∀ t ∈ post, ∃ s, t = CssTok.lit s)
    (hfail : processEntry H opts baseDir targetDir fuel (resolvedRefPath p baseDir v) st
      = Except.ok (none, st₁)) :
    ∃ e st',
      processEntry H opts baseDir targetDir (fuel + 1) p st = Except.ok (some e, st') ∧
      e = entryWithHash opts p baseDir targetDir
        (H (renderDoc (pre ++ CssTok.url v :: post))) ∧
      st'.errors = st₁.errors ∧
      st'.ops = st₁.ops ++ [FileOp.write e.hashedPathPhysical
        (FileData.text (pre ++ CssTok.url v :: post))] ∧
      st'.manifest = st₁.manifest ++ [e] ∧
      st'.lookup p = some e := by
  have hcf : cssFold (processEntry H opts baseDir targetDir fuel) p baseDir
      (docOfData d) st = Except.ok (pre ++ CssTok.url v :: post, st₁) := by
    rw [hdoc]
    exact cssFold_single_ref _ p baseDir v pre post st st₁ hlp hlq hfail
  have hbuild := buildEntry_css H opts (processEntry H opts baseDir targetDir fuel)
    p baseDir targetDir st st₁ d (pre ++ CssTok.url v :: post) ⟨hcssOn, hext⟩ hread hcf
  have hewhtt := (entryWithHash_fields opts p baseDir targetDir
    (H (renderDoc (pre ++ CssTok.url v :: post)))).2.2.2.2.2.2
  have heq := reset_transformedText (entryWithHash opts p baseDir targetDir
    (H (renderDoc (pre ++ CssTok.url v :: post)))) (pre ++ CssTok.url v :: post) hewhtt
  have hrun := processEntry_fresh_write H opts baseDir targetDir fuel p st st₁
    ({ entryWithHash opts p baseDir targetDir
        (H (renderDoc (pre ++ CssTok.url v :: post))) with
      transformedText := some (pre ++ CssTok.url v :: post) })
    (pre ++ CssTok.url v :: post) hlk hpre hhash hexcl hbuild rfl
  rw [heq] at hrun
  refine ⟨entryWithHash opts p baseDir targetDir
      (H (renderDoc (pre ++ CssTok.url v :: post))), _, hrun, rfl, rfl, rfl, rfl, ?_⟩
  show lookupInsert st₁.lookup p _ p = some _
  rw [lookupInsert, if_pos rfl]

end EngineLemmas

/-- C5: during reference rewriting of a stylesheet, an embedded
reference whose recursive per-file processing yields no entry is left
unchanged in the transformed output text. -/
theorem cssRef_unchanged_when_no_entry
    (proc : String → St → Except (String × St) (Option ManifestEntry × St))
    (fullPath basePath virtualPath : String) (st st' : St)
    (h : proc (resolvedRefPath fullPath basePath virtualPath) st = Except.ok (none, st')) :
    processImagePath proc fullPath basePath virtualPath st = Except.ok (virtualPath, st') := by
  simp [processImagePath, h]

theorem cssRef_unchanged_when_no_entry_witness :
    (fun (_ : String) (st : St) =>
        (Except.ok (none, st) : Except (String × St) (Option ManifestEntry × St)))
      (resolvedRefPath "/src/style.css" "/src" "img.png")
      ⟨[], [], fun _ => none, [], []⟩ = Except.ok (none, ⟨[], [], fun _ => none, [], []⟩) ∧
    processImagePath
      (fun _ st => Except.ok (none, st)) "/src/style.css" "/src" "img.png"
      ⟨[], [], fun _ => none, [], []⟩ =
      Except.ok ("img.png", ⟨[], [], fun _ => none, [], []⟩) :=
  ⟨rfl, cssRef_unchanged_when_no_entry (fun _ st => Except.ok (none, st))
    "/src/style.css" "/src" "img.png" _ _ rfl⟩

/-- C8: a candidate input path under the source base that the resolver
recognizes as previously-hashed output is skipped silently: no entry, no
file operation, no error raised or recorded. -/
theorem alreadyHashed_skipped
    (H : String → String) (opts : Opts) (baseDir targetDir : String)
    (fuel : Nat) (fullPath : String) (st : St)
    (hcache : ∀ e, st.lookup fullPath = some e → e.unverified = true)
    (hpre : strStarts fullPath baseDir = true)
    (hhashed : isHashedFile fullPath = true) :
    processEntry H opts baseDir targetDir (fuel + 1) fullPath st = Except.ok (none, st) := by
  show (match st.lookup fullPath with
    | some e =>
      if e.unverified = false then Except.ok (some e, st)
      else processEntryCore H opts baseDir targetDir
        (processEntry H opts baseDir targetDir fuel) fullPath (some e) st
    | none => processEntryCore H opts baseDir targetDir
        (processEntry H opts baseDir targetDir fuel) fullPath none st) = Except.ok (none, st)
  cases hq : st.lookup fullPath with
  | none => simp [processEntryCore, hpre, hhashed]
  | some e => simp [hcache e hq, processEntryCore, hpre, hhashed]

theorem alreadyHashed_skipped_witness :
    ((∀ e, (⟨[], [], fun _ => none, [], []⟩ : St).lookup "/src/a-hcX.txt" = some e →
        e.unverified = true) ∧
      strStarts "/src/a-hcX.txt" "/src" = true ∧
      isHashedFile "/src/a-hcX.txt" = true) ∧
    processEntry (fun s => s) ⟨none, false, false, false, fun _ => false, []⟩
      "/src" "/dist" 4 "/src/a-hcX.txt" ⟨[], [], fun _ => none, [], []⟩ =
      Except.ok (none, ⟨[], [], fun _ => none, [], []⟩) :=
  ⟨⟨fun e h => by simp at h, by decide, by decide⟩,
    alreadyHashed_skipped (fun s => s) ⟨none, false, false, false, fun _ => false, []⟩
      "/src" "/dist" 3 "/src/a-hcX.txt" ⟨[], [], fun _ => none, [], []⟩
      (fun e h => by simp at h) (by decide) (by decide)⟩

/-- C1: in amend mode, when the unverified carried-over entry for a
candidate file records the same hashed virtual path as the freshly
computed one, processEntry confirms the carry-over: the unverified
marker is cleared, the existing entry itself is returned, no copy and no
write is performed beyond the build step, and no new entry is appended
to the session manifest. -/
theorem amend_confirms_matching_carryover
    (H : String → String) (opts : Opts) (baseDir targetDir : String)
    (fuel : Nat) (fullPath : String) (st st₁ : St) (e fresh : ManifestEntry)
    (hlookup : st.lookup fullPath = some e)
    (hunv : e.unverified = true)
    (hpre : strStarts fullPath baseDir = true)
    (hhash : isHashedFile fullPath = false)
    (hexcl : opts.shouldBeExcluded fullPath = false)
    (hbuild : buildEntry H opts (processEntry H opts baseDir targetDir fuel)
        fullPath baseDir targetDir st = Except.ok (fresh, st₁))
    (hmatch : fresh.hashedPath = e.hashedPath) :
    processEntry H opts baseDir targetDir (fuel + 1) fullPath st =
      Except.ok (some (clearUnverified e), confirmSt st₁ e) ∧
    (confirmSt st₁ e).ops = st₁.ops ∧
    (confirmSt st₁ e).fs = st₁.fs ∧
    (confirmSt st₁ e).errors = st₁.errors ∧
    (confirmSt st₁ e).manifest.length = st₁.manifest.length := by
  refine ⟨?_, rfl, rfl, rfl, by simp [confirmSt]⟩
  show (match st.lookup fullPath with
    | some e =>
      if e.unverified = false then Except.ok (some e, st)
      else processEntryCore H opts baseDir targetDir
        (processEntry H opts baseDir targetDir fuel) fullPath (some e) st
    | none => processEntryCore H opts baseDir targetDir
        (processEntry H opts baseDir targetDir fuel) fullPath none st) =
    Except.ok (some (clearUnverified e), confirmSt st₁ e)
  simp [hlookup, hunv, processEntryCore, hpre, hhash, hexcl, hbuild, hmatch]

theorem amend_confirms_matching_carryover_witness :
    processEntry idH wOptsAmend "/src" "/dist" 4 "/src/a.txt" wStA =
      Except.ok (some (clearUnverified wEntryA), confirmSt wStA wEntryA) ∧
    (confirmSt wStA wEntryA).ops = wStA.ops ∧
    (confirmSt wStA wEntryA).fs = wStA.fs ∧
    (confirmSt wStA wEntryA).errors = wStA.errors ∧
    (confirmSt wStA wEntryA).manifest.length = wStA.manifest.length :=
  amend_confirms_matching_carryover idH wOptsAmend "/src" "/dist" 3 "/src/a.txt"
    wStA wStA wEntryA wFreshA rfl rfl (by decide) (by decide) rfl rfl rfl

theorem createManifestEntry_precomputed (H : String → String) (opts : Opts)
    (fullPath basePath targetBasePath : String) (fs : FS) (h : String) :
    ∃ e, createManifestEntry H opts fullPath basePath targetBasePath fs (some h) =
        Except.ok e ∧ e.hashCode = some h ∧ e.transformedText = none := by
  refine ⟨_, rfl, ?_, ?_⟩
  · exact (pluginsFold_fields opts.plugins _).2.2.2.2.1
  · exact (pluginsFold_fields opts.plugins _).2.2.2.2.2.2

/-- C3: the hash code of a manifest entry built for a stylesheet is
computed over the transformed text attached to the entry, not over the
original bytes; consequently (second conjunct, at a concrete tree)
changing the bytes of a referenced image changes the hash code and the
hashed filename of the stylesheet even though the stylesheet source
bytes are unchanged. -/
theorem cssHash_over_transformed_text :
    (∀ (H : String → String) (opts : Opts)
      (proc : String → St → Except (String × St) (Option ManifestEntry × St))
      (fullPath basePath targetDir : String) (st st₁ : St) (entry : ManifestEntry),
      createManifestEntryCss H opts proc fullPath basePath targetDir st =
        Except.ok (entry, st₁) →
      ∃ tdoc, entry.transformedText = some tdoc ∧
        entry.hashCode = some (H (renderDoc tdoc))) ∧
    (fsRead wFsX "/src/style.css" = fsRead wFsY "/src/style.css" ∧
      ∃ eX stX eY stY,
        processEntry idH wOptsCss "/src" "/dist" 3 "/src/style.css" (freshSt wFsX) =
          Except.ok (some eX, stX) ∧
        processEntry idH wOptsCss "/src" "/dist" 3 "/src/style.css" (freshSt wFsY) =
          Except.ok (some eY, stY) ∧
        eX.hashCode ≠ eY.hashCode ∧
        eX.hashedPathPhysical ≠ eY.hashedPathPhysical) := by
  constructor
  · intro H opts proc fullPath basePath targetDir st st₁ entry h
    unfold createManifestEntryCss at h
    cases hr : readFileE st.fs fullPath with
    | error m => rw [hr] at h; simp at h
    | ok d =>
      rw [hr] at h
      simp only [exceptBindOk] at h
      cases hc : cssFold proc fullPath basePath (docOfData d) st with
      | error m => rw [hc] at h; simp at h
      | ok r =>
        rw [hc] at h
        simp only [exceptBindOk] at h
        obtain ⟨e, he, hhc, htt⟩ := createManifestEntry_precomputed H opts fullPath
          basePath targetDir r.2.fs (H (renderDoc r.1))
        rw [he] at h
        simp only [Except.ok.injEq, Prod.mk.injEq] at h
        refine ⟨r.1, ?_, ?_⟩
        · rw [← h.1]
        · rw [← h.1]; simpa using hhc
  · exact ⟨rfl, _, _, _, _, rfl, rfl, by decide, by decide⟩

theorem cssHash_over_transformed_text_witness :
    ∃ tdoc,
      (⟨"/style.css", "/src/style.css", "/style-hcx:url(url(img.png)).css",
        "/dist/style-hcx:url(url(img.png)).css", some "x:url(url(img.png))", false,
        some [CssTok.lit "x:url(", CssTok.url "img.png", CssTok.lit ")"], []⟩ :
          ManifestEntry).transformedText = some tdoc ∧
      (⟨"/style.css", "/src/style.css", "/style-hcx:url(url(img.png)).css",
        "/dist/style-hcx:url(url(img.png)).css", some "x:url(url(img.png))", false,
        some [CssTok.lit "x:url(", CssTok.url "img.png", CssTok.lit ")"], []⟩ :
          ManifestEntry).hashCode = some (idH (renderDoc tdoc)) :=
  cssHash_over_transformed_text.1 idH wOptsCss (fun _ st => Except.ok (none, st))
    "/src/style.css" "/src" "/dist" (freshSt wFsX) (freshSt wFsX) _ rfl

/-- C6 counterexample: the containment check of processEntry is a
string-prefix test, so a candidate path that does not lie under the
source base directory (here /srcfoo/a.txt against base /src) is
processed without any fatal error: an entry is produced, the error list
stays empty, and the file is even copied outside the target tree. -/
theorem containment_counterexample :
    strStarts "/srcfoo/a.txt" "/src" = true ∧
    strStarts "/srcfoo/a.txt" ("/src" ++ "/") = false ∧
    ∃ e st', processEntry idH wOptsCont "/src" "/dist" 3 "/srcfoo/a.txt" wStOutside =
        Except.ok (some e, st') ∧
      st'.errors = [] ∧ st'.manifest = [e] :=
  ⟨by decide, by decide, _, _, rfl, rfl, rfl⟩

/-- C6 amended: for every candidate file path that does not have the
source base directory as a string prefix, processEntry raises the fatal
containment error: the error propagates unchanged even when
continue-on-error is enabled, the session state is untouched, and
nothing is recorded in the error list. -/
theorem containment_violation_fatal
    (H : String → String) (opts : Opts) (baseDir targetDir : String)
    (fuel : Nat) (fullPath : String) (st : St)
    (hcache : ∀ e, st.lookup fullPath = some e → e.unverified = true)
    (hpre : strStarts fullPath baseDir = false) :
    processEntry H opts baseDir targetDir (fuel + 1) fullPath st =
      Except.error ("The file " ++ fullPath ++ " is not in the base directory: " ++ baseDir, st) := by
  show (match st.lookup fullPath with
    | some e =>
      if e.unverified = false then Except.ok (some e, st)
      else processEntryCore H opts baseDir targetDir
        (processEntry H opts baseDir targetDir fuel) fullPath (some e) st
    | none => processEntryCore H opts baseDir targetDir
        (processEntry H opts baseDir targetDir fuel) fullPath none st) = _
  cases hq : st.lookup fullPath with
  | none => simp [processEntryCore, hpre]
  | some e => simp [hcache e hq, processEntryCore, hpre]

theorem containment_violation_fatal_witness :
    strStarts "/other/b.txt" "/src" = false ∧
    processEntry idH wOptsCont "/src" "/dist" 3 "/other/b.txt" wStOutside =
      Except.error ("The file " ++ "/other/b.txt" ++ " is not in the base directory: " ++ "/src",
        wStOutside) :=
  ⟨by decide, containment_violation_fatal idH wOptsCont "/src" "/dist" 2 "/other/b.txt"
    wStOutside (fun e h => by simp [wStOutside] at h) (by decide)⟩

/-- C10: with continue-on-error enabled, when the per-file build of any
asset fails, the error wrapped with the asset path is recorded in the
session error list and processing returns no entry (first conjunct,
universal over assets, failure messages and states); any stylesheet one
of whose embedded references is recursively processed to no entry is
nevertheless built and materialised: written to its hashed physical path
with the failing reference left verbatim (unhashed) in the transformed
text and appended to the session manifest (second conjunct, universal
over stylesheets, references and states); the concrete missing-image
scenario composes the two (third conjunct). -/
theorem cssRef_failure_isolated :
    (∀ (H : String → String) (opts : Opts) (baseDir targetDir : String) (fuel : Nat)
      (q : String) (st stE : St) (m : String),
      opts.continueOnError = true →
      (∀ x, st.lookup q = some x → x.unverified = true) →
      strStarts q baseDir = true →
      isHashedFile q = false →
      opts.shouldBeExcluded q = false →
      buildEntry H opts (processEntry H opts baseDir targetDir fuel)
        q baseDir targetDir st = Except.error (m, stE) →
      processEntry H opts baseDir targetDir (fuel + 1) q st =
        Except.ok (none, { stE with errors := stE.errors ++ [wrapErr q m] })) ∧
    (∀ (H : String → String) (opts : Opts) (baseDir targetDir : String) (fuel : Nat)
      (p : String) (st st₁ : St) (d : FileData) (v : String) (pre post : List CssTok),
      opts.processCss = true →
      extnameOf p = ".css" →
      st.lookup p = none →
      strStarts p baseDir = true →
      isHashedFile p = false →
      opts.shouldBeExcluded p = false →
      fsRead st.fs p = some d →
      docOfData d = pre ++ CssTok.url v :: post →
      (∀ t ∈ pre, ∃ s, t = CssTok.lit s) →
      (∀ t ∈ post, ∃ s, t = CssTok.lit s) →
      processEntry H opts baseDir targetDir fuel (resolvedRefPath p baseDir v) st =
        Except.ok (none, st₁) →
      ∃ e st',
        processEntry H opts baseDir targetDir (fuel + 1) p st =
          Except.ok (some e, st') ∧
        e = entryWithHash opts p baseDir targetDir
          (H (renderDoc (pre ++ CssTok.url v :: post))) ∧
        st'.errors = st₁.errors ∧
        st'.ops = st₁.ops ++ [FileOp.write e.hashedPathPhysical
          (FileData.text (pre ++ CssTok.url v :: post))] ∧
        st'.manifest = st₁.manifest ++ [e] ∧
        st'.lookup p = some e) ∧
    ((∃ st'', processEntry idH wOptsContCss "/src" "/dist" 2 "/src/img.png" wStCssOnly =
        Except.ok (none, st'') ∧
      st''.errors = ["ERROR: /src/img.png: ENOENT: no such file /src/img.png"]) ∧
    ∃ e st', processEntry idH wOptsContCss "/src" "/dist" 3 "/src/style.css" wStCssOnly =
        Except.ok (some e, st') ∧
      st'.errors = ["ERROR: /src/img.png: ENOENT: no such file /src/img.png"] ∧
      st'.ops = [FileOp.write "/dist/style-hcbackground:url(url(img.png)).css"
        (FileData.text [CssTok.lit "background:url(", CssTok.url "img.png", CssTok.lit ")"])] ∧
      st'.manifest = [e] ∧
      e.path = "/style.css" ∧
      e.transformedText = none) := by
  refine ⟨?_, ?_, ⟨_, rfl, rfl⟩, _, _, rfl, rfl, rfl, rfl, rfl, rfl⟩
  · intro H opts baseDir targetDir fuel q st stE m hcont hcache hpre hhash hexcl hbuild
    exact processEntry_build_error H opts baseDir targetDir fuel q st stE m
      hcont hcache hpre hhash hexcl hbuild
  · intro H opts baseDir targetDir fuel p st st₁ d v pre post hcssOn hext hlk hpre
      hhash hexcl hread hdoc hlp hlq hfail
    exact processEntry_cssref_skipped H opts baseDir targetDir fuel p st st₁ d v pre post
      hcssOn hext hlk hpre hhash hexcl hread hdoc hlp hlq hfail

theorem cssRef_failure_isolated_witness :
    processEntry idH wOptsContCss "/src" "/dist" 2 "/src/img.png" wStCssOnly =
      Except.ok (none, { wStCssOnly with errors := wStCssOnly.errors ++
        [wrapErr "/src/img.png" "ENOENT: no such file /src/img.png"] }) ∧
    ∃ e st',
      processEntry idH wOptsContCss "/src" "/dist" 3 "/src/style.css" wStCssOnly =
        Except.ok (some e, st') ∧
      e = entryWithHash wOptsContCss "/src/style.css" "/src" "/dist"
        (idH (renderDoc ([CssTok.lit "background:url("] ++
          CssTok.url "img.png" :: [CssTok.lit ")"]))) ∧
      st'.errors = wStErr.errors ∧
      st'.ops = wStErr.ops ++ [FileOp.write e.hashedPathPhysical
        (FileData.text ([CssTok.lit "background:url("] ++
          CssTok.url "img.png" :: [CssTok.lit ")"]))] ∧
      st'.manifest = wStErr.manifest ++ [e] ∧
      st'.lookup "/src/style.css" = some e :=
  ⟨cssRef_failure_isolated.1 idH wOptsContCss "/src" "/dist" 1 "/src/img.png"
      wStCssOnly wStCssOnly "ENOENT: no such file /src/img.png" rfl
      (fun x hx => Option.noConfusion hx) (by decide) (by decide) (by decide) rfl,
    cssRef_failure_isolated.2.1 idH wOptsContCss "/src" "/dist" 2 "/src/style.css"
      wStCssOnly wStErr
      (FileData.text [CssTok.lit "background:url(", CssTok.url "img.png", CssTok.lit ")"])
      "img.png" [CssTok.lit "background:url("] [CssTok.lit ")"]
      rfl rfl rfl (by decide) (by decide) (by decide) rfl rfl
      (fun t ht => ⟨"background:url(", List.mem_singleton.mp ht⟩)
      (fun t ht => ⟨")", List.mem_singleton.mp ht⟩) rfl⟩

/-- C7: in amend mode, when the freshly computed hashed path of a
carried-over entry differs from the recorded one, the fresh entry is
appended to the session manifest while the stale carried-over entry
remains in it, so both coexist under the same virtual path (first
conjunct, general); at the processFiles level the written manifest then
contains two entries with the same virtual path, the stale one with its
unverified marker stripped (second conjunct, concrete). -/
theorem amend_mismatch_keeps_stale_and_appends_fresh :
    (∀ (H : String → String) (opts : Opts) (baseDir targetDir : String)
      (fuel : Nat) (fullPath : String) (st st₁ : St) (e fresh : ManifestEntry) (d : FileData),
      st.lookup fullPath = some e →
      e.unverified = true →
      strStarts fullPath baseDir = true →
      isHashedFile fullPath = false →
      opts.shouldBeExcluded fullPath = false →
      buildEntry H opts (processEntry H opts baseDir targetDir fuel)
        fullPath baseDir targetDir st = Except.ok (fresh, st₁) →
      fresh.hashedPath ≠ e.hashedPath →
      fresh.transformedText = none →
      fresh.unverified = false →
      fsRead st₁.fs fresh.pathPhysical = some d →
      e ∈ st₁.manifest →
      e.path = fresh.path →
      processEntry H opts baseDir targetDir (fuel + 1) fullPath st =
          Except.ok (some fresh, afterCopyPush st₁ fullPath fresh d) ∧
        (afterCopyPush st₁ fullPath fresh d).manifest = st₁.manifest ++ [fresh] ∧
        e ∈ (afterCopyPush st₁ fullPath fresh d).manifest ∧
        fresh ∈ (afterCopyPush st₁ fullPath fresh d).manifest ∧
        e ≠ fresh ∧ e.path = fresh.path) ∧
    codeAndFileAt (processFiles idH wOptsAmend 5 ["/src/a.txt"] "/src" "/dist" wFsChanged)
        "/dist/manifest.json" =
      some (0, some (FileData.manifest
        [⟨"/a.txt", "/a-hcA.txt", []⟩, ⟨"/a.txt", "/a-hcB.txt", []⟩])) := by
  constructor
  · intro H opts baseDir targetDir fuel fullPath st st₁ e fresh d
      hlookup hunv hpre hhash hexcl hbuild hmismatch htext hfu hread hmem hpath
    refine ⟨?_, rfl, by simp [afterCopyPush, hmem], by simp [afterCopyPush], ?_, hpath⟩
    · show (match st.lookup fullPath with
        | some e =>
          if e.unverified = false then Except.ok (some e, st)
          else processEntryCore H opts baseDir targetDir
            (processEntry H opts baseDir targetDir fuel) fullPath (some e) st
        | none => processEntryCore H opts baseDir targetDir
            (processEntry H opts baseDir targetDir fuel) fullPath none st) = _
      simp only [hlookup, hunv, Bool.true_eq_false, if_false]
      simp [processEntryCore, hpre, hhash, hexcl, hbuild, hmismatch, hunv,
        materialize, htext, copySyncE, hread, afterCopyPush]
    · intro hef
      rw [hef, hfu] at hunv
      exact Bool.false_ne_true hunv
  · decide

theorem amend_mismatch_keeps_stale_and_appends_fresh_witness :
    processEntry idH wOptsAmend "/src" "/dist" 4 "/src/a.txt" wStB =
        Except.ok (some wFreshB,
          afterCopyPush wStB "/src/a.txt" wFreshB (FileData.text [CssTok.lit "B"])) ∧
      (afterCopyPush wStB "/src/a.txt" wFreshB (FileData.text [CssTok.lit "B"])).manifest =
        wStB.manifest ++ [wFreshB] ∧
      wEntryA ∈ (afterCopyPush wStB "/src/a.txt" wFreshB (FileData.text [CssTok.lit "B"])).manifest ∧
      wFreshB ∈ (afterCopyPush wStB "/src/a.txt" wFreshB (FileData.text [CssTok.lit "B"])).manifest ∧
      wEntryA ≠ wFreshB ∧ wEntryA.path = wFreshB.path :=
  amend_mismatch_keeps_stale_and_appends_fresh.1 idH wOptsAmend "/src" "/dist" 3 "/src/a.txt"
    wStB wStB wEntryA wFreshB (FileData.text [CssTok.lit "B"]) rfl rfl (by decide) (by decide)
    rfl rfl (by decide) rfl rfl rfl (by decide) rfl

theorem cleanOldWalk_eq (sd : String → Bool) (l : List String) (fs : FS) (ops : List FileOp) :
    cleanOldWalk sd l fs ops =
      (fs.filter (fun kv => ! (decide (kv.1 ∈ l) && sd kv.1)),
        ops ++ (l.filter sd).map FileOp.del) := by
  induction l generalizing fs ops with
  | nil => simp [cleanOldWalk]
  | cons p rest ih =>
    by_cases hp : sd p = true
    · rw [show cleanOldWalk sd (p :: rest) fs ops =
          cleanOldWalk sd rest (fsDelete fs p) (ops ++ [FileOp.del p]) by
        simp [cleanOldWalk, hp]]
      rw [ih]
      simp only [Prod.mk.injEq]
      constructor
      · show (fsDelete fs p).filter _ = _
        rw [fsDelete, List.filter_filter]
        apply List.filter_congr
        intro kv _
        by_cases hk : kv.1 = p
        · simp [hk, hp]
        · simp [hk]
      · simp [hp]
    · rw [show cleanOldWalk sd (p :: rest) fs ops = cleanOldWalk sd rest fs ops by
        simp [cleanOldWalk, hp]]
      rw [ih]
      simp only [Prod.mk.injEq]
      constructor
      · apply List.filter_congr
        intro kv _
        by_cases hk : kv.1 = p
        · simp [hk, Bool.eq_false_iff.mpr hp]
        · simp [hk]
      · simp [Bool.eq_false_iff.mpr hp]

/-- Doom predicate of the stale clean at fully applied parameters. -/
def cleanOldDoom (cleanOldDays : Option Int) (directory : String)
    (tes : List TrimmedEntry) (mtimeOf : String → Int) (now : Int) (p : String) : Bool :=
  cleanOldDoomed (tes.map (fun t => directory ++ t.hashedPath))
    (match cleanOldDays with | some d => decide (d > 0) | none => false)
    (now - cleanOldDays.getD 0) mtimeOf p

/-- Survivors of the stale clean: the files not doomed among the walked
hashed population. -/
def cleanOldSurvivors (cleanOldDays : Option Int) (directory : String)
    (tes : List TrimmedEntry) (mtimeOf : String → Int) (now : Int) (fs : FS) : FS :=
  fs.filter (fun kv =>
    ! (decide (kv.1 ∈ (fs.map Prod.fst).filter (fun p => strStarts p (directory ++ "/"))) &&
      cleanOldDoom cleanOldDays directory tes mtimeOf now kv.1))

/-- C9: in the stale-clean operation, for every hashed file under the
target directory: a file whose path is in the set of hashed paths
referenced by the current manifest is never deleted regardless of age; a
file outside that set is deleted unconditionally when no positive age
threshold is configured, and otherwise deleted exactly when its
last-modified time is older than now minus the configured number of
days. -/
theorem cleanOld_characterisation
    (opts : Opts) (cleanOldDays : Option Int) (directory : String)
    (fs : FS) (mtimeOf : String → Int) (now : Int) (tes : List TrimmedEntry)
    (hread : fsRead fs (getManifestPath opts directory) = some (FileData.manifest tes)) :
    (∃ ops, cleanOld opts cleanOldDays directory fs mtimeOf now =
      Except.ok (cleanOldSurvivors cleanOldDays directory tes mtimeOf now fs, ops)) ∧
    (∀ kv ∈ fs, strStarts kv.1 (directory ++ "/") = true → isHashedFile kv.1 = true →
      (kv.1 ∈ tes.map (fun t => directory ++ t.hashedPath) →
        kv ∈ cleanOldSurvivors cleanOldDays directory tes mtimeOf now fs) ∧
      (kv.1 ∉ tes.map (fun t => directory ++ t.hashedPath) →
        ((match cleanOldDays with | some d => decide (d > 0) | none => false) = false →
          kv ∉ cleanOldSurvivors cleanOldDays directory tes mtimeOf now fs) ∧
        ((match cleanOldDays with | some d => decide (d > 0) | none => false) = true →
          (kv ∈ cleanOldSurvivors cleanOldDays directory tes mtimeOf now fs ↔
            now - cleanOldDays.getD 0 ≤ mtimeOf kv.1)))) := by
  constructor
  · refine ⟨(((fs.map Prod.fst).filter (fun p => strStarts p (directory ++ "/"))).filter
      (cleanOldDoom cleanOldDays directory tes mtimeOf now)).map FileOp.del, ?_⟩
    unfold cleanOld
    dsimp only
    rw [hread]
    simp only [exceptBindOk]
    rw [cleanOldWalk_eq]
    rfl
  · intro kv hkv hdir hhash
    have hmemwalk : kv.1 ∈ (fs.map Prod.fst).filter (fun p => strStarts p (directory ++ "/")) := by
      rw [List.mem_filter]
      exact ⟨List.mem_map_of_mem Prod.fst hkv, hdir⟩
    refine ⟨?_, ?_⟩
    · intro hin
      rw [cleanOldSurvivors, List.mem_filter]
      refine ⟨hkv, ?_⟩
      simp [cleanOldDoom, cleanOldDoomed, List.elem_eq_mem, hin]
    · intro hout
      constructor
      · intro hgate hmem
        rw [cleanOldSurvivors, List.mem_filter] at hmem
        have h2 := hmem.2
        simp only [cleanOldDoom, hgate] at h2
        simp [cleanOldDoomed, List.elem_eq_mem, hout, hhash, hmemwalk] at h2
      · intro hgate
        rw [cleanOldSurvivors, List.mem_filter]
        constructor
        · intro hmem
          have h2 := hmem.2
          simp only [cleanOldDoom, hgate] at h2
          simp [cleanOldDoomed, List.elem_eq_mem, hout, hhash, hmemwalk] at h2
          omega
        · intro hage
          refine ⟨hkv, ?_⟩
          simp only [cleanOldDoom, hgate]
          simp [cleanOldDoomed, List.elem_eq_mem, hout, hhash, hmemwalk]
          omega

theorem cleanOld_characterisation_witness :
    (∃ ops, cleanOld wOptsCont (some 2) "/dist" wCleanFs wMtime 10 =
      Except.ok (cleanOldSurvivors (some 2) "/dist" wTesClean wMtime 10 wCleanFs, ops)) ∧
    (∀ kv ∈ wCleanFs, strStarts kv.1 ("/dist" ++ "/") = true → isHashedFile kv.1 = true →
      (kv.1 ∈ wTesClean.map (fun t => "/dist" ++ t.hashedPath) →
        kv ∈ cleanOldSurvivors (some 2) "/dist" wTesClean wMtime 10 wCleanFs) ∧
      (kv.1 ∉ wTesClean.map (fun t => "/dist" ++ t.hashedPath) →
        ((match (some 2 : Option Int) with | some d => decide (d > 0) | none => false) = false →
          kv ∉ cleanOldSurvivors (some 2) "/dist" wTesClean wMtime 10 wCleanFs) ∧
        ((match (some 2 : Option Int) with | some d => decide (d > 0) | none => false) = true →
          (kv ∈ cleanOldSurvivors (some 2) "/dist" wTesClean wMtime 10 wCleanFs ↔
            10 - (some 2 : Option Int).getD 0 ≤ wMtime kv.1)))) :=
  cleanOld_characterisation wOptsCont (some 2) "/dist" wCleanFs wMtime 10 wTesClean rfl

/-- C4: with continue-on-error enabled, for a candidate list (of plainly
processed files under the source base) in which exactly one file raises
a per-file read error, processFiles returns the nonzero code, the
session manifest holds exactly the entries of the files that succeeded,
the error list holds exactly one message naming the failing path, and
the written manifest serialises exactly those entries. -/
theorem continueOnError_partial_failure
    (H : String → String) (opts : Opts) (fuel : Nat)
    (files : List String) (baseDir targetDir : String) (fs0 : FS) (b : String)
    (hH : SlashFree H) (hcont : opts.continueOnError = true) (hamend : opts.amend = false)
    (hexists : fsExists fs0 baseDir = true)
    (hmabsent : fsRead fs0 (getManifestPath opts targetDir) = none)
    (hmnotin : getManifestPath opts targetDir ∉ files)
    (hpre : ∀ f ∈ files, strStarts f baseDir = true)
    (hdisp : ∀ f ∈ files, ¬ (opts.processCss = true ∧ extnameOf f = ".css"))
    (hnodup : files.Nodup)
    (honebad : badsOf opts baseDir fs0 files = [b]) :
    ∃ st, processFiles H opts (fuel + 1) files baseDir targetDir fs0 = Except.ok (-1, st) ∧
      st.manifest = (goodsOf opts baseDir fs0 files).map (goodEntry H opts baseDir targetDir fs0) ∧
      st.errors = [wrapErr b (enoent b)] ∧
      fsRead st.fs (getManifestPath opts targetDir) =
        some (FileData.manifest (sortManifest (st.manifest.map trimEntry))) := by
  have hfilter : files.filter (fun f => f ≠ getManifestPath opts targetDir) = files := by
    apply List.filter_eq_self.mpr
    intro f hf
    simp only [decide_eq_true_eq]
    exact fun heq => hmnotin (heq ▸ hf)
  have hdel : fsDelete fs0 (getManifestPath opts targetDir) = fs0 :=
    fsDelete_absent fs0 _ hmabsent
  obtain ⟨st', hrun, hman, herr, hops, hinv'⟩ :=
    processList_fresh_plain H opts baseDir targetDir fs0 hH hcont files fuel
      ⟨[], [], fun _ => none, fs0, [FileOp.del (getManifestPath opts targetDir)]⟩
      hpre hdisp (fun f _ => rfl) hnodup ⟨fun q _ => rfl, fun k e he => by simp at he⟩
  have hrun2 : createManifest H opts (fuel + 1) files baseDir targetDir none fs0
      [FileOp.del (getManifestPath opts targetDir)] = Except.ok st' := hrun
  refine ⟨writeFileOp st' (getManifestPath opts targetDir)
    (FileData.manifest (sortManifest (st'.manifest.map trimEntry))), ?_, ?_, ?_, ?_⟩
  · rw [processFiles]
    dsimp only
    rw [if_pos hexists]
    simp only [hamend, Bool.false_eq_true, if_false]
    rw [hfilter, hdel, hrun2]
    dsimp only
    rw [if_pos (by
      show ¬ st'.errors = []
      rw [herr, honebad]
      simp)]
  · show st'.manifest = _
    rw [hman]
    simp
  · show st'.errors = _
    rw [herr, honebad]
    simp
  · show fsRead (fsWrite st'.fs _ _) _ = _
    rw [fsRead_fsWrite, if_pos rfl]
    rfl

theorem wHsf_slashFree : SlashFree wHsf := by
  intro s hmem
  rw [wHsf] at hmem
  have := List.mem_filter.mp hmem
  simp at this

theorem continueOnError_partial_failure_witness :
    ∃ st, processFiles wHsf wOptsCont 4 ["/src/a.txt", "/src/bad.txt", "/src/c.txt"]
        "/src" "/dist" wFsC4 = Except.ok (-1, st) ∧
      st.manifest = (goodsOf wOptsCont "/src" wFsC4
        ["/src/a.txt", "/src/bad.txt", "/src/c.txt"]).map
          (goodEntry wHsf wOptsCont "/src" "/dist" wFsC4) ∧
      st.errors = [wrapErr "/src/bad.txt" (enoent "/src/bad.txt")] ∧
      fsRead st.fs (getManifestPath wOptsCont "/dist") =
        some (FileData.manifest (sortManifest (st.manifest.map trimEntry))) :=
  continueOnError_partial_failure wHsf wOptsCont 3
    ["/src/a.txt", "/src/bad.txt", "/src/c.txt"] "/src" "/dist" wFsC4 "/src/bad.txt"
    wHsf_slashFree rfl rfl (by decide) (by decide) (by decide) (by decide) (by decide)
    (by decide) (by decide)

/-- C2: for every source tree whose candidate paths are hygienic and
process without error, running reconciliation twice in amend mode over
the unchanged tree succeeds with code 0 both times and yields a
byte-identical serialized manifest; the second run performs no file copy
and no write of a hashed file, its only recorded operations being the
manifest delete and the manifest rewrite, because every seeded entry is
confirmed through the unverified hashed-path comparison before the copy
step is reached. -/
theorem second_run_idempotent (H : String → String) (opts : Opts) (fuel : Nat)
    (files : List String) (baseDir targetDir : String) (fs0 : FS)
    (hB : NormalAbs baseDir) (hBne : splitPath baseDir ≠ [])
    (hT : NormalAbs targetDir) (hTne : splitPath targetDir ≠ [])
    (hH : SlashFree H)
    (hamend : opts.amend = true)
    (hdir : fsExists fs0 baseDir = true)
    (hman0 : fsRead fs0 (getManifestPath opts targetDir) = none)
    (hclean : ∀ f ∈ files, f ≠ getManifestPath opts targetDir →
      specClean opts baseDir fs0 fuel f = true) :
    ∃ st₁ st₂ tes,
      processFiles H opts fuel files baseDir targetDir fs0 = Except.ok (0, st₁) ∧
      processFiles H opts fuel files baseDir targetDir st₁.fs = Except.ok (0, st₂) ∧
      fsRead st₁.fs (getManifestPath opts targetDir) = some (FileData.manifest tes) ∧
      fsRead st₂.fs (getManifestPath opts targetDir) = some (FileData.manifest tes) ∧
      st₂.ops = [FileOp.del (getManifestPath opts targetDir),
        FileOp.write (getManifestPath opts targetDir) (FileData.manifest tes)] := by
  have hfilt : ∀ f ∈ files.filter (fun f => f ≠ getManifestPath opts targetDir),
      specClean opts baseDir fs0 fuel f = true := by
    intro f hf
    have hm := List.mem_filter.mp hf
    exact hclean f hm.1 (by simpa using hm.2)
  have hinv0 : Inv1 H opts baseDir targetDir fs0
      (St.mk [] [] (fun _ => none) fs0 [FileOp.del (getManifestPath opts targetDir)]) := by
    refine ⟨fun q _ => rfl, ?_, ?_⟩
    · intro k e h
      exact absurd h (by simp)
    · intro e he
      exact absurd he (List.not_mem_nil e)
  obtain ⟨stm, hpl, hinvm, herrm, _, hcovm, hfsem⟩ :=
    processList_run1 H opts baseDir targetDir fs0 hB hBne hT hTne hH fuel
      (files.filter (fun f => f ≠ getManifestPath opts targetDir))
      (St.mk [] [] (fun _ => none) fs0 [FileOp.del (getManifestPath opts targetDir)])
      hfilt hinv0
  have herrm0 : stm.errors = [] := herrm
  have hrun1 := processFiles_amend_fresh H opts fuel files baseDir targetDir fs0 stm
    hamend hdir hman0 hpl herrm0
  have hdir2 : fsExists (fsWrite stm.fs (getManifestPath opts targetDir)
      (FileData.manifest (sortManifest (stm.manifest.map trimEntry)))) baseDir = true :=
    fsExists_fsWrite stm.fs _ _ baseDir (hfsem baseDir hdir)
  have hread2 : fsRead (fsWrite stm.fs (getManifestPath opts targetDir)
      (FileData.manifest (sortManifest (stm.manifest.map trimEntry))))
      (getManifestPath opts targetDir)
      = some (FileData.manifest (sortManifest (stm.manifest.map trimEntry))) := by
    rw [fsRead_fsWrite, if_pos rfl]
  obtain ⟨hinv2, hdom⟩ := inv2_seed H opts baseDir targetDir fs0 hB hBne hT hTne hH stm
    (getManifestPath opts targetDir)
    (FileData.manifest (sortManifest (stm.manifest.map trimEntry)))
    [FileOp.del (getManifestPath opts targetDir)] []
    hinvm hman0
    (((sortManifest (stm.manifest.map trimEntry)).map
      (entryOfTrimmed baseDir targetDir)).map seedEntry)
    (St.mk (((sortManifest (stm.manifest.map trimEntry)).map
        (entryOfTrimmed baseDir targetDir)).map seedEntry) []
      ((((sortManifest (stm.manifest.map trimEntry)).map
        (entryOfTrimmed baseDir targetDir)).map seedEntry).foldl
        (fun lk e => lookupInsert lk e.pathPhysical e) (fun _ => none))
      (fsDelete (fsWrite stm.fs (getManifestPath opts targetDir)
        (FileData.manifest (sortManifest (stm.manifest.map trimEntry))))
        (getManifestPath opts targetDir))
      [FileOp.del (getManifestPath opts targetDir)])
    rfl rfl
  obtain ⟨st2m, hpl2, hinv2m, hflip⟩ :=
    processList_run2 H opts baseDir targetDir fs0 hB hBne hT hTne hH fuel
      (files.filter (fun f => f ≠ getManifestPath opts targetDir))
      (St.mk (((sortManifest (stm.manifest.map trimEntry)).map
          (entryOfTrimmed baseDir targetDir)).map seedEntry) []
        ((((sortManifest (stm.manifest.map trimEntry)).map
          (entryOfTrimmed baseDir targetDir)).map seedEntry).foldl
          (fun lk e => lookupInsert lk e.pathPhysical e) (fun _ => none))
        (fsDelete (fsWrite stm.fs (getManifestPath opts targetDir)
          (FileData.manifest (sortManifest (stm.manifest.map trimEntry))))
          (getManifestPath opts targetDir))
        [FileOp.del (getManifestPath opts targetDir)])
      hfilt hinv2
      (fun f hf r hr => hdom r (hcovm f hf r hr))
  have herr2 : st2m.errors = [] := hflip.1
  have hops2 : st2m.ops = [FileOp.del (getManifestPath opts targetDir)] := hflip.2.2.1
  have htrim : st2m.manifest.map trimEntry =
      sortManifest (stm.manifest.map trimEntry) := by
    rw [hflip.2.2.2.1]
    exact map_trim_seed baseDir targetDir (sortManifest (stm.manifest.map trimEntry))
  have hT2 : sortManifest (st2m.manifest.map trimEntry) =
      sortManifest (stm.manifest.map trimEntry) := by
    rw [htrim]
    exact sortManifest_idem (stm.manifest.map trimEntry)
  have hrun2 : processFiles H opts fuel files baseDir targetDir
      (writeFileOp stm (getManifestPath opts targetDir)
        (FileData.manifest (sortManifest (stm.manifest.map trimEntry)))).fs =
      Except.ok (0, writeFileOp st2m (getManifestPath opts targetDir)
        (FileData.manifest (sortManifest (st2m.manifest.map trimEntry)))) := by
    apply processFiles_amend_seeded H opts fuel files baseDir targetDir _ _ st2m hamend
    · exact hdir2
    · exact hread2
    · exact hpl2
    · exact herr2
  rw [hT2] at hrun2
  refine ⟨writeFileOp stm (getManifestPath opts targetDir)
      (FileData.manifest (sortManifest (stm.manifest.map trimEntry))),
    writeFileOp st2m (getManifestPath opts targetDir)
      (FileData.manifest (sortManifest (stm.manifest.map trimEntry))),
    sortManifest (stm.manifest.map trimEntry), hrun1, hrun2, hread2, ?_, ?_⟩
  · show fsRead (fsWrite st2m.fs (getManifestPath opts targetDir)
      (FileData.manifest (sortManifest (stm.manifest.map trimEntry))))
      (getManifestPath opts targetDir) = _
    rw [fsRead_fsWrite, if_pos rfl]
  · show st2m.ops ++ [FileOp.write (getManifestPath opts targetDir)
      (FileData.manifest (sortManifest (stm.manifest.map trimEntry)))] = _
    rw [hops2]
    rfl

theorem second_run_idempotent_witness :
    ∃ st₁ st₂ tes,
      processFiles wHsf wOptsC2 2 ["/src/a.txt"] "/src" "/dist" wFsC2 =
        Except.ok (0, st₁) ∧
      processFiles wHsf wOptsC2 2 ["/src/a.txt"] "/src" "/dist" st₁.fs =
        Except.ok (0, st₂) ∧
      fsRead st₁.fs (getManifestPath wOptsC2 "/dist") = some (FileData.manifest tes) ∧
      fsRead st₂.fs (getManifestPath wOptsC2 "/dist") = some (FileData.manifest tes) ∧
      st₂.ops = [FileOp.del (getManifestPath wOptsC2 "/dist"),
        FileOp.write (getManifestPath wOptsC2 "/dist") (FileData.manifest tes)] :=
  second_run_idempotent wHsf wOptsC2 2 ["/src/a.txt"] "/src" "/dist" wFsC2
    (by simp only [NormalAbs, PlainSeg, ValidSeg]; decide) (by decide)
    (by simp only [NormalAbs, PlainSeg, ValidSeg]; decide) (by decide)
    wHsf_slashFree rfl (by decide) (by decide) (by decide)

end Hashly
